import Mathlib

/-!
# pose_refine: a shallow embedding of `pose_refine.cpp`

The development follows the source file:

* `PoseRefine::process_batch` (chunking of the initial poses, one renderer call per
  chunk, the two ICP phases of every slot) as explicit state passing, the body of the
  parallel region being executed once for every thread of its team, one thread after
  another, and the parallel region under a schedule that interleaves the threads;
* `accumBilateral` and `PoseRefine::get_normal` (the bilateral plane fit), generic in
  the float operations;
* the stages of `PoseRefine::get_depth_edge`: the gradient stage and the magnitude
  image over black-box filters, the curvature detector (orientation mask, non-maximum
  suppression, `cannyTraceEdge` and the hysteresis seed loop) and the occlusion
  detector.

The renderer, the depth-to-cloud converter, the ICP solver and the OpenMP runtime are
external collaborators and appear as function parameters.  Accesses outside a `std::vector` or
a `cv::Mat` and signed overflow are undefined behaviour in the source; the embedding
reports them as a `Fault`.
-/

namespace PoseRefine

/-! # Definitions

The embedding of the source, followed by the notions the statements are written in. -/

section Definitions

variable {F T M P D C S Q : Type}

/-! ## Faults and machine integers -/

/-- Ways in which a run of the embedded code can fail to return a value. -/
inductive Fault where
  /-- an `assert(...)` of the source does not hold -/
  | assertion
  /-- an index outside a `std::vector` or a `cv::Mat` -/
  | outOfBounds
  /-- a signed `int` computation leaves the range of `int` -/
  | intOverflow
  /-- the step budget of a loop of the embedding is used up -/
  | outOfFuel
deriving DecidableEq, Repr

/-- The largest value of a 32-bit `int`. -/
def INT_MAX : Nat := 2147483647

/-- The number of values of `size_t` (64 bit). -/
def SIZE_MOD : Nat := 18446744073709551616

/-- Conversion of a `size_t` value to `int` (two's complement, 32 bit). -/
def toInt32 (v : Nat) : Int :=
  if v % 4294967296 < 2147483648 then ((v % 4294967296 : Nat) : Int)
  else ((v % 4294967296 : Nat) : Int) - 4294967296

/-- The `size_t` difference `a - b` of a `size_t` value `a` and an `int` value `b ≥ 0`
converted to `size_t`: computed modulo `2^64`. -/
def sizeSub (a b : Nat) : Nat :=
  (((a : Int) - (b : Int)) % (SIZE_MOD : Int)).toNat

/-! ## `PoseRefine::process_batch`

The renderer, the depth-to-cloud converter, the ICP solver and the matrix product are
parameters (`Externals`).  The state records every renderer call and every solver
call. -/

/-- Modelled from the spec: `cuda_icp::ICPConvergenceCriteria`, declared in a header
that is not part of the sources; brace-initialised in the source with two epsilons
and an iteration bound, in this order. -/
structure ICPConvergenceCriteria (F : Type) where
  relativeFitnessEps : F
  relativeRmseEps : F
  maxIterations : Int
deriving DecidableEq, Repr

/-- Modelled from the spec: `cuda_icp::RegistrationResult`; the source only touches
`transformation_`, the remaining fields (fitness, RMSE) are kept as one component. -/
structure RegistrationResult (T Q : Type) where
  transformation_ : T
  diagnostics : Q
deriving DecidableEq, Repr

/-- The ICP target: the source touches `max_dist_diff` only, the rest of the scene is
kept as one component. -/
structure Scene (F S : Type) where
  max_dist_diff : F
  geometry : S
deriving DecidableEq, Repr

/-- One recorded call of the ICP solver: the index of `result_poses` it is made for,
and the criteria and rejection distance the solver sees. -/
structure SolverCall (F : Type) where
  slot : Nat
  criteria : ICPConvergenceCriteria F
  max_dist_diff : F
deriving DecidableEq, Repr

/-- The external collaborators and constants of `process_batch`.
`F` floats, `T` the type `Mat4x4f`, `M` the renderer's `mat4x4`, `P` the `cv::Mat`
of an initial pose, `D` the rendered depth buffers, `C` a point cloud, `S` the scene
geometry, `Q` the fit diagnostics. -/
structure Externals (F T M P D C S Q : Type) where
  /-- the literal `1e-5f` -/
  eps : F
  /-- the constant `FLT_MAX` -/
  FLT_MAX : F
  /-- the product `operator*` of `Mat4x4f` -/
  mul : T → T → T
  /-- reading a renderer matrix as a `Mat4x4f` (`reinterpret_cast<Mat4x4f&>`) -/
  asMat4x4f : M → T
  /-- the method `mat4x4::init_from_cv` -/
  init_from_cv : P → M
  /-- the renderer (`render_cpu` or `render_cuda_keep_in_gpu`) on the matrices of a
  chunk, at width and height `width_local`, `height_local` -/
  render : List M → Int → Int → D
  /-- the converter `depth2cloud_*` on the buffer starting at the given offset; the
  last argument is the factor by which the intrinsics `K_icp` are scaled down -/
  depth2cloud : D → Int → Int → Int → Int → C
  /-- the solver `ICP_Point2Plane_*` -/
  icp : C → Scene F S → ICPConvergenceCriteria F → RegistrationResult T Q
  /-- a default-constructed `ICPConvergenceCriteria` -/
  criteria0 : ICPConvergenceCriteria F
  /-- a default-constructed `RegistrationResult` -/
  result0 : RegistrationResult T Q
  /-- the OpenMP runtime: the number of threads it provides for the parallel region of
  `icp_batch(i)` when the clause `num_threads(n)` asks for `n` -/
  omp_team : Nat → Nat → Nat

/-- The members of `PoseRefine` read by `process_batch`. -/
structure Session (F S : Type) where
  width : Int
  height : Int
  batch_size : Nat
  scene : Scene F S

/-- The variables `process_batch` mutates, with the record of the renderer calls (the
matrices of each call) and of the solver calls. -/
structure State (F T M S Q : Type) where
  result_poses : List (RegistrationResult T Q)
  criteria : ICPConvergenceCriteria F
  scene : Scene F S
  render_calls : List (List M)
  solver_calls : List (SolverCall F)

/-- Read `v[k]` of a `std::vector`. -/
def readAt {α : Type} (v : List α) (k : Nat) : Except Fault α :=
  match v[k]? with
  | some a => .ok a
  | none => .error .outOfBounds

/-- Assign to `v[k]` of a `std::vector`. -/
def writeAt {α : Type} (v : List α) (k : Nat) (a : α) : Except Fault (List α) :=
  if k < v.length then .ok (v.set k a) else .error .outOfBounds

/-- The lambda `setting_for_align`. -/
def setting_for_align (E : Externals F T M P D C S Q) (st : State F T M S Q) :
    State F T M S Q :=
  { st with
    criteria := ⟨E.eps, E.eps, 1⟩
    scene := { st.scene with max_dist_diff := E.FLT_MAX } }

/-- The lambda `setting_backup`; `temp_max_diff` is the captured local. -/
def setting_backup (E : Externals F T M P D C S Q) (temp_max_diff : F)
    (st : State F T M S Q) : State F T M S Q :=
  { st with
    criteria := ⟨E.eps, E.eps, 30⟩
    scene := { st.scene with max_dist_diff := temp_max_diff } }

/-- The statement `result_poses[k] = ICP_Point2Plane(pcd, scene, criteria)`, recording
the call. -/
def solve (E : Externals F T M P D C S Q) (pcd : C) (k : Nat) (st : State F T M S Q) :
    Except Fault (State F T M S Q) := do
  let rs ← writeAt st.result_poses k (E.icp pcd st.scene st.criteria)
  .ok { st with
        result_poses := rs
        solver_calls := st.solver_calls ++ [⟨k, st.criteria, st.scene.max_dist_diff⟩] }

/-- The statement
`result_poses[k].transformation_ = result_poses[k].transformation_ * previous_T`. -/
def compose (E : Externals F T M P D C S Q) (k : Nat) (previous_T : T)
    (st : State F T M S Q) : Except Fault (State F T M S Q) := do
  let r ← readAt st.result_poses k
  let rs ← writeAt st.result_poses k
    { r with transformation_ := E.mul r.transformation_ previous_T }
  .ok { st with result_poses := rs }

/-- One ICP phase of a slot: save the running pose, call the solver, compose. -/
def icp_phase (E : Externals F T M P D C S Q) (pcd : C) (k : Nat)
    (st : State F T M S Q) : Except Fault (State F T M S Q) := do
  let r ← readAt st.result_poses k
  let previous_T := r.transformation_
  let st1 ← solve E pcd k st
  compose E k previous_T st1

/-- The body of the parallel region of `icp_batch(i)` for thread `j`. -/
def icp_slot (E : Externals F T M P D C S Q) (temp_max_diff : F) (depth_aligned : Bool)
    (down_sample width_local height_local : Int) (depths : D) (mat4_v : List M)
    (i j : Nat) (st : State F T M S Q) : Except Fault (State F T M S Q) := do
  let m ← readAt mat4_v j
  let r ← readAt st.result_poses (j + i)
  let rs ← writeAt st.result_poses (j + i) { r with transformation_ := E.asMat4x4f m }
  let st0 : State F T M S Q := { st with result_poses := rs }
  let pcd := E.depth2cloud depths ((j : Int) * width_local * height_local)
    width_local height_local down_sample
  let st1 ← if depth_aligned then .ok st0
    else icp_phase E pcd (j + i) (setting_for_align E st0)
  icp_phase E pcd (j + i) (setting_backup E temp_max_diff st1)

/-- The body of the parallel region for the threads `js`, one after another. -/
def run_slots (E : Externals F T M P D C S Q) (temp_max_diff : F) (depth_aligned : Bool)
    (down_sample width_local height_local : Int) (depths : D) (mat4_v : List M)
    (i : Nat) : List Nat → State F T M S Q → Except Fault (State F T M S Q)
  | [], st => .ok st
  | j :: js, st => do
    let st1 ← icp_slot E temp_max_diff depth_aligned down_sample width_local height_local
      depths mat4_v i j st
    run_slots E temp_max_diff depth_aligned down_sample width_local height_local
      depths mat4_v i js st1

/-- The size of the team that executes the region
`# pragma omp parallel num_threads(n)` of `icp_batch(i)`: what the runtime provides, at
least the encountering thread and at most the `n` threads asked for. -/
def team_size (E : Externals F T M P D C S Q) (i n : Nat) : Nat :=
  min n (max 1 (E.omp_team i n))

/-- The lambda `icp_batch`: one renderer call on `mat4_v`, then the body of the parallel
region once for every thread of the team, `j = omp_get_thread_num()` (the region asks
for `mat4_v.size()` threads and has no loop over `j`), here in the order of `j`. -/
def icp_batch (E : Externals F T M P D C S Q) (temp_max_diff : F) (depth_aligned : Bool)
    (down_sample width_local height_local : Int) (mat4_v : List M) (i : Nat)
    (st : State F T M S Q) : Except Fault (State F T M S Q) :=
  let depths := E.render mat4_v width_local height_local
  run_slots E temp_max_diff depth_aligned down_sample width_local height_local
    depths mat4_v i (List.range (team_size E i mat4_v.length))
    { st with render_calls := st.render_calls ++ [mat4_v] }

/-- The loop `for(j=0; j<count; j++) mat4_v[j].init_from_cv(init_poses[j+i])` on a
`mat4_v` of `count` elements: the new contents of `mat4_v`. -/
def load_chunk (E : Externals F T M P D C S Q) (init_poses : List P) (i : Nat) :
    List Nat → Except Fault (List M)
  | [] => .ok []
  | j :: js => do
    let p ← readAt init_poses (j + i)
    let rest ← load_chunk E init_poses i js
    .ok (E.init_from_cv p :: rest)

/-- The loop `for(; i<=init_poses.size()-batch_size; i+=batch_size)`; the bound is a
`size_t` difference.  Returns the final `i` and state. -/
def chunk_loop (E : Externals F T M P D C S Q) (temp_max_diff : F) (depth_aligned : Bool)
    (down_sample width_local height_local : Int) (init_poses : List P) (batch_size : Nat) :
    Nat → Nat → State F T M S Q → Except Fault (Nat × State F T M S Q)
  | 0, _, _ => .error .outOfFuel
  | fuel + 1, i, st =>
    if i ≤ sizeSub init_poses.length batch_size then do
      let mat4_v ← load_chunk E init_poses i (List.range batch_size)
      let st1 ← icp_batch E temp_max_diff depth_aligned down_sample width_local
        height_local mat4_v i st
      if i + batch_size ≤ INT_MAX then
        chunk_loop E temp_max_diff depth_aligned down_sample width_local height_local
          init_poses batch_size fuel (i + batch_size) st1
      else .error .intOverflow
    else .ok (i, st)

/-- The method `PoseRefine::process_batch`, returning the final state; the returned
vector is its `result_poses`. -/
def process_batch (E : Externals F T M P D C S Q) (self : Session F S)
    (init_poses : List P) (down_sample : Int) (depth_aligned : Bool) :
    Except Fault (State F T M S Q) :=
  if down_sample = 0 then .error .assertion
  else if ¬ (Int.tmod self.width down_sample = 0 ∧ Int.tmod self.height down_sample = 0) then
    .error .assertion
  else do
    let width_local := Int.tdiv self.width down_sample
    let height_local := Int.tdiv self.height down_sample
    let temp_max_diff := self.scene.max_dist_diff
    let st0 : State F T M S Q :=
      { result_poses := List.replicate init_poses.length E.result0
        criteria := E.criteria0
        scene := self.scene
        render_calls := []
        solver_calls := [] }
    let (i, st1) ← chunk_loop E temp_max_diff depth_aligned down_sample width_local
      height_local init_poses self.batch_size (init_poses.length + 1) 0 st0
    let left := toInt32 (sizeSub init_poses.length i)
    if left > 0 then do
      let mat4_v ← load_chunk E init_poses i (List.range left.toNat)
      icp_batch E temp_max_diff depth_aligned down_sample width_local height_local
        mat4_v i st1
    else .ok st1

/-! ### The parallel region under interleaving

The body of `# pragma omp parallel` runs once per thread and the threads share
`criteria`, `scene` and `result_poses`.  Below, the body is cut into the statements
between which another thread can run, and a schedule names the thread that executes
its next statement. -/

/-- The statements of the body of the parallel region, in the granularity of the
interleaving: the initialisation of `result_poses[j+i].transformation_`, a call of
`setting_for_align`, a call of `setting_backup`, and an ICP phase (save the running
pose, call the solver, compose). -/
inductive SlotAction where
  | init
  | align
  | backup
  | phase
deriving DecidableEq, Repr

/-- The statements a thread executes, in program order. -/
def slot_actions (depth_aligned : Bool) : List SlotAction :=
  if depth_aligned then [.init, .backup, .phase]
  else [.init, .align, .phase, .backup, .phase]

/-- One statement of thread `j` of `icp_batch(i)` on the shared state. -/
def slot_action (E : Externals F T M P D C S Q) (temp_max_diff : F)
    (down_sample width_local height_local : Int) (depths : D) (mat4_v : List M)
    (i j : Nat) : SlotAction → State F T M S Q → Except Fault (State F T M S Q)
  | .init, st => do
    let m ← readAt mat4_v j
    let r ← readAt st.result_poses (j + i)
    let rs ← writeAt st.result_poses (j + i) { r with transformation_ := E.asMat4x4f m }
    .ok { st with result_poses := rs }
  | .align, st => .ok (setting_for_align E st)
  | .backup, st => .ok (setting_backup E temp_max_diff st)
  | .phase, st =>
    icp_phase E
      (E.depth2cloud depths ((j : Int) * width_local * height_local)
        width_local height_local down_sample)
      (j + i) st

/-- The parallel region under a schedule: each entry of the schedule lets the named
thread execute its next statement (`todo j` are the statements thread `j` has not
executed yet; an entry naming a thread that has finished is skipped). -/
def run_schedule (E : Externals F T M P D C S Q) (temp_max_diff : F)
    (down_sample width_local height_local : Int) (depths : D) (mat4_v : List M)
    (i : Nat) : List Nat → (Nat → List SlotAction) → State F T M S Q →
    Except Fault (State F T M S Q)
  | [], _, st => .ok st
  | j :: schedule, todo, st =>
    match todo j with
    | [] => run_schedule E temp_max_diff down_sample width_local height_local depths
        mat4_v i schedule todo st
    | a :: rest => do
      let st1 ← slot_action E temp_max_diff down_sample width_local height_local depths
        mat4_v i j a st
      run_schedule E temp_max_diff down_sample width_local height_local depths
        mat4_v i schedule (Function.update todo j rest) st1

/-- The lambda `icp_batch` with the threads of the parallel region interleaved by
`schedule`: one renderer call, then the threads of the team. -/
def icp_batch_interleaved (E : Externals F T M P D C S Q) (temp_max_diff : F)
    (depth_aligned : Bool) (down_sample width_local height_local : Int) (mat4_v : List M)
    (i : Nat) (schedule : List Nat) (st : State F T M S Q) :
    Except Fault (State F T M S Q) :=
  let depths := E.render mat4_v width_local height_local
  run_schedule E temp_max_diff down_sample width_local height_local depths mat4_v i
    schedule
    (fun j => if j < team_size E i mat4_v.length then slot_actions depth_aligned else [])
    { st with render_calls := st.render_calls ++ [mat4_v] }

/-! ## Float operations

The source computes in `float` (and once in `double`).  The embedding of the code is
generic in the operations (`FloatOps`); they are read either as exact operations of
an ordered field (`exactOps`) or as IEEE 754 binary32 operations on rationals
(`binary32`). -/

/-- The float operations of the source, as black boxes on a carrier `F`. -/
structure FloatOps (F : Type) where
  /-- conversion of an `int` or `long` value to `float` -/
  ofInt : Int → F
  add : F → F → F
  mul : F → F → F
  div : F → F → F
  /-- conversion of a decimal literal such as `0.05f` -/
  ofLit : ℚ → F
  /-- the function `sqrtf` -/
  sqrt : F → F
  /-- the function `std::abs` -/
  abs : F → F
  /-- the function `std::floor` followed by the conversion to `int` -/
  floor : F → Int
  /-- the comparison `a < b` -/
  lt : F → F → Bool
  /-- the comparison `a == b` -/
  beq : F → F → Bool

/-- Float operations read as exact operations of an ordered field, with a given
square root function. -/
def exactOps (F : Type) [LinearOrderedField F] [FloorRing F] (sqrt : F → F) :
    FloatOps F where
  ofInt := fun n => (n : F)
  add := fun a b => a + b
  mul := fun a b => a * b
  div := fun a b => a / b
  ofLit := fun q => (q : F)
  sqrt := sqrt
  abs := fun a => |a|
  floor := fun a => ⌊a⌋
  lt := fun a b => decide (a < b)
  beq := fun a b => decide (a = b)

/-- A binary32 value: a finite number (the two zeros are not told apart), an infinity
or a NaN. -/
inductive F32 where
  | fin (q : ℚ)
  | inf (negative : Bool)
  | nan
deriving DecidableEq

/-- Rounding to the nearest integer, ties to even. -/
def roundEven (x : ℚ) : ℤ :=
  if x - (⌊x⌋ : ℚ) < 1 / 2 then ⌊x⌋
  else if 1 / 2 < x - (⌊x⌋ : ℚ) then ⌊x⌋ + 1
  else if ⌊x⌋ % 2 = 0 then ⌊x⌋ else ⌊x⌋ + 1

/-- The binary32 value of a real result `q`: round to nearest, ties to even, with 24
significant bits, least exponent `-126`, overflow to an infinity. -/
def F32.round (q : ℚ) : F32 :=
  if q = 0 then .fin 0
  else
    let e : ℤ := max (Int.log 2 |q|) (-126)
    let ulp : ℚ := 2 ^ (e - 23)
    let r : ℚ := (roundEven (q / ulp) : ℚ) * ulp
    if (2 : ℚ) ^ (128 : ℤ) ≤ |r| then .inf (decide (q < 0)) else .fin r

/-- The correctly rounded square root of a finite `q > 0`: the root is enclosed
between two neighbours of a grid four times finer than binary32 and, unless it is the
lower one, replaced by their midpoint, which rounds the same way. -/
def F32.sqrtPos (q : ℚ) : F32 :=
  let k : ℤ := Int.log 2 q / 2 - 25
  let n : ℚ := q / 4 ^ k
  let t : ℕ := Nat.sqrt ⌊n⌋₊
  if (t : ℚ) * t = n then F32.round (t * 2 ^ k) else F32.round ((t + 1 / 2) * 2 ^ k)

/-- The binary32 sum. -/
def F32.add : F32 → F32 → F32
  | .fin a, .fin b => F32.round (a + b)
  | .fin _, .inf s => .inf s
  | .inf s, .fin _ => .inf s
  | .inf s, .inf t => if s = t then .inf s else .nan
  | _, _ => .nan

/-- The binary32 product. -/
def F32.mul : F32 → F32 → F32
  | .fin a, .fin b => F32.round (a * b)
  | .fin a, .inf s => if a = 0 then .nan else .inf (xor s (decide (a < 0)))
  | .inf s, .fin b => if b = 0 then .nan else .inf (xor s (decide (b < 0)))
  | .inf s, .inf t => .inf (xor s t)
  | _, _ => .nan

/-- The binary32 quotient (a zero divisor is taken to be `+0`). -/
def F32.div : F32 → F32 → F32
  | .fin a, .fin b =>
    if b = 0 then (if a = 0 then .nan else .inf (decide (a < 0))) else F32.round (a / b)
  | .fin _, .inf _ => .fin 0
  | .inf s, .fin b => .inf (xor s (decide (b < 0)))
  | _, _ => .nan

/-- The function `sqrtf`. -/
def F32.sqrt : F32 → F32
  | .fin q => if q < 0 then .nan else if q = 0 then .fin 0 else F32.sqrtPos q
  | .inf false => .inf false
  | _ => .nan

/-- The comparison `a < b` of binary32 values. -/
def F32.lt : F32 → F32 → Bool
  | .fin a, .fin b => decide (a < b)
  | .fin _, .inf s => !s
  | .inf s, .fin _ => s
  | .inf s, .inf t => s && !t
  | _, _ => false

/-- The absolute value of a binary32 value. -/
def F32.abs : F32 → F32
  | .fin a => .fin |a|
  | .inf _ => .inf false
  | .nan => .nan

/-- The floor of a finite value (the conversion of any other value to `int` is
undefined in the source; it is given the value 0). -/
def F32.floor : F32 → Int
  | .fin a => ⌊a⌋
  | _ => 0

/-- The comparison `a == b` of binary32 values. -/
def F32.beq : F32 → F32 → Bool
  | .fin a, .fin b => decide (a = b)
  | .inf s, .inf t => decide (s = t)
  | _, _ => false

/-- The float operations of the source as binary32 operations. -/
def binary32 : FloatOps F32 where
  ofInt := fun n => F32.round n
  add := F32.add
  mul := F32.mul
  div := F32.div
  ofLit := F32.round
  sqrt := F32.sqrt
  abs := F32.abs
  floor := F32.floor
  lt := F32.lt
  beq := F32.beq

/-- A binary64 value (a `double`): a finite number (the two zeros are not told apart),
an infinity or a NaN. -/
inductive F64 where
  | fin (q : ℚ)
  | inf (negative : Bool)
  | nan
deriving DecidableEq

/-- The binary64 value of a real result `q`: round to nearest, ties to even, with 53
significant bits, least exponent `-1022`, overflow to an infinity. -/
def F64.round (q : ℚ) : F64 :=
  if q = 0 then .fin 0
  else
    let e : ℤ := max (Int.log 2 |q|) (-1022)
    let ulp : ℚ := 2 ^ (e - 52)
    let r : ℚ := (roundEven (q / ulp) : ℚ) * ulp
    if (2 : ℚ) ^ (1024 : ℤ) ≤ |r| then .inf (decide (q < 0)) else .fin r

/-- The correctly rounded binary64 square root of a finite `q > 0`, computed as
`F32.sqrtPos` on a grid four times finer than binary64. -/
def F64.sqrtPos (q : ℚ) : F64 :=
  let k : ℤ := Int.log 2 q / 2 - 54
  let n : ℚ := q / 4 ^ k
  let t : ℕ := Nat.sqrt ⌊n⌋₊
  if (t : ℚ) * t = n then F64.round (t * 2 ^ k) else F64.round ((t + 1 / 2) * 2 ^ k)

/-- The binary64 sum. -/
def F64.add : F64 → F64 → F64
  | .fin a, .fin b => F64.round (a + b)
  | .fin _, .inf s => .inf s
  | .inf s, .fin _ => .inf s
  | .inf s, .inf t => if s = t then .inf s else .nan
  | _, _ => .nan

/-- The binary64 product. -/
def F64.mul : F64 → F64 → F64
  | .fin a, .fin b => F64.round (a * b)
  | .fin a, .inf s => if a = 0 then .nan else .inf (xor s (decide (a < 0)))
  | .inf s, .fin b => if b = 0 then .nan else .inf (xor s (decide (b < 0)))
  | .inf s, .inf t => .inf (xor s t)
  | _, _ => .nan

/-- The binary64 quotient (a zero divisor is taken to be `+0`). -/
def F64.div : F64 → F64 → F64
  | .fin a, .fin b =>
    if b = 0 then (if a = 0 then .nan else .inf (decide (a < 0))) else F64.round (a / b)
  | .fin _, .inf _ => .fin 0
  | .inf s, .fin b => .inf (xor s (decide (b < 0)))
  | _, _ => .nan

/-- The function `sqrt` on `double`. -/
def F64.sqrt : F64 → F64
  | .fin q => if q < 0 then .nan else if q = 0 then .fin 0 else F64.sqrtPos q
  | .inf false => .inf false
  | _ => .nan

/-- The comparison `a < b` of binary64 values. -/
def F64.lt : F64 → F64 → Bool
  | .fin a, .fin b => decide (a < b)
  | .fin _, .inf s => !s
  | .inf s, .fin _ => s
  | .inf s, .inf t => s && !t
  | _, _ => false

/-- The absolute value of a binary64 value. -/
def F64.abs : F64 → F64
  | .fin a => .fin |a|
  | .inf _ => .inf false
  | .nan => .nan

/-- The floor of a finite value (the conversion of any other value to `int` is
undefined in the source; it is given the value 0). -/
def F64.floor : F64 → Int
  | .fin a => ⌊a⌋
  | _ => 0

/-- The comparison `a == b` of binary64 values. -/
def F64.beq : F64 → F64 → Bool
  | .fin a, .fin b => decide (a = b)
  | .inf s, .inf t => decide (s = t)
  | _, _ => false

/-- The `double` operations of the source as binary64 operations. -/
def binary64 : FloatOps F64 where
  ofInt := fun n => F64.round n
  add := F64.add
  mul := F64.mul
  div := F64.div
  ofLit := F64.round
  sqrt := F64.sqrt
  abs := F64.abs
  floor := F64.floor
  lt := F64.lt
  beq := F64.beq

/-! ## Images -/

/-- A `cv::Vec3f`. -/
structure Vec3 (F : Type) where
  x : F
  y : F
  z : F
deriving DecidableEq, Repr

/-- A `cv::Mat` with one channel of type `α`: its size and its element buffer,
row-major (continuous), indexed from the first element. -/
structure Mat (α : Type) where
  rows : Nat
  cols : Nat
  data : Nat → α

/-- The element at row `r`, column `c`, read through the row-major buffer. -/
def Mat.px {α : Type} (m : Mat α) (r c : Int) : α :=
  m.data (r * (m.cols : Int) + c).toNat

/-- Element access `m.at<T>(r, c)`, defined for `0 ≤ r < rows` and `0 ≤ c < cols`
(OpenCV checks the range in debug builds only; outside it the access is undefined). -/
def Mat.at? {α : Type} (m : Mat α) (r c : Int) : Except Fault α :=
  if 0 ≤ r ∧ r < (m.rows : Int) ∧ 0 ≤ c ∧ c < (m.cols : Int) then .ok (m.px r c)
  else .error .outOfBounds

/-- The assignment `m.at<T>(r, c) = v`. -/
def Mat.set? {α : Type} (m : Mat α) (r c : Int) (v : α) : Except Fault (Mat α) :=
  if 0 ≤ r ∧ r < (m.rows : Int) ∧ 0 ≤ c ∧ c < (m.cols : Int) then
    .ok { m with data := Function.update m.data (r * (m.cols : Int) + c).toNat v }
  else .error .outOfBounds

/-- The values `lo, lo+1, ..., hi-1` of a loop `for (v = lo; v < hi; ++v)`. -/
def interval (lo hi : Nat) : List Nat := List.range' lo (hi - lo)

/-! ## `accumBilateral` and `PoseRefine::get_normal` -/

/-- The accumulators `l_A[4]`, `l_b[2]` of `get_normal`. -/
structure Accum where
  A0 : Int
  A1 : Int
  A2 : Int
  A3 : Int
  b0 : Int
  b1 : Int
deriving DecidableEq, Repr

/-- The function `accumBilateral` (values of `long`, far below its range here). -/
def accumBilateral (delta i j : Int) (acc : Accum) (threshold : Int) : Accum :=
  let f : Int := if |delta| < threshold then 1 else 0
  let fi := f * i
  let fj := f * j
  { acc with
    A0 := acc.A0 + fi * i
    A1 := acc.A1 + fi * j
    A3 := acc.A3 + fj * j
    b0 := acc.b0 + fi * delta
    b1 := acc.b1 + fj * delta }

/-- The eight `accumBilateral` calls of `get_normal` at the pixel whose buffer index
is `base` (the position of `lp_line`), in a frame of `l_W` columns. -/
def ring_accum (src : Nat → Nat) (l_W : Int) (base : Int) : Accum :=
  let l_r : Int := 5
  let difference_threshold : Int := 50
  let lp_line : Int → Int := fun off => ((src (base + off).toNat : Nat) : Int)
  let l_d := lp_line 0
  let l_offset0 := -l_r - l_r * l_W
  let l_offset1 := 0 - l_r * l_W
  let l_offset2 := l_r - l_r * l_W
  let l_offset3 := -l_r
  let l_offset4 := l_r
  let l_offset5 := -l_r + l_r * l_W
  let l_offset6 := 0 + l_r * l_W
  let l_offset7 := l_r + l_r * l_W
  let a : Accum := ⟨0, 0, 0, 0, 0, 0⟩
  let a := accumBilateral (lp_line l_offset0 - l_d) (-l_r) (-l_r) a difference_threshold
  let a := accumBilateral (lp_line l_offset1 - l_d) 0 (-l_r) a difference_threshold
  let a := accumBilateral (lp_line l_offset2 - l_d) l_r (-l_r) a difference_threshold
  let a := accumBilateral (lp_line l_offset3 - l_d) (-l_r) 0 a difference_threshold
  let a := accumBilateral (lp_line l_offset4 - l_d) l_r 0 a difference_threshold
  let a := accumBilateral (lp_line l_offset5 - l_d) (-l_r) l_r a difference_threshold
  let a := accumBilateral (lp_line l_offset6 - l_d) 0 l_r a difference_threshold
  accumBilateral (lp_line l_offset7 - l_d) l_r l_r a difference_threshold

/-- The values `l_det`, `l_ddx`, `l_ddy` of `get_normal`. -/
def solve_plane (a : Accum) : Int × Int × Int :=
  let l_det := a.A0 * a.A3 - a.A1 * a.A1
  let l_ddx := a.A3 * a.b0 - a.A1 * a.b1
  let l_ddy := -a.A1 * a.b0 + a.A0 * a.b1
  (l_det, l_ddx, l_ddy)

/-- The vector `(l_nx, l_ny, l_nz)` of `get_normal` before it is normalised. -/
def raw_normal {F : Type} (ops : FloatOps F) (fx fy : F) (a : Accum) (l_d : Int) : Vec3 F :=
  let (l_det, l_ddx, l_ddy) := solve_plane a
  ⟨ops.mul fx (ops.ofInt l_ddx), ops.mul fy (ops.ofInt l_ddy), ops.ofInt (-l_det * l_d)⟩

/-- The end of the pixel body of `get_normal`: the normal stored through `lp_norm`,
or `none` when `l_sqrt > 0` fails and nothing is stored. -/
def normalise {F : Type} (ops : FloatOps F) (n : Vec3 F) : Option (Vec3 F) :=
  let l_sqrt := ops.sqrt (ops.add (ops.add (ops.mul n.x n.x) (ops.mul n.y n.y))
    (ops.mul n.z n.z))
  if ops.lt (ops.ofInt 0) l_sqrt then
    let l_norminv := ops.div (ops.ofLit 1) l_sqrt
    some ⟨ops.mul n.x l_norminv, ops.mul n.y l_norminv, ops.mul n.z l_norminv⟩
  else none

/-- The body of the pixel loop of `get_normal` at `(l_x, l_y)`: the normal it stores,
or `none` when it stores nothing. -/
def pixel_normal {F : Type} (ops : FloatOps F) (src : Mat Nat) (fx fy : F)
    (l_y l_x : Nat) : Option (Vec3 F) :=
  let distance_threshold : Int := 2000
  let base : Int := (l_y : Int) * (src.cols : Int) + (l_x : Int)
  let l_d : Int := ((src.data base.toNat : Nat) : Int)
  if l_d < distance_threshold then
    normalise ops (raw_normal ops fx fy (ring_accum src.data src.cols base) l_d)
  else none

/-- One pass of the pixel loop: the store through `lp_norm`, if any. -/
def pixel_step {F : Type} (ops : FloatOps F) (src : Mat Nat) (fx fy : F)
    (l_y l_x : Nat) (normals : Nat → Vec3 F) : Nat → Vec3 F :=
  match pixel_normal ops src fx fy l_y l_x with
  | some n => Function.update normals (l_y * src.cols + l_x) n
  | none => normals

/-- The method `PoseRefine::get_normal` on a `CV_16U` frame; `K` is `none` for an
empty matrix.  The loops run over `l_r ≤ l_y < l_H - l_r - 1` and
`l_r ≤ l_x < l_W - l_r - 1` with `l_r = 5`. -/
def get_normal {F : Type} (ops : FloatOps F) (depth : Mat Nat) (K : Option (Mat F)) :
    Mat (Vec3 F) :=
  let fx := match K with
    | none => ops.ofInt 530
    | some k => k.px 0 0
  let fy := match K with
    | none => ops.ofInt 530
    | some k => k.px 1 1
  let zero : Vec3 F := ⟨ops.ofInt 0, ops.ofInt 0, ops.ofInt 0⟩
  { rows := depth.rows
    cols := depth.cols
    data := (interval 5 (depth.rows - 6)).foldl
      (fun normals l_y => (interval 5 (depth.cols - 6)).foldl
        (fun normals l_x => pixel_step ops depth fx fy l_y l_x normals) normals)
      (fun _ => zero) }

/-! ## The occlusion detector of `PoseRefine::get_depth_edge` -/

/-- The product `cv::Vec3f::dot`: the sum, from 0, of the products of the
components. -/
def dot {F : Type} (ops : FloatOps F) (a b : Vec3 F) : F :=
  ops.add (ops.add (ops.add (ops.ofInt 0) (ops.mul a.x b.x)) (ops.mul a.y b.y))
    (ops.mul a.z b.z)

/-- The locals filled by the scan of the 8 neighbours of a pixel. -/
structure NeighbourScan (F : Type) where
  dx : F
  dy : F
  invalid_count : Int
  dep_dn : Int → Int → Int
  invalid : Bool

/-- The body of the neighbour scan for the offset `(offset_r, offset_c)`. -/
def scan_step {F : Type} (ops : FloatOps F) (depth : Mat Nat) (r c dep_Dxy : Int)
    (offset_r offset_c : Int) (s : NeighbourScan F) : Except Fault (NeighbourScan F) :=
  if offset_c = 0 ∧ offset_r = 0 then .ok s
  else do
    let dep_nn ← depth.at? (r + offset_r) (c + offset_c)
    if dep_nn = 0 then
      let factor :=
        if |offset_c| = 1 ∧ |offset_r| = 1 then ops.div (ops.ofInt 1) (ops.sqrt (ops.ofLit 2))
        else ops.ofInt 1
      .ok { s with
            invalid := true
            dx := ops.add s.dx (ops.mul (ops.ofInt offset_c) factor)
            dy := ops.add s.dy (ops.mul (ops.ofInt offset_r) factor)
            invalid_count := s.invalid_count + 1 }
    else
      .ok { s with
            dep_dn := fun a b =>
              if a = offset_r + 1 ∧ b = offset_c + 1 then dep_Dxy - (dep_nn : Int)
              else s.dep_dn a b }

/-- The scan of the 8 neighbours: `offset_r` and `offset_c` from -1 to 1. -/
def neighbour_scan {F : Type} (ops : FloatOps F) (depth : Mat Nat) (r c dep_Dxy : Int) :
    Except Fault (NeighbourScan F) :=
  [-1, 0, 1].foldlM
    (fun s offset_r =>
      [-1, 0, 1].foldlM (fun s offset_c => scan_step ops depth r c dep_Dxy offset_r offset_c s) s)
    { dx := ops.ofInt 0, dy := ops.ofInt 0, invalid_count := 0, dep_dn := fun _ _ => 0,
      invalid := false }

/-- The locals of the search for the largest projection. -/
structure MaxSearch (F : Type) where
  max_d : F
  max_offset_r : Int
  max_offset_c : Int

/-- The body of the loops `i`, `j` of the all-neighbours-valid case. -/
def max_step {F : Type} (ops : FloatOps F) (normals : Mat (Vec3 F)) (fx fy : F)
    (r c : Int) (dep_dn : Int → Int → Int) (i j : Int) (m : MaxSearch F) :
    Except Fault (MaxSearch F) := do
  let normal ← normals.at? (r + i) (c + j)
  let vec : Vec3 F :=
    ⟨ops.div (ops.ofInt (j - 1)) fx, ops.div (ops.ofInt (i - 1)) fy,
      ops.div (ops.ofInt (dep_dn i j)) (ops.ofLit 1000)⟩
  let dist := ops.abs (dot ops vec normal)
  if ops.lt m.max_d dist then .ok ⟨dist, i - 1, j - 1⟩ else .ok m

/-- The loops `i`, `j` from 0 to 2 of the all-neighbours-valid case. -/
def max_search {F : Type} (ops : FloatOps F) (normals : Mat (Vec3 F)) (fx fy : F)
    (r c : Int) (dep_dn : Int → Int → Int) : Except Fault (MaxSearch F) :=
  [0, 1, 2].foldlM
    (fun m i => [0, 1, 2].foldlM (fun m j => max_step ops normals fx fy r c dep_dn i j m) m)
    { max_d := ops.ofInt 0, max_offset_r := 0, max_offset_c := 0 }

/-- The directional search of the missing-data case over the given radii: the value of
`corr_depth` when the loop ends. -/
def directional_search {F : Type} (ops : FloatOps F) (depth : Mat Nat) (r c : Int)
    (dx dy : F) : List Int → Except Fault Int
  | [] => .ok 0
  | radius :: rest =>
    let new_r := r + ops.floor (ops.mul dy (ops.ofInt radius))
    let new_c := c + ops.floor (ops.mul dx (ops.ofInt radius))
    if new_r < 0 ∨ new_r ≥ (depth.rows : Int) ∨ new_c < 0 ∨ new_c > (depth.cols : Int) then
      .ok 0
    else do
      let cur_depth ← depth.at? new_r new_c
      if cur_depth > 0 then .ok (cur_depth : Int)
      else directional_search ops depth r c dx dy rest

/-- The body of the pixel loops of the occlusion detector at `(r, c)`; `ops` are the
`float` operations and `dops` the `double` operations. -/
def occ_pixel {F G : Type} (ops : FloatOps F) (dops : FloatOps G) (depth : Mat Nat)
    (normals : Mat (Vec3 F)) (fx fy : F) (r c : Int) (occ_edge : Mat Nat) :
    Except Fault (Mat Nat) := do
  let dep ← depth.at? r c
  let dep_Dxy : Int := (dep : Int)
  if dep_Dxy = 0 then .ok occ_edge
  else
    let s ← neighbour_scan ops depth r c dep_Dxy
    if !s.invalid then
      let m ← max_search ops normals fx fy r c s.dep_dn
      if ops.lt (ops.ofLit (1 / 20)) m.max_d then
        occ_edge.set? (r + m.max_offset_r) (c + m.max_offset_c) 255
      else .ok occ_edge
    else
      if ops.beq s.dx (ops.ofInt 0) && ops.beq s.dy (ops.ofInt 0) then .ok occ_edge
      else
        let dx := ops.div s.dx (ops.ofInt s.invalid_count)
        let dy := ops.div s.dy (ops.ofInt s.invalid_count)
        let max_search_neighbors_ : Nat := 50
        let corr_depth ← directional_search ops depth r c dx dy
          ((interval 1 max_search_neighbors_).map (fun radius => (radius : Int)))
        if corr_depth > 0 then
          let diff := corr_depth - dep_Dxy
          if dops.lt (dops.mul (dops.ofLit (1 / 50)) (dops.ofInt dep_Dxy)) (dops.ofInt |diff|) then
            if diff < 0 then .ok occ_edge
            else occ_edge.set? r c 255
          else .ok occ_edge
        else .ok occ_edge

/-- The occlusion detector of `get_depth_edge`: the loops over
`1 ≤ r < depth.rows-1`, `1 ≤ c < depth.cols-1` filling `occ_edge`. -/
def occlusion_edges {F G : Type} (ops : FloatOps F) (dops : FloatOps G) (depth : Mat Nat)
    (normals : Mat (Vec3 F)) (fx fy : F) : Except Fault (Mat Nat) :=
  (interval 1 (depth.rows - 1)).foldlM
    (fun occ_edge (r : Nat) =>
      (interval 1 (depth.cols - 1)).foldlM
        (fun occ_edge (c : Nat) =>
          occ_pixel ops dops depth normals fx fy (r : Int) (c : Int) occ_edge)
        occ_edge)
    { rows := depth.rows, cols := depth.cols, data := fun _ => 0 }

/-! ## The curvature detector of `PoseRefine::get_depth_edge`

The orientation mask, the non-maximum suppression, `cannyTraceEdge` and the hysteresis
seed loop.  The thresholds `tLow` and `tHigh` are parameters; the source sets them to
`0.2f` and `1.1f`. -/

/-- The comparison `a >= b` of floats: `b < a` or `a == b`. -/
def ge {F : Type} (ops : FloatOps F) (a b : F) : Bool := ops.lt b a || ops.beq a b

/-- The end of the orientation quantisation: the rows `0` and `rows-1` and the columns
`0` and `cols-1` of `quantized_unfiltered` are set to 0 and every other entry is masked
with `& 3`. -/
def mask_orientations (quantized_unfiltered : Mat Nat) : Mat Nat :=
  { quantized_unfiltered with
    data := fun k =>
      if k / quantized_unfiltered.cols = 0
          ∨ k / quantized_unfiltered.cols = quantized_unfiltered.rows - 1
          ∨ k % quantized_unfiltered.cols = 0
          ∨ k % quantized_unfiltered.cols = quantized_unfiltered.cols - 1 then 0
      else quantized_unfiltered.data k &&& 3 }

/-- The statement
`if(mag_v >= mag.at<float>(r1, c1) && mag_v >= mag.at<float>(r2, c2)) mag_nms_v = mag_v;`
for the pixel `(r, c)`; the second sample is read only if the first comparison
holds. -/
def keep_if_max {F : Type} (ops : FloatOps F) (mag : Mat F) (r c : Int) (mag_v : F)
    (r1 c1 r2 c2 : Int) (mag_nms : Mat F) : Except Fault (Mat F) := do
  let first ← mag.at? r1 c1
  if ge ops mag_v first then do
    let second ← mag.at? r2 c2
    if ge ops mag_v second then mag_nms.set? r c mag_v else .ok mag_nms
  else .ok mag_nms

/-- The body of the loops of the non-maximum suppression at `(r, c)`. -/
def nms_pixel {F : Type} (ops : FloatOps F) (tLow : F) (mag : Mat F)
    (quantized_unfiltered : Mat Nat) (r c : Int) (mag_nms : Mat F) :
    Except Fault (Mat F) := do
  let mag_v ← mag.at? r c
  let _ ← mag_nms.at? r c
  if ops.lt mag_v tLow then .ok mag_nms
  else do
    let quant_angle ← quantized_unfiltered.at? r c
    if quant_angle = 0 then keep_if_max ops mag r c mag_v r (c + 1) r (c - 1) mag_nms
    else if quant_angle = 1 then
      keep_if_max ops mag r c mag_v (r - 1) (c + 1) (r + 1) (c - 1) mag_nms
    else if quant_angle = 2 then keep_if_max ops mag r c mag_v (r - 1) c (r + 1) c mag_nms
    else if quant_angle = 3 then
      keep_if_max ops mag r c mag_v (r + 1) (c + 1) (r - 1) (c - 1) mag_nms
    else .ok mag_nms

/-- The non-maximum suppression: `mag_nms` starts as zeros and the loops run over
`1 ≤ r < mag.rows`, `1 ≤ c < mag.cols`. -/
def non_max_suppression {F : Type} (ops : FloatOps F) (tLow : F) (mag : Mat F)
    (quantized_unfiltered : Mat Nat) : Except Fault (Mat F) :=
  (interval 1 mag.rows).foldlM
    (fun mag_nms (r : Nat) =>
      (interval 1 mag.cols).foldlM
        (fun mag_nms (c : Nat) =>
          nms_pixel ops tLow mag quantized_unfiltered (r : Int) (c : Int) mag_nms)
        mag_nms)
    { rows := mag.rows, cols := mag.cols, data := fun _ => ops.ofInt 0 }

/-- The mask `canny_edge` under construction, with the number of calls of
`cannyTraceEdge` so far that marked a pixel and recursed. -/
structure TraceState where
  canny_edge : Mat Nat
  recursing_calls : Nat

/-- The function `cannyTraceEdge`; the first argument bounds the depth of the
recursion. -/
def cannyTraceEdge {F : Type} (ops : FloatOps F) (mag_nms : Mat F) :
    Nat → Int → Int → Int → Int → TraceState → Except Fault TraceState
  | 0, _, _, _, _, _ => .error .outOfFuel
  | fuel + 1, rowOffset, colOffset, row, col, t =>
    let newRow := row + rowOffset
    let newCol := col + colOffset
    if newRow > 0 ∧ newRow < (mag_nms.rows : Int) ∧ newCol > 0
        ∧ newCol < (mag_nms.cols : Int) then do
      let mag_v ← mag_nms.at? newRow newCol
      let marked ← t.canny_edge.at? newRow newCol
      if marked > 0 ∨ ops.lt mag_v (ops.ofLit (1 / 100)) = true then .ok t
      else do
        let canny_edge ← t.canny_edge.set? newRow newCol 255
        let t : TraceState :=
          { canny_edge := canny_edge, recursing_calls := t.recursing_calls + 1 }
        let t ← cannyTraceEdge ops mag_nms fuel 1 0 newRow newCol t
        let t ← cannyTraceEdge ops mag_nms fuel (-1) 0 newRow newCol t
        let t ← cannyTraceEdge ops mag_nms fuel 1 1 newRow newCol t
        let t ← cannyTraceEdge ops mag_nms fuel (-1) (-1) newRow newCol t
        let t ← cannyTraceEdge ops mag_nms fuel 0 (-1) newRow newCol t
        let t ← cannyTraceEdge ops mag_nms fuel 0 1 newRow newCol t
        let t ← cannyTraceEdge ops mag_nms fuel (-1) 1 newRow newCol t
        cannyTraceEdge ops mag_nms fuel 1 (-1) newRow newCol t
    else .ok t

/-- The body of the seed loops of the hysteresis at `(r, c)`; `fuel` bounds the depth
of the recursion of each call of `cannyTraceEdge`. -/
def hysteresis_pixel {F : Type} (ops : FloatOps F) (tHigh : F) (mag_nms : Mat F)
    (fuel : Nat) (r c : Int) (t : TraceState) : Except Fault TraceState := do
  let mag_v ← mag_nms.at? r c
  let marked ← t.canny_edge.at? r c
  if ops.lt mag_v tHigh = true ∨ marked > 0 then .ok t
  else do
    let canny_edge ← t.canny_edge.set? r c 255
    let t : TraceState := { t with canny_edge := canny_edge }
    let t ← cannyTraceEdge ops mag_nms fuel 1 0 r c t
    let t ← cannyTraceEdge ops mag_nms fuel (-1) 0 r c t
    let t ← cannyTraceEdge ops mag_nms fuel 1 1 r c t
    let t ← cannyTraceEdge ops mag_nms fuel (-1) (-1) r c t
    let t ← cannyTraceEdge ops mag_nms fuel 0 (-1) r c t
    let t ← cannyTraceEdge ops mag_nms fuel 0 1 r c t
    let t ← cannyTraceEdge ops mag_nms fuel (-1) 1 r c t
    cannyTraceEdge ops mag_nms fuel 1 (-1) r c t

/-- The hysteresis stage: `canny_edge` starts as zeros and the seed loops run over all
pixels. -/
def hysteresis {F : Type} (ops : FloatOps F) (tHigh : F) (fuel : Nat) (mag_nms : Mat F) :
    Except Fault TraceState :=
  (interval 0 mag_nms.rows).foldlM
    (fun t (r : Nat) =>
      (interval 0 mag_nms.cols).foldlM
        (fun t (c : Nat) => hysteresis_pixel ops tHigh mag_nms fuel (r : Int) (c : Int) t)
        t)
    { canny_edge := { rows := mag_nms.rows, cols := mag_nms.cols, data := fun _ => 0 }
      recursing_calls := 0 }

/-- The curvature detector from the magnitude image and the masked orientation
classes: non-maximum suppression, then hysteresis; the mask `high_curvature_edge`. -/
def curvature_edges {F : Type} (ops : FloatOps F) (tLow tHigh : F) (fuel : Nat)
    (mag : Mat F) (quantized_unfiltered : Mat Nat) : Except Fault (Mat Nat) := do
  let mag_nms ← non_max_suppression ops tLow mag quantized_unfiltered
  let t ← hysteresis ops tHigh fuel mag_nms
  .ok t.canny_edge

/-! ## The gradient stage of `PoseRefine::get_depth_edge` -/

/-- The image filters of the gradient stage as black boxes on images `I`: the contents
a call leaves in its destination image. -/
structure Filters (I : Type) where
  /-- the call `cv::GaussianBlur(src, dst, {3, 3}, 1)` -/
  GaussianBlur : I → I
  /-- the call `cv::Sobel(src, dst, CV_32F, 1, 0, 3)` -/
  SobelX : I → I
  /-- the call `cv::Sobel(src, dst, CV_32F, 0, 1, 3)` -/
  SobelY : I → I

/-- The images of the gradient stage: the channels `N_xyz[0]`, `N_xyz[1]`, `N_xyz[2]`
and the gradients `sx`, `sy`. -/
structure Gradients (I : Type) where
  N_xyz : Nat → I
  sx : I
  sy : I

/-- The four calls of the gradient stage on the channels `N_xyz` of the normal field:
`GaussianBlur(N_xyz[0], N_xyz[0])`, `Sobel(N_xyz[0], sx)`,
`GaussianBlur(N_xyz[1], N_xyz[0])`, `Sobel(N_xyz[1], sy)`. -/
def gradient_stage {I : Type} (flt : Filters I) (N_xyz : Nat → I) : Gradients I :=
  let N_xyz := Function.update N_xyz 0 (flt.GaussianBlur (N_xyz 0))
  let sx := flt.SobelX (N_xyz 0)
  let N_xyz := Function.update N_xyz 0 (flt.GaussianBlur (N_xyz 1))
  let sy := flt.SobelY (N_xyz 1)
  { N_xyz := N_xyz, sx := sx, sy := sy }

/-- The channel `N_xyz[k]` of `cv::split(normals, N_xyz)`. -/
def channel {F : Type} (normals : Mat (Vec3 F)) (k : Nat) : Mat F :=
  { rows := normals.rows
    cols := normals.cols
    data := fun i =>
      if k = 0 then (normals.data i).x
      else if k = 1 then (normals.data i).y
      else (normals.data i).z }

/-- The magnitude image of `get_depth_edge`: the gradient stage on the channels of the
normal field, then `mag = sx.mul(sx) + sy.mul(sy)`, `cv::sqrt(mag, mag)` and
`cv::medianBlur(mag, mag, 5)`; the median filter is a black box. -/
def magnitude {F : Type} (ops : FloatOps F) (flt : Filters (Mat F))
    (medianBlur : Mat F → Mat F) (normals : Mat (Vec3 F)) : Mat F :=
  let g := gradient_stage flt (channel normals)
  let mag : Mat F :=
    { rows := g.sx.rows
      cols := g.sx.cols
      data := fun i => ops.add (ops.mul (g.sx.data i) (g.sx.data i))
        (ops.mul (g.sy.data i) (g.sy.data i)) }
  let mag : Mat F := { mag with data := fun i => ops.sqrt (mag.data i) }
  medianBlur mag

/-! ## Concrete instances for evaluation -/

/-- Formal products of named transforms. -/
inductive Sym where
  | pose (k : Nat)
  | delta (cloud : Nat) (iterations : Int) (dist : Int)
  | prod (a b : Sym)
deriving DecidableEq, Repr

/-- Collaborators that only record what they are given: a pose is a number, a rendered
buffer is the list of poses it was rendered from, a cloud is the pose found at the
offset, and the solver returns a delta naming cloud, iteration bound and rejection
distance; the OpenMP runtime provides the threads asked for. -/
def symExt : Externals Int Sym Nat Nat (List Nat) Nat Unit Unit where
  eps := 1
  FLT_MAX := 1000000
  mul := Sym.prod
  asMat4x4f := Sym.pose
  init_from_cv := id
  render := fun ms _ _ => ms
  depth2cloud := fun d off w h _ => d.getD (off / (w * h)).toNat 0
  icp := fun c sc cr => ⟨Sym.delta c cr.maxIterations sc.max_dist_diff, ()⟩
  criteria0 := ⟨0, 0, 0⟩
  result0 := ⟨Sym.pose 0, ()⟩
  omp_team := fun _ n => n

/-- The collaborators `symExt` with an OpenMP runtime that provides one thread. -/
def symExtSerial : Externals Int Sym Nat Nat (List Nat) Nat Unit Unit :=
  { symExt with omp_team := fun _ _ => 1 }

/-- A session on a 4 x 2 frame with rejection distance 7. -/
def symSession (batch_size : Nat) : Session Int Unit :=
  { width := 4, height := 2, batch_size := batch_size, scene := ⟨7, ()⟩ }

/-- The `rows` x `cols` depth frame all of whose samples are `d`. -/
def constFrame (rows cols d : Nat) : Mat Nat := ⟨rows, cols, fun _ => d⟩

/-- A 3 x 4 depth frame: the pixel `(1, 1)` has depth 1000, its right neighbour `(1, 2)`
has no depth, the next sample `(1, 3)` has depth 1100, every other pixel depth 900. -/
def gapFrame : Mat Nat :=
  ⟨3, 4, fun k => if k = 5 then 1000 else if k = 6 then 0 else if k = 7 then 1100 else 900⟩

/-- A 4 x 4 depth frame: depth 900 at the pixel `(0, 0)`, depth 1000 elsewhere. -/
def stepFrame : Mat Nat := ⟨4, 4, fun k => if k = 0 then 900 else 1000⟩

/-- A 4 x 4 normal field: the normal `(0, 0, -1)` at the pixel `(0, 0)`, the zero vector
elsewhere. -/
def stepNormals : Mat (Vec3 ℚ) := ⟨4, 4, fun k => if k = 0 then ⟨0, 0, -1⟩ else ⟨0, 0, 0⟩⟩

/-- The sample of a one-column image at position `k`, the border replicated. -/
def sampleAt (xs : List Int) (k : Int) : Int :=
  xs.getD (min (max k 0) ((xs.length : Int) - 1)).toNat 0

/-- Filters on one-column images: the blur with the weights 1, 2, 1 (divided by 4) and
the central difference along the column (for both Sobel calls). -/
def columnFilters : Filters (List Int) where
  GaussianBlur := fun xs => (List.range xs.length).map
    (fun k => (sampleAt xs ((k : Int) - 1) + 2 * sampleAt xs k + sampleAt xs ((k : Int) + 1)) / 4)
  SobelX := fun xs => (List.range xs.length).map
    (fun k => sampleAt xs ((k : Int) + 1) - sampleAt xs ((k : Int) - 1))
  SobelY := fun xs => (List.range xs.length).map
    (fun k => sampleAt xs ((k : Int) + 1) - sampleAt xs ((k : Int) - 1))

/-- The state of `process_batch` on two poses before the first chunk is processed, in
the session `symSession`. -/
def symStart : State Int Sym Nat Unit Unit :=
  { result_poses := List.replicate 2 symExt.result0
    criteria := symExt.criteria0
    scene := ⟨7, ()⟩
    render_calls := []
    solver_calls := [] }

/-- A 3 x 4 magnitude image: `2` at the pixel `(1, 1)`, `1/2` at its right neighbour
`(1, 2)`, `0` elsewhere. -/
def ridgeImage : Mat ℚ := ⟨3, 4, fun k => if k = 5 then 2 else if k = 6 then 1 / 2 else 0⟩

/-- The image `mag_nms` after the assignments `mag_nms.at(1, 1) = 2` and
`mag_nms.at(1, 2) = 1/2` to a 3 x 4 image of zeros. -/
def ridgeSuppressed : Mat ℚ :=
  ⟨3, 4, Function.update (Function.update (fun _ => 0) 5 2) 6 (1 / 2)⟩

/-- A 3 x 3 magnitude image: `2` at the centre `(1, 1)`, `0` elsewhere. -/
def peakImage : Mat ℚ := ⟨3, 3, fun k => if k = 4 then 2 else 0⟩

/-- A 3 x 3 depth frame: the pixel `(1, 2)`, the right neighbour of the centre, has no
depth, every other pixel depth 1000. -/
def holeFrame : Mat Nat := ⟨3, 3, fun k => if k = 5 then 0 else 1000⟩

/-! ## Notions used in the statements -/

/-- The result a slot leaves in `result_poses`, from the matrices `chunk` given to the
renderer, the slot number `j` and the slot's own matrix `m`. -/
def slotResult (E : Externals F T M P D C S Q) (temp_max_diff : F) (depth_aligned : Bool)
    (down_sample width_local height_local : Int) (geometry : S) (chunk : List M)
    (j : Nat) (m : M) : RegistrationResult T Q :=
  let pcd := E.depth2cloud (E.render chunk width_local height_local)
    ((j : Int) * width_local * height_local) width_local height_local down_sample
  let r2 := E.icp pcd ⟨temp_max_diff, geometry⟩ ⟨E.eps, E.eps, 30⟩
  if depth_aligned then
    { r2 with transformation_ := E.mul r2.transformation_ (E.asMat4x4f m) }
  else
    let r1 := E.icp pcd ⟨E.FLT_MAX, geometry⟩ ⟨E.eps, E.eps, 1⟩
    let previous_T := E.mul r1.transformation_ (E.asMat4x4f m)
    { r2 with transformation_ := E.mul r2.transformation_ previous_T }

/-- The solver calls of the slot writing `result_poses[k]`. -/
def slotCalls (E : Externals F T M P D C S Q) (temp_max_diff : F) (depth_aligned : Bool)
    (k : Nat) : List (SolverCall F) :=
  if depth_aligned then [⟨k, ⟨E.eps, E.eps, 30⟩, temp_max_diff⟩]
  else [⟨k, ⟨E.eps, E.eps, 1⟩, E.FLT_MAX⟩, ⟨k, ⟨E.eps, E.eps, 30⟩, temp_max_diff⟩]

/-- What a run of slots `js` of one chunk establishes. -/
structure SlotsPost (E : Externals F T M P D C S Q) (temp_max_diff : F)
    (depth_aligned : Bool) (down_sample width_local height_local : Int)
    (mat4_v : List M) (i : Nat) (js : List Nat) (st st1 : State F T M S Q) : Prop where
  bounds : ∀ j ∈ js, j < mat4_v.length ∧ j + i < st.result_poses.length
  length_eq : st1.result_poses.length = st.result_poses.length
  written : ∀ j ∈ js, ∀ m, mat4_v[j]? = some m →
    st1.result_poses[j + i]? = some (slotResult E temp_max_diff depth_aligned down_sample
      width_local height_local st.scene.geometry mat4_v j m)
  kept : ∀ k, (∀ j ∈ js, j + i ≠ k) → st1.result_poses[k]? = st.result_poses[k]?
  geometry_eq : st1.scene.geometry = st.scene.geometry
  render_eq : st1.render_calls = st.render_calls
  calls_eq : st1.solver_calls = st.solver_calls ++
    js.flatMap (fun j => slotCalls E temp_max_diff depth_aligned (j + i))
  dist_eq : st.scene.max_dist_diff = temp_max_diff → st1.scene.max_dist_diff = temp_max_diff

/-- The matrices of the chunk input pose `k` belongs to. -/
def chunkOf (E : Externals F T M P D C S Q) (init_poses : List P) (batch_size k : Nat) :
    List M :=
  ((init_poses.drop (k - k % batch_size)).take batch_size).map E.init_from_cv

/-- The result computed from input pose `k`, whose `cv::Mat` is `p`. -/
def refined (E : Externals F T M P D C S Q) (temp_max_diff : F) (depth_aligned : Bool)
    (down_sample width_local height_local : Int) (geometry : S) (init_poses : List P)
    (batch_size k : Nat) (p : P) : RegistrationResult T Q :=
  slotResult E temp_max_diff depth_aligned down_sample width_local height_local geometry
    (chunkOf E init_poses batch_size k) (k % batch_size) (E.init_from_cv p)

/-- The slot of input pose `k` is executed: its thread number `k % batch_size` is below
the size of the team of the parallel region of its chunk. -/
def slot_runs (E : Externals F T M P D C S Q) (init_poses : List P) (batch_size k : Nat) :
    Prop :=
  k % batch_size
    < team_size E (k - k % batch_size) (chunkOf E init_poses batch_size k).length

/-- Whether the slot of a pose is executed is decidable. -/
instance slot_runs.decidable (E : Externals F T M P D C S Q) (init_poses : List P)
    (batch_size k : Nat) : Decidable (slot_runs E init_poses batch_size k) :=
  inferInstanceAs (Decidable (k % batch_size
    < team_size E (k - k % batch_size) (chunkOf E init_poses batch_size k).length))

/-- The solver calls made for input pose `k`: those of its slot if the slot is
executed, none otherwise. -/
def poseCalls (E : Externals F T M P D C S Q) (temp_max_diff : F) (depth_aligned : Bool)
    (init_poses : List P) (batch_size k : Nat) : List (SolverCall F) :=
  if slot_runs E init_poses batch_size k then slotCalls E temp_max_diff depth_aligned k
  else []

/-- The state of `process_batch` once the chunks before `i` are processed. -/
structure BatchInv (E : Externals F T M P D C S Q) (temp_max_diff : F)
    (depth_aligned : Bool) (down_sample width_local height_local : Int) (geometry : S)
    (init_poses : List P) (batch_size i : Nat) (st : State F T M S Q) : Prop where
  length_eq : st.result_poses.length = init_poses.length
  le_length : i ≤ init_poses.length
  done : ∀ k < i, ∀ p, init_poses[k]? = some p → slot_runs E init_poses batch_size k →
    st.result_poses[k]? = some (refined E temp_max_diff depth_aligned down_sample
      width_local height_local geometry init_poses batch_size k p)
  idle : ∀ k, k < init_poses.length → i ≤ k ∨ ¬ slot_runs E init_poses batch_size k →
    st.result_poses[k]? = some E.result0
  geometry_eq : st.scene.geometry = geometry
  dist_eq : st.scene.max_dist_diff = temp_max_diff
  calls_eq : st.solver_calls
    = (List.range i).flatMap (poseCalls E temp_max_diff depth_aligned init_poses batch_size)
  render_eq : st.render_calls
    = (List.range ((i + batch_size - 1) / batch_size)).map
        (fun c => chunkOf E init_poses batch_size (c * batch_size))

/-- The focal lengths `fx`, `fy` read by `get_normal`. -/
def focal (ops : FloatOps F) (K : Option (Mat F)) : F × F :=
  match K with
  | none => (ops.ofInt 530, ops.ofInt 530)
  | some k => (k.px 0 0, k.px 1 1)

/-- The ring of `get_normal`: the offsets `(i, j)` in `{-5, 0, 5}²` other than `(0, 0)`. -/
def ringOffsets : Finset (Int × Int) :=
  (({-5, 0, 5} : Finset Int) ×ˢ ({-5, 0, 5} : Finset Int)).erase (0, 0)

/-- The difference `depth(x+i, y+j) − depth(x, y)` for the offset `o = (i, j)`. -/
def ringDelta (src : Mat Nat) (y x : Nat) (o : Int × Int) : Int :=
  ((src.px ((y : Int) + o.2) ((x : Int) + o.1) : Nat) : Int) - ((src.px y x : Nat) : Int)

/-- The bilateral weight `f`: `1` if `|delta| < 50`, else `0`. -/
def bilateralWeight (delta : Int) : Int := if |delta| < 50 then 1 else 0

/-- The difference `lp_line[off] - l_d` read through the buffer. -/
def bufferDelta (src : Nat → Nat) (base off : Int) : Int :=
  ((src (base + off).toNat : Nat) : Int) - ((src (base + 0).toNat : Nat) : Int)

/-- The raw vector `(fx·dx, fy·dy, −det·d)` of the pixel `(x, y)`. -/
def rawAt {F : Type} (ops : FloatOps F) (depth : Mat Nat) (K : Option (Mat F))
    (y x : Nat) : Vec3 F :=
  raw_normal ops (focal ops K).1 (focal ops K).2
    (ring_accum depth.data depth.cols ((y : Int) * (depth.cols : Int) + (x : Int)))
    ((depth.px y x : Nat) : Int)

/-- The squared Euclidean length of a vector. -/
def sqNorm {F : Type} [Mul F] [Add F] (v : Vec3 F) : F := v.x * v.x + v.y * v.y + v.z * v.z

/-- A frame all of whose pixels have depth `d`. -/
def IsConstant (m : Mat Nat) (d : Nat) : Prop :=
  ∀ r c : Nat, r < m.rows → c < m.cols → m.data (r * m.cols + c) = d

/-- A run that, if it fails, fails on an access out of bounds. -/
def OkOrOob {α : Type} (x : Except Fault α) : Prop := ∀ e, x = .error e → e = .outOfBounds

/-- The mask `m` with the pixel `(r, c)` set to 255. -/
def markAt (m : Mat Nat) (r c : Int) : Mat Nat :=
  { m with data := Function.update m.data (r * (m.cols : Int) + c).toNat 255 }

/-- The depth of the valid sample the missing-data case finds for the pixel `(r, c)`,
from the locals `s` of the neighbour scan: the result of the directional search, and
`0` (no sample) when `dx` and `dy` are both zero and no search is made. -/
def found_sample {F : Type} (ops : FloatOps F) (depth : Mat Nat) (r c : Int)
    (s : NeighbourScan F) : Except Fault Int :=
  if ops.beq s.dx (ops.ofInt 0) && ops.beq s.dy (ops.ofInt 0) then .ok 0
  else
    directional_search ops depth r c (ops.div s.dx (ops.ofInt s.invalid_count))
      (ops.div s.dy (ops.ofInt s.invalid_count))
      ((interval 1 50).map (fun radius => (radius : Int)))

/-- The value `dist` the loop body of the all-neighbours-valid case computes for the
indices `i`, `j` and compares with `max_d`. -/
def compared_value {F : Type} (ops : FloatOps F) (normals : Mat (Vec3 F)) (fx fy : F)
    (r c : Int) (dep_dn : Int → Int → Int) (i j : Int) : Except Fault F := do
  let normal ← normals.at? (r + i) (c + j)
  .ok (ops.abs (dot ops
    ⟨ops.div (ops.ofInt (j - 1)) fx, ops.div (ops.ofInt (i - 1)) fy,
      ops.div (ops.ofInt (dep_dn i j)) (ops.ofLit 1000)⟩ normal))

/-- Modelled from the claim: the value compared for the neighbour offset `(oi, oj)` of
the centre `(r, c)`, `|v · n|` with
`v = (oj/fx, oi/fy, (depth(r,c) − depth(r+oi, c+oj))/1000)` and `n` the normal stored at
the neighbour pixel `(r+oi, c+oj)`. -/
def projection_spec {F : Type} (ops : FloatOps F) (depth : Mat Nat) (normals : Mat (Vec3 F))
    (fx fy : F) (r c oi oj : Int) : Except Fault F := do
  let centre ← depth.at? r c
  let neighbour ← depth.at? (r + oi) (c + oj)
  let n ← normals.at? (r + oi) (c + oj)
  .ok (ops.abs (dot ops
    ⟨ops.div (ops.ofInt oj) fx, ops.div (ops.ofInt oi) fy,
      ops.div (ops.ofInt ((centre : Int) - (neighbour : Int))) (ops.ofLit 1000)⟩ n))

/-- The schedule that lets the threads `0, ..., n-1` run one after another, each
executing all its statements. -/
def sequential_schedule (depth_aligned : Bool) (n : Nat) : List Nat :=
  (List.range n).flatMap (fun j => List.replicate (slot_actions depth_aligned).length j)

/-- The pixel `p = (row, column)` lies inside the image. -/
def Inside {α : Type} (m : Mat α) (p : Int × Int) : Prop :=
  0 ≤ p.1 ∧ p.1 < (m.rows : Int) ∧ 0 ≤ p.2 ∧ p.2 < (m.cols : Int)

/-- Whether a pixel lies inside the image is decidable. -/
instance Inside.decidable {α : Type} (m : Mat α) (p : Int × Int) : Decidable (Inside m p) :=
  inferInstanceAs (Decidable (0 ≤ p.1 ∧ p.1 < (m.rows : Int) ∧ 0 ≤ p.2 ∧ p.2 < (m.cols : Int)))

/-- The pixel `p` of the mask is marked (non-zero). -/
def Marked (canny_edge : Mat Nat) (p : Int × Int) : Prop :=
  Inside canny_edge p ∧ 0 < canny_edge.px p.1 p.2

/-- The number of unmarked pixels of the mask. -/
def unmarked (canny_edge : Mat Nat) : Nat :=
  ((Finset.Ico (0 : Int) canny_edge.rows ×ˢ Finset.Ico (0 : Int) canny_edge.cols).filter
    (fun p => canny_edge.px p.1 p.2 = 0)).card

/-- The offsets of the eight calls of `cannyTraceEdge`, in the order of the source. -/
def traceOffsets : List (Int × Int) :=
  [(1, 0), (-1, 0), (1, 1), (-1, -1), (0, -1), (0, 1), (-1, 1), (1, -1)]

/-- The pixels `p` and `q` are 8-neighbours. -/
def Adjacent (p q : Int × Int) : Prop := (q.1 - p.1, q.2 - p.2) ∈ traceOffsets

/-- Whether two pixels are 8-neighbours is decidable. -/
instance Adjacent.decidable (p q : Int × Int) : Decidable (Adjacent p q) :=
  inferInstanceAs (Decidable ((q.1 - p.1, q.2 - p.2) ∈ traceOffsets))

/-- A pixel `cannyTraceEdge` accepts: its row and column are at least 1 and inside the
image, and the test `mag_v < 0.01f` fails. -/
def Traceable {F : Type} (ops : FloatOps F) (mag_nms : Mat F) (p : Int × Int) : Prop :=
  0 < p.1 ∧ p.1 < (mag_nms.rows : Int) ∧ 0 < p.2 ∧ p.2 < (mag_nms.cols : Int)
    ∧ ops.lt (mag_nms.px p.1 p.2) (ops.ofLit (1 / 100)) = false

/-- One step of the trace: from a pixel to an 8-neighbour `cannyTraceEdge` accepts. -/
def TraceStep {F : Type} (ops : FloatOps F) (mag_nms : Mat F) (p q : Int × Int) : Prop :=
  Adjacent p q ∧ Traceable ops mag_nms q

/-- A seed of the hysteresis: a pixel of the image for which `mag_nms < tHigh` fails. -/
def Seed {F : Type} (ops : FloatOps F) (tHigh : F) (mag_nms : Mat F) (p : Int × Int) : Prop :=
  Inside mag_nms p ∧ ops.lt (mag_nms.px p.1 p.2) tHigh = false

/-- The calls of `cannyTraceEdge` from the pixel `(row, col)` for the offsets `os`, one
after another. -/
def trace_all {F : Type} (ops : FloatOps F) (mag_nms : Mat F) (fuel : Nat) (row col : Int)
    (os : List (Int × Int)) (t : TraceState) : Except Fault TraceState :=
  os.foldlM (fun t o => cannyTraceEdge ops mag_nms fuel o.1 o.2 row col t) t

/-- What calls of `cannyTraceEdge` towards the pixels `starts` establish, from the state
`t` to the state `t1`: marks are kept, every new mark is reached from one of `starts`
by trace steps, the traceable neighbours of a newly marked pixel are marked, the
traceable pixels among `starts` are marked, and every recursing call marks one
pixel. -/
structure TracePost {F : Type} (ops : FloatOps F) (mag_nms : Mat F) (t t1 : TraceState)
    (starts : List (Int × Int)) : Prop where
  rows_eq : t1.canny_edge.rows = t.canny_edge.rows
  cols_eq : t1.canny_edge.cols = t.canny_edge.cols
  mono : ∀ p, Marked t.canny_edge p → Marked t1.canny_edge p
  sound : ∀ p, Marked t1.canny_edge p → ¬ Marked t.canny_edge p →
    ∃ q ∈ starts, Traceable ops mag_nms q
      ∧ Relation.ReflTransGen (TraceStep ops mag_nms) q p
  closed : ∀ p, Marked t1.canny_edge p → ¬ Marked t.canny_edge p →
    ∀ q, Adjacent p q → Traceable ops mag_nms q → Marked t1.canny_edge q
  hit : ∀ q ∈ starts, Traceable ops mag_nms q → Marked t1.canny_edge q
  count : t1.recursing_calls + unmarked t1.canny_edge
    = t.recursing_calls + unmarked t.canny_edge

/-- Modelled from the claim: one step of an 8-connected path inside the image whose
pixels have `mag_nms >= 0.01` (the test `mag_v < 0.01f` fails). -/
def PathStep {F : Type} (ops : FloatOps F) (mag_nms : Mat F) (p q : Int × Int) : Prop :=
  Adjacent p q ∧ Inside mag_nms q ∧ ops.lt (mag_nms.px q.1 q.2) (ops.ofLit (1 / 100)) = false

/-- The state of the hysteresis between two passes of the seed loops: every marked
pixel is reached from a seed by trace steps, the traceable neighbours of a marked pixel
are marked, and every recursing call has marked one pixel. -/
structure HystInv {F : Type} (ops : FloatOps F) (tHigh : F) (mag_nms : Mat F)
    (t : TraceState) : Prop where
  rows_eq : t.canny_edge.rows = mag_nms.rows
  cols_eq : t.canny_edge.cols = mag_nms.cols
  sound : ∀ p, Marked t.canny_edge p →
    ∃ s, Seed ops tHigh mag_nms s ∧ Relation.ReflTransGen (TraceStep ops mag_nms) s p
  closed : ∀ p, Marked t.canny_edge p →
    ∀ q, Adjacent p q → Traceable ops mag_nms q → Marked t.canny_edge q
  count : t.recursing_calls + unmarked t.canny_edge ≤ mag_nms.rows * mag_nms.cols

/-- The offsets of the two comparison neighbours of an orientation class, in the order
in which the source reads them. -/
def nmsNeighbours (quant_angle : Nat) : Option ((Int × Int) × (Int × Int)) :=
  if quant_angle = 0 then some ((0, 1), (0, -1))
  else if quant_angle = 1 then some ((-1, 1), (1, -1))
  else if quant_angle = 2 then some ((-1, 0), (1, 0))
  else if quant_angle = 3 then some ((1, 1), (-1, -1))
  else none

/-- The magnitude at `p` is `>=` the magnitudes of both comparison neighbours of the
class of `p`. -/
def nms_keeps {F : Type} (ops : FloatOps F) (mag : Mat F) (quantized_unfiltered : Mat Nat)
    (p : Int × Int) : Bool :=
  match nmsNeighbours (quantized_unfiltered.px p.1 p.2) with
  | none => false
  | some (a, b) =>
    ge ops (mag.px p.1 p.2) (mag.px (p.1 + a.1) (p.2 + a.2))
      && ge ops (mag.px p.1 p.2) (mag.px (p.1 + b.1) (p.2 + b.2))

/-- The suppressed magnitude of a pixel: the magnitude if `mag < tLow` fails and the
magnitude is `>=` both comparison neighbours, and 0 otherwise. -/
def nms_value {F : Type} (ops : FloatOps F) (tLow : F) (mag : Mat F)
    (quantized_unfiltered : Mat Nat) (p : Int × Int) : F :=
  if !ops.lt (mag.px p.1 p.2) tLow && nms_keeps ops mag quantized_unfiltered p then
    mag.px p.1 p.2
  else ops.ofInt 0

/-- The comparison neighbours of every pixel the suppression loops visit and do not
skip (`1 ≤ r < rows`, `1 ≤ c < cols`, `mag < tLow` fails) lie inside the image. -/
def NmsSafe {F : Type} (ops : FloatOps F) (tLow : F) (mag : Mat F)
    (quantized_unfiltered : Mat Nat) : Prop :=
  ∀ p : Int × Int, 1 ≤ p.1 → p.1 < (mag.rows : Int) → 1 ≤ p.2 → p.2 < (mag.cols : Int) →
    ops.lt (mag.px p.1 p.2) tLow = false →
    ∀ a b, nmsNeighbours (quantized_unfiltered.px p.1 p.2) = some (a, b) →
      Inside mag (p.1 + a.1, p.2 + a.2) ∧ Inside mag (p.1 + b.1, p.2 + b.2)

/-- The suppression loops skip the pixels of row 0 and column 0 of the image if they
reach them: the test `mag_v < tLow` holds there. -/
def FirstSkipped {F : Type} (ops : FloatOps F) (tLow : F) (mag : Mat F) : Prop :=
  ∀ p : Int × Int, Inside mag p → p.1 = 0 ∨ p.2 = 0 → ops.lt (mag.px p.1 p.2) tLow = true

/-- The suppression loops skip the pixels of the last row and the last column of the
image: the test `mag_v < tLow` holds there. -/
def LastSkipped {F : Type} (ops : FloatOps F) (tLow : F) (mag : Mat F) : Prop :=
  ∀ p : Int × Int, Inside mag p →
    p.1 + 1 = (mag.rows : Int) ∨ p.2 + 1 = (mag.cols : Int) →
    ops.lt (mag.px p.1 p.2) tLow = true

/-- The image is 0 at every pixel outside the rows `r0, ..., r1` and the columns
`c0, ..., c1`. -/
def ZeroOutside {F : Type} (ops : FloatOps F) (m : Mat F) (r0 r1 c0 c1 : Int) : Prop :=
  ∀ p : Int × Int, Inside m p → ¬ (r0 ≤ p.1 ∧ p.1 ≤ r1 ∧ c0 ≤ p.2 ∧ p.2 ≤ c1) →
    m.px p.1 p.2 = ops.ofInt 0

/-- What is used of a filter of OpenCV with a window of `2k+1` rows and columns: the
result has the size of the image, and it is 0 at a pixel if the image is 0 at every
pixel within `k` rows and `k` columns of it (where the window extends over the border
it is filled from those pixels, by reflection or replication). -/
def ZeroLocal {F : Type} (ops : FloatOps F) (k : Int) (f : Mat F → Mat F) : Prop :=
  ∀ m : Mat F, (f m).rows = m.rows ∧ (f m).cols = m.cols
    ∧ ∀ p : Int × Int, Inside m p →
        (∀ q : Int × Int, Inside m q → |q.1 - p.1| ≤ k → |q.2 - p.2| ≤ k →
          m.px q.1 q.2 = ops.ofInt 0) →
        (f m).px p.1 p.2 = ops.ofInt 0

/-- The float operations keep zero: `0 * 0`, `0 + 0` and `sqrt(0)` are 0. -/
def KeepsZero {F : Type} (ops : FloatOps F) : Prop :=
  ops.mul (ops.ofInt 0) (ops.ofInt 0) = ops.ofInt 0
    ∧ ops.add (ops.ofInt 0) (ops.ofInt 0) = ops.ofInt 0
    ∧ ops.sqrt (ops.ofInt 0) = ops.ofInt 0

/-- Modelled from the spec: the test the flood fill applies to a neighbour when it is
restricted as `cannyTraceEdge` is: row and column at least 1 and inside the image,
`mag_nms >= 0.01`. -/
def acceptTrace {F : Type} (ops : FloatOps F) (mag_nms : Mat F) (q : Int × Int) : Bool :=
  decide (0 < q.1 ∧ q.1 < (mag_nms.rows : Int) ∧ 0 < q.2 ∧ q.2 < (mag_nms.cols : Int))
    && !ops.lt (mag_nms.px q.1 q.2) (ops.ofLit (1 / 100))

/-- Modelled from the spec: the test the flood fill applies to a neighbour: inside the
image, `mag_nms >= 0.01`. -/
def acceptPath {F : Type} (ops : FloatOps F) (mag_nms : Mat F) (q : Int × Int) : Bool :=
  decide (Inside mag_nms q) && !ops.lt (mag_nms.px q.1 q.2) (ops.ofLit (1 / 100))

/-- Modelled from the spec: the flood fill looks at the neighbour of `p` at the offset
`o`; an accepted neighbour that is not yet visited is marked in the bitmap and pushed
on the work list. -/
def fill_step (accept : Int × Int → Bool) (p : Int × Int)
    (st : Mat Nat × List (Int × Int)) (o : Int × Int) : Mat Nat × List (Int × Int) :=
  if accept (p.1 + o.1, p.2 + o.2) && decide (st.1.px (p.1 + o.1) (p.2 + o.2) = 0) then
    (markAt st.1 (p.1 + o.1) (p.2 + o.2), (p.1 + o.1, p.2 + o.2) :: st.2)
  else st

/-- Modelled from the spec: the work-list flood fill over the 8-neighbourhood with a
visited bitmap; each pass pops a pixel and looks at its eight neighbours.  The first
argument bounds the number of passes. -/
def flood_fill (accept : Int × Int → Bool) : Nat → Mat Nat → List (Int × Int) → Mat Nat
  | 0, visited, _ => visited
  | _ + 1, visited, [] => visited
  | fuel + 1, visited, p :: work =>
    flood_fill accept fuel (traceOffsets.foldl (fill_step accept p) (visited, work)).1
      (traceOffsets.foldl (fill_step accept p) (visited, work)).2

/-- Modelled from the spec: the hysteresis stage as a flood fill: every seed that is not
yet visited is marked and the fill is run from it. -/
def flood_hysteresis {F : Type} (ops : FloatOps F) (tHigh : F) (accept : Int × Int → Bool)
    (fuel : Nat) (mag_nms : Mat F) : Mat Nat :=
  ((interval 0 mag_nms.rows).flatMap
      (fun r => (interval 0 mag_nms.cols).map (fun c => (r, c)))).foldl
    (fun visited (p : Nat × Nat) =>
      if !ops.lt (mag_nms.px (p.1 : Int) (p.2 : Int)) tHigh
          && decide (visited.px (p.1 : Int) (p.2 : Int) = 0) then
        flood_fill accept fuel (markAt visited (p.1 : Int) (p.2 : Int))
          [((p.1 : Int), (p.2 : Int))]
      else visited)
    { rows := mag_nms.rows, cols := mag_nms.cols, data := fun _ => 0 }

/-- One step of the flood fill: from a pixel to an accepted 8-neighbour. -/
def FillStep (accept : Int × Int → Bool) (p q : Int × Int) : Prop :=
  Adjacent p q ∧ accept q = true

/-- The state of the flood fill: every visited pixel is reached from a seed, every
visited pixel that is not on the work list has its accepted neighbours visited, and
the pixels on the work list are visited. -/
structure FillInv {F : Type} (ops : FloatOps F) (tHigh : F) (mag_nms : Mat F)
    (accept : Int × Int → Bool) (visited : Mat Nat) (work : List (Int × Int)) : Prop where
  rows_eq : visited.rows = mag_nms.rows
  cols_eq : visited.cols = mag_nms.cols
  sound : ∀ p, Marked visited p →
    ∃ s, Seed ops tHigh mag_nms s ∧ Relation.ReflTransGen (FillStep accept) s p
  closed : ∀ p, Marked visited p → p ∉ work →
    ∀ q, Adjacent p q → accept q = true → Marked visited q
  work_marked : ∀ p ∈ work, Marked visited p

end Definitions

/-! # Lemmas and theorems -/

section ProcessBatchLemmas

variable {F T M P D C S Q : Type}

theorem readAt_ok {α : Type} (v : List α) (k : Nat) (a : α) (h : v[k]? = some a) :
    readAt v k = .ok a := by
  simp [readAt, h]

theorem readAt_error {α : Type} (v : List α) (k : Nat) (h : v.length ≤ k) :
    readAt v k = .error .outOfBounds := by
  simp [readAt, List.getElem?_eq_none h]

theorem writeAt_ok {α : Type} (v : List α) (k : Nat) (a : α) (h : k < v.length) :
    writeAt v k a = .ok (v.set k a) := by
  simp [writeAt, h]

theorem icp_slot_ok (E : Externals F T M P D C S Q) (temp_max_diff : F)
    (depth_aligned : Bool) (down_sample width_local height_local : Int)
    (mat4_v : List M) (i j : Nat) (st : State F T M S Q) (m : M)
    (hm : mat4_v[j]? = some m) (hk : j + i < st.result_poses.length) :
    icp_slot E temp_max_diff depth_aligned down_sample width_local height_local
        (E.render mat4_v width_local height_local) mat4_v i j st
      = .ok { result_poses := st.result_poses.set (j + i)
                (slotResult E temp_max_diff depth_aligned down_sample width_local
                  height_local st.scene.geometry mat4_v j m)
              criteria := ⟨E.eps, E.eps, 30⟩
              scene := ⟨temp_max_diff, st.scene.geometry⟩
              render_calls := st.render_calls
              solver_calls := st.solver_calls ++ slotCalls E temp_max_diff depth_aligned (j + i) } := by
  cases depth_aligned <;>
  simp [icp_slot, icp_phase, solve, compose, readAt, writeAt, hm, hk, setting_for_align,
    setting_backup, slotResult, slotCalls, bind, Except.bind, List.getElem?_eq_getElem hk]

theorem icp_slot_bounds (E : Externals F T M P D C S Q) (temp_max_diff : F)
    (depth_aligned : Bool) (down_sample width_local height_local : Int) (depths : D)
    (mat4_v : List M) (i j : Nat) (st st1 : State F T M S Q)
    (h : icp_slot E temp_max_diff depth_aligned down_sample width_local height_local
        depths mat4_v i j st = .ok st1) :
    j < mat4_v.length ∧ j + i < st.result_poses.length := by
  by_cases hj : j < mat4_v.length
  · by_cases hk : j + i < st.result_poses.length
    · exact ⟨hj, hk⟩
    · simp [icp_slot, readAt, List.getElem?_eq_getElem hj,
        List.getElem?_eq_none (Nat.le_of_not_lt hk), bind, Except.bind] at h
  · simp [icp_slot, readAt, List.getElem?_eq_none (Nat.le_of_not_lt hj), bind,
      Except.bind] at h

theorem bind_ok {ε α β : Type} (x : Except ε α) (f : α → Except ε β) (b : β)
    (h : (x >>= f) = .ok b) : ∃ a, x = .ok a ∧ f a = .ok b := by
  cases x with
  | error e => simp [bind, Except.bind] at h
  | ok a => exact ⟨a, rfl, by simpa [bind, Except.bind] using h⟩

theorem run_slots_post (E : Externals F T M P D C S Q) (temp_max_diff : F)
    (depth_aligned : Bool) (down_sample width_local height_local : Int)
    (mat4_v : List M) (i : Nat) (js : List Nat) :
    ∀ st st1 : State F T M S Q,
      run_slots E temp_max_diff depth_aligned down_sample width_local height_local
        (E.render mat4_v width_local height_local) mat4_v i js st = .ok st1 →
      SlotsPost E temp_max_diff depth_aligned down_sample width_local height_local
        mat4_v i js st st1 := by
  induction js with
  | nil =>
    intro st st1 h
    simp [run_slots] at h
    subst h
    exact ⟨by simp, rfl, by simp, by simp, rfl, rfl, by simp, fun h => h⟩
  | cons j js ih =>
    intro st st1 h
    obtain ⟨s, hs, hrest⟩ := bind_ok _ _ _ h
    obtain ⟨hj, hk⟩ := icp_slot_bounds E _ _ _ _ _ _ _ _ _ _ _ hs
    have hm : mat4_v[j]? = some mat4_v[j] := List.getElem?_eq_getElem hj
    rw [icp_slot_ok E _ _ _ _ _ mat4_v i j st _ hm hk] at hs
    have hs1 := Except.ok.inj hs
    have post := ih s st1 hrest
    have hlen : s.result_poses.length = st.result_poses.length := by
      rw [← hs1]; simp
    have hgeo : s.scene.geometry = st.scene.geometry := by rw [← hs1]
    refine ⟨?_, ?_, ?_, ?_, ?_, ?_, ?_, ?_⟩
    · intro j1 hj1
      rcases List.mem_cons.mp hj1 with rfl | hmem
      · exact ⟨hj, hk⟩
      · have := post.bounds j1 hmem
        rw [hlen] at this
        exact this
    · rw [post.length_eq, hlen]
    · intro j1 hj1 m1 hm1
      by_cases hin : j1 ∈ js
      · rw [post.written j1 hin m1 hm1, hgeo]
      · rcases List.mem_cons.mp hj1 with rfl | hmem
        · have hkept := post.kept (j1 + i) (fun j2 hj2 heq => hin (by
            have : j2 = j1 := by omega
            rw [← this]; exact hj2))
          rw [hkept, ← hs1]
          have : m1 = mat4_v[j1] := by
            rw [hm] at hm1; exact (Option.some.inj hm1).symm
          subst this
          simp [List.getElem?_set_self hk]
        · exact absurd hmem hin
    · intro k hk1
      rw [post.kept k (fun j2 hj2 => hk1 j2 (List.mem_cons_of_mem _ hj2)), ← hs1]
      have hne : j + i ≠ k := hk1 j (List.mem_cons_self _ _)
      simp [List.getElem?_set_ne hne]
    · rw [post.geometry_eq, hgeo]
    · rw [post.render_eq, ← hs1]
    · rw [post.calls_eq, ← hs1]
      simp [List.flatMap_cons, List.append_assoc]
    · intro _
      apply post.dist_eq
      rw [← hs1]

theorem run_slots_total (E : Externals F T M P D C S Q) (temp_max_diff : F)
    (depth_aligned : Bool) (down_sample width_local height_local : Int)
    (mat4_v : List M) (i : Nat) (js : List Nat) :
    ∀ st : State F T M S Q,
      (∀ j ∈ js, j < mat4_v.length ∧ j + i < st.result_poses.length) →
      ∃ st1, run_slots E temp_max_diff depth_aligned down_sample width_local height_local
        (E.render mat4_v width_local height_local) mat4_v i js st = .ok st1 := by
  induction js with
  | nil => intro st _; exact ⟨st, rfl⟩
  | cons j js ih =>
    intro st hb
    obtain ⟨hj, hk⟩ := hb j (List.mem_cons_self _ _)
    have hm : mat4_v[j]? = some mat4_v[j] := List.getElem?_eq_getElem hj
    have hs := icp_slot_ok E temp_max_diff depth_aligned down_sample width_local
      height_local mat4_v i j st _ hm hk
    simp only [run_slots, hs, bind, Except.bind]
    apply ih
    intro j1 hj1
    have := hb j1 (List.mem_cons_of_mem _ hj1)
    simpa using this

theorem load_chunk_error (E : Externals F T M P D C S Q) (init_poses : List P) (i : Nat) :
    ∀ js : List Nat, (∃ j ∈ js, init_poses.length ≤ j + i) →
      load_chunk E init_poses i js = .error .outOfBounds := by
  intro js
  induction js with
  | nil => rintro ⟨j, hj, _⟩; simp at hj
  | cons j js ih =>
    rintro ⟨j1, hj1, hlen⟩
    by_cases hj : init_poses.length ≤ j + i
    · simp [load_chunk, readAt_error _ _ hj, bind, Except.bind]
    · have hlt : j + i < init_poses.length := Nat.lt_of_not_le hj
      have hin : ∃ j2 ∈ js, init_poses.length ≤ j2 + i := by
        rcases List.mem_cons.mp hj1 with rfl | hmem
        · exact absurd hlen hj
        · exact ⟨j1, hmem, hlen⟩
      simp [load_chunk, readAt_ok _ _ _ (List.getElem?_eq_getElem hlt), ih hin, bind,
        Except.bind]

theorem load_chunk_range' (E : Externals F T M P D C S Q) (init_poses : List P) (i : Nat) :
    ∀ cnt s : Nat, s + i + cnt ≤ init_poses.length →
      load_chunk E init_poses i (List.range' s cnt)
        = .ok (((init_poses.drop (s + i)).take cnt).map E.init_from_cv) := by
  intro cnt
  induction cnt with
  | zero => intro s _; simp [load_chunk]
  | succ cnt ih =>
    intro s h
    have hlt : s + i < init_poses.length := by omega
    have hrest := ih (s + 1) (by omega)
    have hdrop : init_poses.drop (s + i)
        = init_poses[s + i] :: init_poses.drop (s + 1 + i) := by
      rw [List.drop_eq_getElem_cons hlt]
      congr 2
      omega
    simp [List.range'_succ, load_chunk, readAt_ok _ _ _ (List.getElem?_eq_getElem hlt),
      hrest, bind, Except.bind, hdrop]

theorem load_chunk_range (E : Externals F T M P D C S Q) (init_poses : List P)
    (i cnt : Nat) (h : i + cnt ≤ init_poses.length) :
    load_chunk E init_poses i (List.range cnt)
      = .ok (((init_poses.drop i).take cnt).map E.init_from_cv) := by
  have := load_chunk_range' E init_poses i cnt 0 (by omega)
  simpa [List.range_eq_range'] using this

theorem team_size_le (E : Externals F T M P D C S Q) (i n : Nat) : team_size E i n ≤ n :=
  Nat.min_le_left _ _

/-- A runtime that provides the threads asked for gives a team of that size. -/
theorem team_size_full (E : Externals F T M P D C S Q) (i n : Nat)
    (h : n ≤ E.omp_team i n) : team_size E i n = n := by
  unfold team_size
  apply Nat.min_eq_left
  exact le_trans h (Nat.le_max_right _ _)

/-- A loop over `j < n` whose passes from `t` on do nothing is the loop over `j < t`. -/
theorem flatMap_range_team {β : Type} (f g : Nat → List β) (t : Nat) :
    ∀ n : Nat, t ≤ n → (∀ j, j < t → g j = f j) → (∀ j, t ≤ j → j < n → g j = []) →
      (List.range n).flatMap g = (List.range t).flatMap f := by
  intro n
  induction n with
  | zero =>
    intro ht _ _
    have : t = 0 := by omega
    subst this
    rfl
  | succ n ih =>
    intro ht hlt hge
    by_cases hn : t ≤ n
    · rw [List.range_succ, List.flatMap_append,
        ih hn hlt (fun j h1 h2 => hge j h1 (by omega))]
      simp [hge n hn (Nat.lt_succ_self _)]
    · have : t = n + 1 := by omega
      subst this
      apply List.flatMap_congr
      intro j hj
      exact hlt j (List.mem_range.mp hj)

theorem icp_batch_post (E : Externals F T M P D C S Q) (temp_max_diff : F)
    (depth_aligned : Bool) (down_sample width_local height_local : Int)
    (mat4_v : List M) (i : Nat) (st st1 : State F T M S Q)
    (h : icp_batch E temp_max_diff depth_aligned down_sample width_local height_local
      mat4_v i st = .ok st1) :
    SlotsPost E temp_max_diff depth_aligned down_sample width_local height_local
      mat4_v i (List.range (team_size E i mat4_v.length))
      { st with render_calls := st.render_calls ++ [mat4_v] } st1 :=
  run_slots_post E temp_max_diff depth_aligned down_sample width_local height_local
    mat4_v i _ _ _ h

theorem icp_batch_total (E : Externals F T M P D C S Q) (temp_max_diff : F)
    (depth_aligned : Bool) (down_sample width_local height_local : Int)
    (mat4_v : List M) (i : Nat) (st : State F T M S Q)
    (h : i + mat4_v.length ≤ st.result_poses.length) :
    ∃ st1, icp_batch E temp_max_diff depth_aligned down_sample width_local height_local
      mat4_v i st = .ok st1 := by
  apply run_slots_total
  intro j hj
  have := List.mem_range.mp hj
  have hle := team_size_le E i mat4_v.length
  exact ⟨by omega, by simp; omega⟩

theorem chunk_step (E : Externals F T M P D C S Q) (temp_max_diff : F)
    (depth_aligned : Bool) (down_sample width_local height_local : Int) (geometry : S)
    (init_poses : List P) (batch_size i cnt : Nat) (st st1 : State F T M S Q)
    (hinv : BatchInv E temp_max_diff depth_aligned down_sample width_local height_local
      geometry init_poses batch_size i st)
    (hdvd : batch_size ∣ i) (hpos : 0 < cnt) (hle : cnt ≤ batch_size)
    (hlen : i + cnt ≤ init_poses.length)
    (htake : (init_poses.drop i).take cnt = (init_poses.drop i).take batch_size)
    (hb : icp_batch E temp_max_diff depth_aligned down_sample width_local height_local
      (((init_poses.drop i).take cnt).map E.init_from_cv) i st = .ok st1) :
    BatchInv E temp_max_diff depth_aligned down_sample width_local height_local
      geometry init_poses batch_size (i + cnt) st1 := by
  have post := icp_batch_post E _ _ _ _ _ _ _ _ _ hb
  have hcs : (((init_poses.drop i).take cnt).map E.init_from_cv).length = cnt := by
    simp; omega
  rw [hcs] at post
  have hteam := team_size_le E i cnt
  obtain ⟨q, hq⟩ := hdvd
  have hbs : 0 < batch_size := by omega
  have hchunk : ∀ j, j < cnt → chunkOf E init_poses batch_size (i + j)
      = ((init_poses.drop i).take cnt).map E.init_from_cv ∧ (i + j) % batch_size = j := by
    intro j hj
    have hmod : (i + j) % batch_size = j := by
      rw [hq, Nat.mul_add_mod]
      exact Nat.mod_eq_of_lt (by omega)
    refine ⟨?_, hmod⟩
    unfold chunkOf
    rw [hmod, Nat.add_sub_cancel, htake]
  have hruns : ∀ j, j < cnt →
      (slot_runs E init_poses batch_size (i + j) ↔ j < team_size E i cnt) := by
    intro j hj
    unfold slot_runs
    rw [(hchunk j hj).1, (hchunk j hj).2, Nat.add_sub_cancel, hcs]
  refine ⟨?_, hlen, ?_, ?_, ?_, ?_, ?_, ?_⟩
  · rw [post.length_eq]; exact hinv.length_eq
  · intro k hk p hp hrun
    by_cases hki : k < i
    · rw [post.kept k (by intro j _; omega)]
      exact hinv.done k hki p hp hrun
    · have hj : k - i < cnt := by omega
      have hidx2 : i + (k - i) = k := by omega
      have hjt : k - i < team_size E i cnt := by
        have := (hruns (k - i) hj).mp (by rw [hidx2]; exact hrun)
        exact this
      have hmem : k - i ∈ List.range (team_size E i cnt) := List.mem_range.mpr hjt
      have hm : (((init_poses.drop i).take cnt).map E.init_from_cv)[k - i]?
          = some (E.init_from_cv p) := by
        simp [List.getElem?_take, hj, hidx2, hp]
      have hw := post.written (k - i) hmem _ hm
      have hidx : k - i + i = k := by omega
      rw [hidx] at hw
      rw [hw]
      have hc := hchunk (k - i) hj
      rw [hidx2] at hc
      unfold refined
      rw [hc.1, hc.2]
      simp [hinv.geometry_eq]
  · intro k hk hcase
    have hkept : st1.result_poses[k]? = st.result_poses[k]? := by
      apply post.kept k
      intro j hj
      have hjt := List.mem_range.mp hj
      rcases hcase with h1 | h1
      · omega
      · by_cases hki : k < i
        · omega
        · by_cases hkc : k < i + cnt
          · intro heq
            apply h1
            have hidx2 : i + (k - i) = k := by omega
            have := (hruns (k - i) (by omega)).mpr (by omega)
            rw [hidx2] at this
            exact this
          · omega
    rw [hkept]
    apply hinv.idle k hk
    rcases hcase with h1 | h1
    · exact Or.inl (by omega)
    · by_cases hki : i ≤ k
      · exact Or.inl hki
      · exact Or.inr h1
  · rw [post.geometry_eq]; exact hinv.geometry_eq
  · exact post.dist_eq hinv.dist_eq
  · rw [post.calls_eq, List.range_add, List.flatMap_append]
    simp only [hinv.calls_eq, List.flatMap_map]
    congr 1
    symm
    apply flatMap_range_team _ _ (team_size E i cnt) cnt hteam
    · intro j hj
      show poseCalls E temp_max_diff depth_aligned init_poses batch_size (i + j) = _
      unfold poseCalls
      rw [if_pos ((hruns j (by omega)).mpr hj), Nat.add_comm]
    · intro j hj hjc
      show poseCalls E temp_max_diff depth_aligned init_poses batch_size (i + j) = _
      unfold poseCalls
      rw [if_neg (fun h => absurd ((hruns j hjc).mp h) (by omega))]
  · rw [post.render_eq]
    have h1 : (i + batch_size - 1) / batch_size = q := by
      rw [hq, Nat.add_sub_assoc hbs, Nat.mul_add_div hbs]
      simp [Nat.div_eq_of_lt (Nat.sub_lt hbs Nat.one_pos)]
    have h2 : (i + cnt + batch_size - 1) / batch_size = q + 1 := by
      have : i + cnt + batch_size - 1 = batch_size * q + (cnt + batch_size - 1) := by omega
      rw [this, Nat.mul_add_div hbs]
      congr 1
      apply Nat.div_eq_of_lt_le <;> omega
    have h3 := (hchunk 0 hpos).1
    simp only [hinv.render_eq, h1, h2, List.range_succ, List.map_append, List.map_cons,
      List.map_nil]
    congr 2
    rw [← h3, Nat.add_zero, hq, Nat.mul_comm]

theorem sizeSub_of_le (a b : Nat) (hb : b ≤ a) (ha : a < SIZE_MOD) : sizeSub a b = a - b := by
  unfold sizeSub
  have h1 : ((a : Int) - (b : Int)) = ((a - b : Nat) : Int) := by omega
  rw [h1]
  have h2 : ((a - b : Nat) : Int) % (SIZE_MOD : Int) = ((a - b : Nat) : Int) := by
    apply Int.emod_eq_of_lt <;> omega
  rw [h2]
  simp

theorem toInt32_of_le (v : Nat) (h : v ≤ INT_MAX) : toInt32 v = (v : Int) := by
  unfold INT_MAX at h
  unfold toInt32
  have h1 : v % 4294967296 = v := Nat.mod_eq_of_lt (by omega)
  rw [h1, if_pos (by omega)]

theorem chunk_loop_zero_batch (E : Externals F T M P D C S Q) (temp_max_diff : F)
    (depth_aligned : Bool) (down_sample width_local height_local : Int)
    (init_poses : List P) :
    ∀ (fuel : Nat) (st : State F T M S Q) (r : Nat × State F T M S Q),
      chunk_loop E temp_max_diff depth_aligned down_sample width_local height_local
        init_poses 0 fuel 0 st ≠ .ok r := by
  intro fuel
  induction fuel with
  | zero => intro st r h; simp [chunk_loop] at h
  | succ fuel ih =>
    intro st r h
    simp [chunk_loop, load_chunk, icp_batch, run_slots, team_size, bind, Except.bind,
      INT_MAX] at h
    exact ih _ _ h

theorem chunk_loop_post (E : Externals F T M P D C S Q) (temp_max_diff : F)
    (depth_aligned : Bool) (down_sample width_local height_local : Int) (geometry : S)
    (init_poses : List P) (batch_size : Nat) (hbs : 0 < batch_size) :
    ∀ (fuel i : Nat) (st : State F T M S Q) (i1 : Nat) (st1 : State F T M S Q),
      BatchInv E temp_max_diff depth_aligned down_sample width_local height_local
        geometry init_poses batch_size i st →
      batch_size ∣ i → i ≤ INT_MAX →
      chunk_loop E temp_max_diff depth_aligned down_sample width_local height_local
        init_poses batch_size fuel i st = .ok (i1, st1) →
      BatchInv E temp_max_diff depth_aligned down_sample width_local height_local
          geometry init_poses batch_size i1 st1
        ∧ batch_size ∣ i1 ∧ i1 ≤ INT_MAX
        ∧ ¬ (i1 ≤ sizeSub init_poses.length batch_size) := by
  intro fuel
  induction fuel with
  | zero => intro i st i1 st1 _ _ _ h; simp [chunk_loop] at h
  | succ fuel ih =>
    intro i st i1 st1 hinv hdvd himax h
    unfold chunk_loop at h
    by_cases hguard : i ≤ sizeSub init_poses.length batch_size
    · rw [if_pos hguard] at h
      by_cases hfit : i + batch_size ≤ init_poses.length
      · rw [load_chunk_range E init_poses i batch_size hfit] at h
        obtain ⟨cs, hcs, hrun⟩ := bind_ok _ _ _ h
        have hcs1 := Except.ok.inj hcs
        subst hcs1
        obtain ⟨s, hs, hrest⟩ := bind_ok _ _ _ hrun
        by_cases hov : i + batch_size ≤ INT_MAX
        · rw [if_pos hov] at hrest
          have hstep := chunk_step E temp_max_diff depth_aligned down_sample width_local
            height_local geometry init_poses batch_size i batch_size st s hinv hdvd hbs
            (Nat.le_refl _) hfit rfl hs
          exact ih (i + batch_size) s i1 st1 hstep (Nat.dvd_add hdvd (Nat.dvd_refl _)) hov
            hrest
        · rw [if_neg hov] at hrest
          exact absurd hrest (by simp)
      · have hle := hinv.le_length
        have herr := load_chunk_error E init_poses i (List.range batch_size)
          ⟨init_poses.length - i, List.mem_range.mpr (by omega), by omega⟩
        rw [herr] at h
        simp [bind, Except.bind] at h
    · rw [if_neg hguard] at h
      have heq := Except.ok.inj h
      have h1 : i = i1 := congrArg Prod.fst heq
      have h2 : st = st1 := congrArg Prod.snd heq
      subst h1 h2
      exact ⟨hinv, hdvd, himax, hguard⟩

theorem process_batch_post (E : Externals F T M P D C S Q) (self : Session F S)
    (init_poses : List P) (down_sample : Int) (depth_aligned : Bool)
    (hsize : init_poses.length < SIZE_MOD) (st : State F T M S Q)
    (h : process_batch E self init_poses down_sample depth_aligned = .ok st) :
    BatchInv E self.scene.max_dist_diff depth_aligned down_sample
      (Int.tdiv self.width down_sample) (Int.tdiv self.height down_sample)
      self.scene.geometry init_poses self.batch_size init_poses.length st := by
  unfold process_batch at h
  by_cases hds : down_sample = 0
  · simp [hds] at h
  rw [if_neg hds] at h
  by_cases hassert : ¬ (Int.tmod self.width down_sample = 0
      ∧ Int.tmod self.height down_sample = 0)
  · rw [if_pos hassert] at h; simp at h
  rw [if_neg hassert] at h
  obtain ⟨⟨i, s⟩, hloop, htail⟩ := bind_ok _ _ _ h
  by_cases hbs : self.batch_size = 0
  · rw [hbs] at hloop
    exact absurd hloop (chunk_loop_zero_batch E _ _ _ _ _ _ _ _ _)
  have hbs1 : 0 < self.batch_size := Nat.pos_of_ne_zero hbs
  have hinv0 : BatchInv E self.scene.max_dist_diff depth_aligned down_sample
      (Int.tdiv self.width down_sample) (Int.tdiv self.height down_sample)
      self.scene.geometry init_poses self.batch_size 0
      { result_poses := List.replicate init_poses.length E.result0
        criteria := E.criteria0
        scene := self.scene
        render_calls := []
        solver_calls := [] } := by
    refine ⟨by simp, Nat.zero_le _, by intro k hk; omega, ?_, rfl, rfl, by simp, ?_⟩
    · intro k hk _
      simp [List.getElem?_replicate, hk]
    · have : (self.batch_size - 1) / self.batch_size = 0 :=
        Nat.div_eq_of_lt (Nat.sub_lt hbs1 Nat.one_pos)
      simp [this]
  obtain ⟨hinv, hdvd, himax, hexit⟩ := chunk_loop_post E _ _ _ _ _ self.scene.geometry
    init_poses self.batch_size hbs1 _ 0 _ i s hinv0 (Nat.dvd_zero _) (Nat.zero_le _) hloop
  have hile := hinv.le_length
  have hipos : 0 < i := by
    rcases Nat.eq_zero_or_pos i with h0 | h0
    · exact absurd (h0 ▸ Nat.zero_le _) hexit
    · exact h0
  have hbsle : self.batch_size ≤ i := Nat.le_of_dvd hipos hdvd
  rw [sizeSub_of_le _ _ (by omega) hsize] at hexit
  have hleft : toInt32 (sizeSub init_poses.length i) = ((init_poses.length - i : Nat) : Int) := by
    rw [sizeSub_of_le _ _ hile hsize]
    exact toInt32_of_le _ (by omega)
  simp only [hleft] at htail
  by_cases hpos : 0 < init_poses.length - i
  · have hgt : ((init_poses.length - i : Nat) : Int) > 0 := by omega
    rw [if_pos hgt, Int.toNat_ofNat,
      load_chunk_range E init_poses i _ (by omega)] at htail
    have hstep := chunk_step E self.scene.max_dist_diff depth_aligned down_sample _ _
      self.scene.geometry init_poses self.batch_size i (init_poses.length - i) s st hinv
      hdvd hpos (by omega) (by omega)
      (by rw [List.take_of_length_le (by simp), List.take_of_length_le (by simp; omega)])
      (by simpa [bind, Except.bind] using htail)
    have hidx : i + (init_poses.length - i) = init_poses.length := by omega
    rw [hidx] at hstep
    exact hstep
  · have hngt : ¬ ((init_poses.length - i : Nat) : Int) > 0 := by omega
    rw [if_neg hngt] at htail
    have hst : s = st := Except.ok.inj htail
    have hidx : i = init_poses.length := by omega
    rw [← hst, ← hidx]
    exact hinv

theorem chunk_loop_total (E : Externals F T M P D C S Q) (temp_max_diff : F)
    (depth_aligned : Bool) (down_sample width_local height_local : Int)
    (init_poses : List P) (batch_size : Nat) (hbs : 0 < batch_size)
    (hle : batch_size ≤ init_poses.length) (hmax : init_poses.length ≤ INT_MAX) :
    ∀ (fuel i : Nat) (st : State F T M S Q),
      st.result_poses.length = init_poses.length → i ≤ init_poses.length →
      (init_poses.length - i) / batch_size < fuel →
      ∃ i1 st1, chunk_loop E temp_max_diff depth_aligned down_sample width_local
        height_local init_poses batch_size fuel i st = .ok (i1, st1) := by
  have hsize : init_poses.length < SIZE_MOD := by
    unfold INT_MAX at hmax; unfold SIZE_MOD; omega
  intro fuel
  induction fuel with
  | zero => intro i st _ _ h; exact absurd h (Nat.not_lt_zero _)
  | succ fuel ih =>
    intro i st hlen hi hfuel
    unfold chunk_loop
    rw [sizeSub_of_le _ _ hle hsize]
    by_cases hguard : i ≤ init_poses.length - batch_size
    · rw [if_pos hguard, load_chunk_range E init_poses i batch_size (by omega)]
      have hcs : (((init_poses.drop i).take batch_size).map E.init_from_cv).length
          = batch_size := by simp; omega
      obtain ⟨s, hs⟩ := icp_batch_total E temp_max_diff depth_aligned down_sample
        width_local height_local (((init_poses.drop i).take batch_size).map E.init_from_cv)
        i st (by rw [hcs, hlen]; omega)
      have hslen : s.result_poses.length = init_poses.length := by
        rw [(icp_batch_post E _ _ _ _ _ _ _ _ _ hs).length_eq]; exact hlen
      have hdiv : (init_poses.length - i) / batch_size
          = (init_poses.length - i - batch_size) / batch_size + 1 :=
        Nat.div_eq_sub_div hbs (by omega)
      obtain ⟨i1, st1, hrec⟩ := ih (i + batch_size) s hslen (by omega) (by
        have : init_poses.length - (i + batch_size) = init_poses.length - i - batch_size := by
          omega
        rw [this]; omega)
      refine ⟨i1, st1, ?_⟩
      simp only [bind, Except.bind, hs]
      rw [if_pos (by omega)]
      exact hrec
    · rw [if_neg hguard]
      exact ⟨i, st, rfl⟩

/-- For at least `batch_size` poses (and at most `INT_MAX`) `process_batch` returns. -/
theorem process_batch_returns (E : Externals F T M P D C S Q) (self : Session F S)
    (init_poses : List P) (down_sample : Int) (depth_aligned : Bool)
    (hds : down_sample ≠ 0) (hw : Int.tmod self.width down_sample = 0)
    (hh : Int.tmod self.height down_sample = 0) (hbs : 0 < self.batch_size)
    (hle : self.batch_size ≤ init_poses.length) (hmax : init_poses.length ≤ INT_MAX) :
    ∃ st, process_batch E self init_poses down_sample depth_aligned = .ok st := by
  have hsize : init_poses.length < SIZE_MOD := by
    unfold INT_MAX at hmax; unfold SIZE_MOD; omega
  obtain ⟨i, s, hloop⟩ := chunk_loop_total E self.scene.max_dist_diff depth_aligned
    down_sample (Int.tdiv self.width down_sample) (Int.tdiv self.height down_sample)
    init_poses self.batch_size hbs hle hmax (init_poses.length + 1) 0
    { result_poses := List.replicate init_poses.length E.result0
      criteria := E.criteria0
      scene := self.scene
      render_calls := []
      solver_calls := [] } (by simp) (Nat.zero_le _)
    (Nat.lt_succ_of_le (Nat.div_le_self _ _))
  have hinv0 : BatchInv E self.scene.max_dist_diff depth_aligned down_sample
      (Int.tdiv self.width down_sample) (Int.tdiv self.height down_sample)
      self.scene.geometry init_poses self.batch_size 0
      { result_poses := List.replicate init_poses.length E.result0
        criteria := E.criteria0
        scene := self.scene
        render_calls := []
        solver_calls := [] } := by
    refine ⟨by simp, Nat.zero_le _, by intro k hk; omega, ?_, rfl, rfl, by simp, ?_⟩
    · intro k hk _
      simp [List.getElem?_replicate, hk]
    · have : (self.batch_size - 1) / self.batch_size = 0 :=
        Nat.div_eq_of_lt (Nat.sub_lt hbs Nat.one_pos)
      simp [this]
  obtain ⟨hinv, hdvd, himax, hexit⟩ := chunk_loop_post E _ _ _ _ _ self.scene.geometry
    init_poses self.batch_size hbs _ 0 _ i s hinv0 (Nat.dvd_zero _) (Nat.zero_le _) hloop
  have hile := hinv.le_length
  have hipos : 0 < i := by
    rcases Nat.eq_zero_or_pos i with h0 | h0
    · exact absurd (h0 ▸ Nat.zero_le _) hexit
    · exact h0
  have hbsle : self.batch_size ≤ i := Nat.le_of_dvd hipos hdvd
  have hleft : toInt32 (sizeSub init_poses.length i) = ((init_poses.length - i : Nat) : Int) := by
    rw [sizeSub_of_le _ _ hile hsize]
    exact toInt32_of_le _ (by omega)
  unfold process_batch
  rw [if_neg hds, if_neg (by simp [hw, hh])]
  simp only [bind, Except.bind, hloop, hleft]
  by_cases hpos : 0 < init_poses.length - i
  · have hgt : ((init_poses.length - i : Nat) : Int) > 0 := by omega
    rw [if_pos hgt, Int.toNat_ofNat, load_chunk_range E init_poses i _ (by omega)]
    apply icp_batch_total
    rw [hinv.length_eq]
    simp
    omega
  · have hngt : ¬ ((init_poses.length - i : Nat) : Int) > 0 := by omega
    rw [if_neg hngt]
    exact ⟨s, rfl⟩

end ProcessBatchLemmas

section ProcessBatchTheorems

variable {F T M P D C S Q : Type}

/-- C1 (the code departs from the claim): with fewer initial poses than `batch_size`
the `size_t` loop bound `init_poses.size()-batch_size` wraps around, the chunk loop is
entered with `i = 0` and reads `init_poses[init_poses.size()]`; `process_batch` does
not return a list of results. -/
theorem process_batch_short_input_faults (E : Externals F T M P D C S Q)
    (self : Session F S) (init_poses : List P) (down_sample : Int) (depth_aligned : Bool)
    (hds : down_sample ≠ 0) (hw : Int.tmod self.width down_sample = 0)
    (hh : Int.tmod self.height down_sample = 0)
    (hlt : init_poses.length < self.batch_size) :
    process_batch E self init_poses down_sample depth_aligned = .error .outOfBounds := by
  unfold process_batch
  rw [if_neg hds, if_neg (by simp [hw, hh])]
  have herr := load_chunk_error E init_poses 0 (List.range self.batch_size)
    ⟨init_poses.length, List.mem_range.mpr hlt, Nat.le_refl _⟩
  simp [chunk_loop, herr, bind, Except.bind]

theorem process_batch_short_input_faults_witness :
    (1 : Int) ≠ 0 ∧ Int.tmod (symSession 4).width 1 = 0
      ∧ Int.tmod (symSession 4).height 1 = 0
      ∧ [10, 11].length < (symSession 4).batch_size
      ∧ process_batch symExt (symSession 4) [10, 11] 1 false = .error .outOfBounds :=
  ⟨by decide, by decide, by decide, by decide,
    process_batch_short_input_faults symExt (symSession 4) [10, 11] 1 false
      (by decide) (by decide) (by decide) (by decide)⟩

/-- C2 (the code departs from the claim): for 10 poses and `batch_size = 4` the
renderer is called 3 times, on chunks of 4, 4 and 2 poses; for 3 poses and
`batch_size = 4`, where the claim has one chunk of 3 poses and one renderer call, the
loop bound `init_poses.size()-batch_size` is `2^64 - 1`, the chunk loop is entered with
`i = 0` and reads `init_poses[3]`. -/
theorem process_batch_chunks_evaluated :
    (process_batch symExt (symSession 4) [10, 11, 12, 13, 14, 15, 16, 17, 18, 19] 1
        false).toOption.map (fun st => st.render_calls)
      = some [[10, 11, 12, 13], [14, 15, 16, 17], [18, 19]]
    ∧ sizeSub 3 4 = 18446744073709551615
    ∧ (0 : Nat) ≤ sizeSub 3 4
    ∧ load_chunk symExt [10, 11, 12] 0 (List.range 4) = .error .outOfBounds
    ∧ process_batch symExt (symSession 4) [10, 11, 12] 1 false
      = .error .outOfBounds := by
  refine ⟨by decide, by decide, by decide, by rfl, by rfl⟩

/-- With a runtime that provides the threads asked for, the slot of every input pose is
executed. -/
theorem slot_runs_of_full_team (E : Externals F T M P D C S Q) (init_poses : List P)
    (batch_size k : Nat) (hfull : ∀ i n, n ≤ E.omp_team i n) (hbs : 0 < batch_size)
    (hk : k < init_poses.length) : slot_runs E init_poses batch_size k := by
  unfold slot_runs
  rw [team_size_full E _ _ (hfull _ _)]
  have hmod : k % batch_size < batch_size := Nat.mod_lt _ hbs
  have hle : k % batch_size ≤ k := Nat.mod_le _ _
  unfold chunkOf
  simp only [List.length_map, List.length_take, List.length_drop]
  omega

/-- With a runtime that provides one thread only slot 0 of every chunk is executed: of
five poses in chunks of four, the poses 1, 2 and 3 keep the default-constructed result
and no solver call is made for them. -/
theorem process_batch_one_thread :
    (process_batch symExtSerial (symSession 4) [10, 11, 12, 13, 14] 1 false).toOption.map
        (fun st => st.result_poses.map (fun r => r.transformation_))
      = some [Sym.prod (Sym.delta 10 30 7) (Sym.prod (Sym.delta 10 1 1000000) (Sym.pose 10)),
          Sym.pose 0, Sym.pose 0, Sym.pose 0,
          Sym.prod (Sym.delta 14 30 7) (Sym.prod (Sym.delta 14 1 1000000) (Sym.pose 14))]
    ∧ (process_batch symExtSerial (symSession 4) [10, 11, 12, 13, 14] 1 false).toOption.map
        (fun st => st.solver_calls.map (fun c => c.slot))
      = some [0, 0, 4, 4] := by
  refine ⟨by decide, by decide⟩

theorem slotCalls_slot (E : Externals F T M P D C S Q) (temp_max_diff : F)
    (depth_aligned : Bool) (j : Nat) :
    ∀ c ∈ slotCalls E temp_max_diff depth_aligned j, c.slot = j := by
  intro c hc
  cases depth_aligned <;> simp [slotCalls] at hc
  · rcases hc with rfl | rfl <;> rfl
  · rw [hc]

theorem poseCalls_slot (E : Externals F T M P D C S Q) (temp_max_diff : F)
    (depth_aligned : Bool) (init_poses : List P) (batch_size j : Nat) :
    ∀ c ∈ poseCalls E temp_max_diff depth_aligned init_poses batch_size j, c.slot = j := by
  intro c hc
  unfold poseCalls at hc
  split at hc
  · exact slotCalls_slot E temp_max_diff depth_aligned j c hc
  · simp at hc

/-- The calls for index `k` in a record made of the calls for the indices `0, ..., n-1`
in turn. -/
theorem filter_slotCalls (f : Nat → List (SolverCall F)) (hf : ∀ j, ∀ c ∈ f j, c.slot = j)
    (k : Nat) :
    ∀ n : Nat,
      ((List.range n).flatMap f).filter (fun c => decide (c.slot = k))
        = if k < n then f k else [] := by
  intro n
  induction n with
  | zero => simp
  | succ n ih =>
    rw [List.range_succ, List.flatMap_append, List.filter_append, ih]
    have hone : [n].flatMap f = f n := by simp
    rw [hone]
    rcases Nat.lt_trichotomy k n with h | h | h
    · have hnil : (f n).filter (fun c => decide (c.slot = k)) = [] := by
        apply List.filter_eq_nil_iff.mpr
        intro c hc
        have := hf n c hc
        simp; omega
      rw [hnil, if_pos h, if_pos (by omega), List.append_nil]
    · subst h
      have hself : (f k).filter (fun c => decide (c.slot = k)) = f k := by
        apply List.filter_eq_self.mpr
        intro c hc
        have := hf k c hc
        simp [this]
      rw [hself, if_neg (Nat.lt_irrefl _), if_pos (Nat.lt_succ_self _), List.nil_append]
    · have hnil : (f n).filter (fun c => decide (c.slot = k)) = [] := by
        apply List.filter_eq_nil_iff.mpr
        intro c hc
        have := hf n c hc
        simp; omega
      rw [hnil, if_neg (by omega), if_neg (by omega), List.append_nil]

/-- C4: whenever `process_batch` returns (the slots of a chunk run one after another),
the solver calls are, pose by pose in input order and for every pose whose slot is
executed (its thread number `k % batch_size` is below the size of the team of the
parallel region of its chunk), one call with criteria `(1e-5, 1e-5, 30)` and the entry
rejection distance when `depth_aligned` is true, and otherwise a call with criteria
`(1e-5, 1e-5, 1)` and rejection distance `FLT_MAX` followed by a call with criteria
`(1e-5, 1e-5, 30)` and the entry rejection distance; no other call is made for that
pose, and no call is made for a pose whose slot is not executed.  With a runtime that
provides the threads asked for every slot is executed; and `process_batch` does return
when the assertion holds and `batch_size ≤ n ≤ INT_MAX`. -/
theorem process_batch_solver_calls (E : Externals F T M P D C S Q)
    (self : Session F S) (init_poses : List P) (down_sample : Int) (depth_aligned : Bool)
    (hsize : init_poses.length < SIZE_MOD) :
    (∀ st : State F T M S Q,
        process_batch E self init_poses down_sample depth_aligned = .ok st →
        st.solver_calls
            = (List.range init_poses.length).flatMap (fun k =>
                if slot_runs E init_poses self.batch_size k then
                  if depth_aligned then
                    [⟨k, ⟨E.eps, E.eps, 30⟩, self.scene.max_dist_diff⟩]
                  else
                    [⟨k, ⟨E.eps, E.eps, 1⟩, E.FLT_MAX⟩,
                     ⟨k, ⟨E.eps, E.eps, 30⟩, self.scene.max_dist_diff⟩]
                else [])
          ∧ ∀ k, k < init_poses.length →
              st.solver_calls.filter (fun c => decide (c.slot = k))
                = if slot_runs E init_poses self.batch_size k then
                    if depth_aligned then
                      [⟨k, ⟨E.eps, E.eps, 30⟩, self.scene.max_dist_diff⟩]
                    else
                      [⟨k, ⟨E.eps, E.eps, 1⟩, E.FLT_MAX⟩,
                       ⟨k, ⟨E.eps, E.eps, 30⟩, self.scene.max_dist_diff⟩]
                  else [])
      ∧ ((∀ i n, n ≤ E.omp_team i n) → 0 < self.batch_size →
          ∀ k, k < init_poses.length → slot_runs E init_poses self.batch_size k)
      ∧ (down_sample ≠ 0 → Int.tmod self.width down_sample = 0 →
          Int.tmod self.height down_sample = 0 → 0 < self.batch_size →
          self.batch_size ≤ init_poses.length → init_poses.length ≤ INT_MAX →
          ∃ st, process_batch E self init_poses down_sample depth_aligned = .ok st) := by
  refine ⟨?_, fun hfull hbs k hk =>
      slot_runs_of_full_team E init_poses self.batch_size k hfull hbs hk,
    fun hds hw hh hbs hle hmax =>
      process_batch_returns E self init_poses down_sample depth_aligned hds hw hh hbs hle
        hmax⟩
  intro st hrun
  have hinv := process_batch_post E self init_poses down_sample depth_aligned hsize st hrun
  refine ⟨hinv.calls_eq, ?_⟩
  intro k hk
  rw [hinv.calls_eq, filter_slotCalls _
    (poseCalls_slot E self.scene.max_dist_diff depth_aligned init_poses self.batch_size),
    if_pos hk]
  rfl

theorem process_batch_solver_calls_witness :
    [10, 11, 12, 13, 14].length < SIZE_MOD
      ∧ slot_runs symExt [10, 11, 12, 13, 14] (symSession 4).batch_size 4
      ∧ ∃ st, process_batch symExt (symSession 4) [10, 11, 12, 13, 14] 1 false = .ok st
        ∧ st.solver_calls.filter (fun c => decide (c.slot = 4))
          = [⟨4, ⟨1, 1, 1⟩, 1000000⟩, ⟨4, ⟨1, 1, 30⟩, 7⟩] :=
  ⟨by decide, by decide, _, rfl,
    (((process_batch_solver_calls symExt (symSession 4) [10, 11, 12, 13, 14] 1 false
      (by decide)).1 _ rfl).2 4 (by decide)).trans (if_pos (by decide))⟩

/-- C5: whenever `process_batch` returns (slots run one after another), the scene's
`max_dist_diff` has the value it had on entry; and `process_batch` does return when
the assertion holds and `batch_size ≤ n ≤ INT_MAX`. -/
theorem process_batch_restores_max_dist_diff (E : Externals F T M P D C S Q)
    (self : Session F S) (init_poses : List P) (down_sample : Int) (depth_aligned : Bool)
    (hsize : init_poses.length < SIZE_MOD) :
    (∀ st : State F T M S Q,
        process_batch E self init_poses down_sample depth_aligned = .ok st →
        st.scene.max_dist_diff = self.scene.max_dist_diff)
      ∧ (down_sample ≠ 0 → Int.tmod self.width down_sample = 0 →
          Int.tmod self.height down_sample = 0 → 0 < self.batch_size →
          self.batch_size ≤ init_poses.length → init_poses.length ≤ INT_MAX →
          ∃ st, process_batch E self init_poses down_sample depth_aligned = .ok st) :=
  ⟨fun st hrun =>
      (process_batch_post E self init_poses down_sample depth_aligned hsize st hrun).dist_eq,
    fun hds hw hh hbs hle hmax =>
      process_batch_returns E self init_poses down_sample depth_aligned hds hw hh hbs hle
        hmax⟩

theorem process_batch_restores_max_dist_diff_witness :
    [10, 11, 12, 13, 14].length < SIZE_MOD
      ∧ ∃ st, process_batch symExt (symSession 4) [10, 11, 12, 13, 14] 2 false = .ok st
        ∧ st.scene.max_dist_diff = 7 :=
  ⟨by decide, _, rfl,
    (process_batch_restores_max_dist_diff symExt (symSession 4) [10, 11, 12, 13, 14] 2
      false (by decide)).1 _ rfl⟩

end ProcessBatchTheorems

section GetNormalLemmas

variable {F : Type}

theorem mem_interval (lo hi v : Nat) : v ∈ interval lo hi ↔ lo ≤ v ∧ v < hi := by
  unfold interval
  rw [List.mem_range'_1]
  omega

theorem pixel_step_apply (ops : FloatOps F) (src : Mat Nat) (fx fy : F) (l_y l_x : Nat)
    (normals : Nat → Vec3 F) (k : Nat) :
    pixel_step ops src fx fy l_y l_x normals k
      = if k = l_y * src.cols + l_x then
          (pixel_normal ops src fx fy l_y l_x).getD (normals k)
        else normals k := by
  unfold pixel_step
  cases pixel_normal ops src fx fy l_y l_x with
  | none => simp
  | some n =>
    by_cases h : k = l_y * src.cols + l_x
    · subst h; simp
    · simp [h, Function.update_noteq h]

theorem row_fold_apply (ops : FloatOps F) (src : Mat Nat) (fx fy : F) (l_y : Nat)
    (xs : List Nat) :
    ∀ (normals : Nat → Vec3 F) (k : Nat),
      (xs.foldl (fun nm l_x => pixel_step ops src fx fy l_y l_x nm) normals) k
        = if ∃ x ∈ xs, k = l_y * src.cols + x then
            (pixel_normal ops src fx fy l_y (k - l_y * src.cols)).getD (normals k)
          else normals k := by
  induction xs with
  | nil => intro normals k; simp
  | cons x xs ih =>
    intro normals k
    rw [List.foldl_cons, ih, pixel_step_apply]
    by_cases hx : k = l_y * src.cols + x
    · have hsub : k - l_y * src.cols = x := by omega
      have hex : ∃ x1 ∈ x :: xs, k = l_y * src.cols + x1 := ⟨x, List.mem_cons_self _ _, hx⟩
      rw [if_pos hx, if_pos hex, hsub]
      by_cases hrest : ∃ x1 ∈ xs, k = l_y * src.cols + x1
      · rw [if_pos hrest]
        cases pixel_normal ops src fx fy l_y x <;> rfl
      · rw [if_neg hrest]
    · rw [if_neg hx]
      by_cases hrest : ∃ x1 ∈ xs, k = l_y * src.cols + x1
      · obtain ⟨x1, hx1, hk1⟩ := hrest
        rw [if_pos ⟨x1, hx1, hk1⟩, if_pos ⟨x1, List.mem_cons_of_mem _ hx1, hk1⟩]
      · rw [if_neg hrest, if_neg]
        rintro ⟨x1, hx1, hk1⟩
        rcases List.mem_cons.mp hx1 with rfl | hmem
        · exact hx hk1
        · exact hrest ⟨x1, hmem, hk1⟩

theorem index_div_mod (W y x : Nat) (hx : x < W) :
    (y * W + x) / W = y ∧ (y * W + x) % W = x := by
  have hW : 0 < W := by omega
  constructor
  · rw [Nat.mul_comm, Nat.mul_add_div hW, Nat.div_eq_of_lt hx, Nat.add_zero]
  · rw [Nat.mul_comm, Nat.mul_add_mod, Nat.mod_eq_of_lt hx]

theorem frame_fold_apply (ops : FloatOps F) (src : Mat Nat) (fx fy : F)
    (xs : List Nat) (hxs : ∀ x ∈ xs, x < src.cols) (ys : List Nat) :
    ∀ (normals : Nat → Vec3 F) (k : Nat),
      (ys.foldl (fun nm l_y =>
          xs.foldl (fun nm l_x => pixel_step ops src fx fy l_y l_x nm) nm) normals) k
        = if ∃ y ∈ ys, ∃ x ∈ xs, k = y * src.cols + x then
            (pixel_normal ops src fx fy (k / src.cols) (k % src.cols)).getD (normals k)
          else normals k := by
  induction ys with
  | nil => intro normals k; simp
  | cons y ys ih =>
    intro normals k
    rw [List.foldl_cons, ih]
    have hrowfold := row_fold_apply ops src fx fy y xs normals k
    by_cases hrow : ∃ x ∈ xs, k = y * src.cols + x
    · obtain ⟨x, hx, hk⟩ := hrow
      have hdm := index_div_mod src.cols y x (hxs x hx)
      have hsub : k - y * src.cols = x := by omega
      rw [if_pos ⟨x, hx, hk⟩, hsub] at hrowfold
      have hex : ∃ y1 ∈ y :: ys, ∃ x1 ∈ xs, k = y1 * src.cols + x1 :=
        ⟨y, List.mem_cons_self _ _, x, hx, hk⟩
      rw [if_pos hex, hrowfold]
      have hkd : k / src.cols = y := by rw [hk]; exact hdm.1
      have hkm : k % src.cols = x := by rw [hk]; exact hdm.2
      rw [hkd, hkm]
      by_cases hrest : ∃ y1 ∈ ys, ∃ x1 ∈ xs, k = y1 * src.cols + x1
      · rw [if_pos hrest]
        cases pixel_normal ops src fx fy y x <;> rfl
      · rw [if_neg hrest]
    · rw [if_neg hrow] at hrowfold
      rw [hrowfold]
      by_cases hrest : ∃ y1 ∈ ys, ∃ x1 ∈ xs, k = y1 * src.cols + x1
      · obtain ⟨y1, hy1, hr⟩ := hrest
        rw [if_pos ⟨y1, hy1, hr⟩, if_pos ⟨y1, List.mem_cons_of_mem _ hy1, hr⟩]
      · rw [if_neg hrest, if_neg]
        rintro ⟨y1, hy1, hr⟩
        rcases List.mem_cons.mp hy1 with rfl | hmem
        · exact hrow hr
        · exact hrest ⟨y1, hmem, hr⟩

/-- The normal field of `get_normal`, pixel by pixel: the pixels visited by the loops
hold what the pixel body stores, every other pixel holds the initial zero vector. -/
theorem get_normal_px (ops : FloatOps F) (depth : Mat Nat) (K : Option (Mat F))
    (y x : Nat) (hx : x < depth.cols) :
    (get_normal ops depth K).px y x
      = if 5 ≤ y ∧ y < depth.rows - 6 ∧ 5 ≤ x ∧ x < depth.cols - 6 then
          (pixel_normal ops depth (focal ops K).1 (focal ops K).2 y x).getD
            ⟨ops.ofInt 0, ops.ofInt 0, ops.ofInt 0⟩
        else ⟨ops.ofInt 0, ops.ofInt 0, ops.ofInt 0⟩ := by
  have hidx : ((y : Int) * ((get_normal ops depth K).cols : Int) + (x : Int)).toNat
      = y * depth.cols + x := by
    show ((y : Int) * (depth.cols : Int) + (x : Int)).toNat = y * depth.cols + x
    have : ((y : Int) * (depth.cols : Int) + (x : Int)) = ((y * depth.cols + x : Nat) : Int) := by
      push_cast; ring
    rw [this, Int.toNat_ofNat]
  unfold Mat.px
  rw [hidx]
  have hxs : ∀ x1 ∈ interval 5 (depth.cols - 6), x1 < depth.cols := by
    intro x1 h1
    have := (mem_interval _ _ _).mp h1
    omega
  have hdm := index_div_mod depth.cols y x hx
  have hfold := frame_fold_apply ops depth (focal ops K).1 (focal ops K).2
    (interval 5 (depth.cols - 6)) hxs (interval 5 (depth.rows - 6))
    (fun _ => ⟨ops.ofInt 0, ops.ofInt 0, ops.ofInt 0⟩) (y * depth.cols + x)
  have hdata : (get_normal ops depth K).data (y * depth.cols + x)
      = (List.foldl (fun nm l_y =>
          List.foldl (fun nm l_x =>
            pixel_step ops depth (focal ops K).1 (focal ops K).2 l_y l_x nm) nm
            (interval 5 (depth.cols - 6)))
          (fun _ => ⟨ops.ofInt 0, ops.ofInt 0, ops.ofInt 0⟩)
          (interval 5 (depth.rows - 6))) (y * depth.cols + x) := by
    cases K <;> rfl
  rw [hdata, hfold, hdm.1, hdm.2]
  by_cases hin : 5 ≤ y ∧ y < depth.rows - 6 ∧ 5 ≤ x ∧ x < depth.cols - 6
  · rw [if_pos hin, if_pos]
    exact ⟨y, (mem_interval _ _ _).mpr ⟨hin.1, hin.2.1⟩, x,
      (mem_interval _ _ _).mpr ⟨hin.2.2.1, hin.2.2.2⟩, rfl⟩
  · rw [if_neg hin, if_neg]
    rintro ⟨y1, hy1, x1, hx1, hk⟩
    have h1 := (mem_interval _ _ _).mp hy1
    have h2 := (mem_interval _ _ _).mp hx1
    have hdm1 := index_div_mod depth.cols y1 x1 (hxs x1 hx1)
    have hy : y = y1 := by rw [← hdm.1, hk, hdm1.1]
    have hxe : x = x1 := by rw [← hdm.2, hk, hdm1.2]
    subst hy hxe
    exact hin ⟨h1.1, h1.2, h2.1, h2.2⟩

end GetNormalLemmas

theorem sum_ringOffsets (g : Int × Int → Int) :
    ∑ o ∈ ringOffsets, g o
      = g (-5, -5) + g (0, -5) + g (5, -5) + g (-5, 0) + g (5, 0) + g (-5, 5)
        + g (0, 5) + g (5, 5) := by
  have hset : ringOffsets
      = {(-5, -5), (0, -5), (5, -5), (-5, 0), (5, 0), (-5, 5), (0, 5), (5, 5)} := by
    decide
  rw [hset]
  repeat rw [Finset.sum_insert (by decide)]
  rw [Finset.sum_singleton]
  ring

theorem ring_accum_fields (src : Nat → Nat) (l_W base : Int) :
    ring_accum src l_W base
      = { A0 := 0
            + bilateralWeight (bufferDelta src base (-5 - 5 * l_W)) * (-5) * (-5)
            + bilateralWeight (bufferDelta src base (0 - 5 * l_W)) * 0 * 0
            + bilateralWeight (bufferDelta src base (5 - 5 * l_W)) * 5 * 5
            + bilateralWeight (bufferDelta src base (-5)) * (-5) * (-5)
            + bilateralWeight (bufferDelta src base (5)) * 5 * 5
            + bilateralWeight (bufferDelta src base (-5 + 5 * l_W)) * (-5) * (-5)
            + bilateralWeight (bufferDelta src base (0 + 5 * l_W)) * 0 * 0
            + bilateralWeight (bufferDelta src base (5 + 5 * l_W)) * 5 * 5
          A1 := 0
            + bilateralWeight (bufferDelta src base (-5 - 5 * l_W)) * (-5) * (-5)
            + bilateralWeight (bufferDelta src base (0 - 5 * l_W)) * 0 * (-5)
            + bilateralWeight (bufferDelta src base (5 - 5 * l_W)) * 5 * (-5)
            + bilateralWeight (bufferDelta src base (-5)) * (-5) * 0
            + bilateralWeight (bufferDelta src base (5)) * 5 * 0
            + bilateralWeight (bufferDelta src base (-5 + 5 * l_W)) * (-5) * 5
            + bilateralWeight (bufferDelta src base (0 + 5 * l_W)) * 0 * 5
            + bilateralWeight (bufferDelta src base (5 + 5 * l_W)) * 5 * 5
          A2 := 0
          A3 := 0
            + bilateralWeight (bufferDelta src base (-5 - 5 * l_W)) * (-5) * (-5)
            + bilateralWeight (bufferDelta src base (0 - 5 * l_W)) * (-5) * (-5)
            + bilateralWeight (bufferDelta src base (5 - 5 * l_W)) * (-5) * (-5)
            + bilateralWeight (bufferDelta src base (-5)) * 0 * 0
            + bilateralWeight (bufferDelta src base (5)) * 0 * 0
            + bilateralWeight (bufferDelta src base (-5 + 5 * l_W)) * 5 * 5
            + bilateralWeight (bufferDelta src base (0 + 5 * l_W)) * 5 * 5
            + bilateralWeight (bufferDelta src base (5 + 5 * l_W)) * 5 * 5
          b0 := 0
            + bilateralWeight (bufferDelta src base (-5 - 5 * l_W)) * (-5) * (bufferDelta src base (-5 - 5 * l_W))
            + bilateralWeight (bufferDelta src base (0 - 5 * l_W)) * 0 * (bufferDelta src base (0 - 5 * l_W))
            + bilateralWeight (bufferDelta src base (5 - 5 * l_W)) * 5 * (bufferDelta src base (5 - 5 * l_W))
            + bilateralWeight (bufferDelta src base (-5)) * (-5) * (bufferDelta src base (-5))
            + bilateralWeight (bufferDelta src base (5)) * 5 * (bufferDelta src base (5))
            + bilateralWeight (bufferDelta src base (-5 + 5 * l_W)) * (-5) * (bufferDelta src base (-5 + 5 * l_W))
            + bilateralWeight (bufferDelta src base (0 + 5 * l_W)) * 0 * (bufferDelta src base (0 + 5 * l_W))
            + bilateralWeight (bufferDelta src base (5 + 5 * l_W)) * 5 * (bufferDelta src base (5 + 5 * l_W))
          b1 := 0
            + bilateralWeight (bufferDelta src base (-5 - 5 * l_W)) * (-5) * (bufferDelta src base (-5 - 5 * l_W))
            + bilateralWeight (bufferDelta src base (0 - 5 * l_W)) * (-5) * (bufferDelta src base (0 - 5 * l_W))
            + bilateralWeight (bufferDelta src base (5 - 5 * l_W)) * (-5) * (bufferDelta src base (5 - 5 * l_W))
            + bilateralWeight (bufferDelta src base (-5)) * 0 * (bufferDelta src base (-5))
            + bilateralWeight (bufferDelta src base (5)) * 0 * (bufferDelta src base (5))
            + bilateralWeight (bufferDelta src base (-5 + 5 * l_W)) * 5 * (bufferDelta src base (-5 + 5 * l_W))
            + bilateralWeight (bufferDelta src base (0 + 5 * l_W)) * 5 * (bufferDelta src base (0 + 5 * l_W))
            + bilateralWeight (bufferDelta src base (5 + 5 * l_W)) * 5 * (bufferDelta src base (5 + 5 * l_W)) } := by
  rfl

theorem ringDelta_buffer (src : Mat Nat) (y x : Nat) (i j : Int) (off : Int)
    (hoff : off = i + j * (src.cols : Int)) :
    ringDelta src y x (i, j)
      = bufferDelta src.data ((y : Int) * (src.cols : Int) + (x : Int)) off := by
  unfold ringDelta bufferDelta Mat.px
  subst hoff
  have h1 : ((y : Int) + j) * (src.cols : Int) + ((x : Int) + i)
      = (y : Int) * (src.cols : Int) + (x : Int) + (i + j * (src.cols : Int)) := by ring
  rw [h1, Int.add_zero]

theorem ring_accum_sum_form (src : Mat Nat) (y x : Nat) :
    ring_accum src.data src.cols ((y : Int) * (src.cols : Int) + (x : Int))
        = { A0 := ∑ o ∈ ringOffsets, bilateralWeight (ringDelta src y x o) * o.1 * o.1
            A1 := ∑ o ∈ ringOffsets, bilateralWeight (ringDelta src y x o) * o.1 * o.2
            A2 := 0
            A3 := ∑ o ∈ ringOffsets, bilateralWeight (ringDelta src y x o) * o.2 * o.2
            b0 := ∑ o ∈ ringOffsets,
              bilateralWeight (ringDelta src y x o) * o.1 * ringDelta src y x o
            b1 := ∑ o ∈ ringOffsets,
              bilateralWeight (ringDelta src y x o) * o.2 * ringDelta src y x o } := by
  have h0 := ringDelta_buffer src y x (-5) (-5) (-5 - 5 * (src.cols : Int)) (by ring)
  have h1 := ringDelta_buffer src y x 0 (-5) (0 - 5 * (src.cols : Int)) (by ring)
  have h2 := ringDelta_buffer src y x 5 (-5) (5 - 5 * (src.cols : Int)) (by ring)
  have h3 := ringDelta_buffer src y x (-5) 0 (-5) (by ring)
  have h4 := ringDelta_buffer src y x 5 0 5 (by ring)
  have h5 := ringDelta_buffer src y x (-5) 5 (-5 + 5 * (src.cols : Int)) (by ring)
  have h6 := ringDelta_buffer src y x 0 5 (0 + 5 * (src.cols : Int)) (by ring)
  have h7 := ringDelta_buffer src y x 5 5 (5 + 5 * (src.cols : Int)) (by ring)
  rw [ring_accum_fields]
  simp only [sum_ringOffsets, h0, h1, h2, h3, h4, h5, h6, h7, Accum.mk.injEq]
  refine ⟨by ring, by ring, trivial, by ring, by ring, by ring⟩

/-- C7: at every pixel `(x, y)` the accumulators after the eight `accumBilateral`
calls are the sums over the ring offsets `(i, j)` of `f·i·i`, `f·i·j`, `f·j·j`,
`f·i·delta`, `f·j·delta`, with `delta = depth(x+i, y+j) − depth(x, y)` and `f = 1`
if `|delta| < 50`, else `0`; and a call with `|delta| ≥ 50` changes no accumulator. -/
theorem ring_accum_sums (src : Mat Nat) (y x : Nat) :
    ring_accum src.data src.cols ((y : Int) * (src.cols : Int) + (x : Int))
        = { A0 := ∑ o ∈ ringOffsets, bilateralWeight (ringDelta src y x o) * o.1 * o.1
            A1 := ∑ o ∈ ringOffsets, bilateralWeight (ringDelta src y x o) * o.1 * o.2
            A2 := 0
            A3 := ∑ o ∈ ringOffsets, bilateralWeight (ringDelta src y x o) * o.2 * o.2
            b0 := ∑ o ∈ ringOffsets,
              bilateralWeight (ringDelta src y x o) * o.1 * ringDelta src y x o
            b1 := ∑ o ∈ ringOffsets,
              bilateralWeight (ringDelta src y x o) * o.2 * ringDelta src y x o }
      ∧ ∀ (delta i j : Int) (acc : Accum), 50 ≤ |delta| →
          accumBilateral delta i j acc 50 = acc := by
  refine ⟨ring_accum_sum_form src y x, ?_⟩
  intro delta i j acc h
  have hf : ¬ |delta| < 50 := by omega
  simp [accumBilateral, hf]

theorem ring_accum_sums_witness :
    (50 : Int) ≤ |60| ∧ accumBilateral 60 5 (-5) ⟨1, 2, 3, 4, 5, 6⟩ 50 = ⟨1, 2, 3, 4, 5, 6⟩ :=
  ⟨by decide, (ring_accum_sums ⟨1, 1, fun _ => 0⟩ 0 0).2 60 5 (-5) ⟨1, 2, 3, 4, 5, 6⟩
    (by decide)⟩

/-- C8: the values `l_det`, `l_ddx`, `l_ddy` computed from the accumulators solve the
symmetric system up to the factor `l_det`. -/
theorem solve_plane_cramer (a : Accum) :
    a.A0 * (solve_plane a).2.1 + a.A1 * (solve_plane a).2.2 = (solve_plane a).1 * a.b0
      ∧ a.A1 * (solve_plane a).2.1 + a.A3 * (solve_plane a).2.2
        = (solve_plane a).1 * a.b1
      ∧ (solve_plane a).1 = a.A0 * a.A3 - a.A1 ^ 2
      ∧ (solve_plane a).2.1 = a.A3 * a.b0 - a.A1 * a.b1
      ∧ (solve_plane a).2.2 = -a.A1 * a.b0 + a.A0 * a.b1 := by
  refine ⟨?_, ?_, ?_, ?_, ?_⟩ <;> simp only [solve_plane] <;> ring

theorem roundEven_near (x : ℚ) (m : ℤ) (h : |x - m| < 1 / 2) : roundEven x = m := by
  have h1 := (abs_lt.mp h).1
  have h2 := (abs_lt.mp h).2
  unfold roundEven
  by_cases hm : (m : ℚ) ≤ x
  · have hf : ⌊x⌋ = m := Int.floor_eq_iff.mpr ⟨hm, by linarith⟩
    rw [hf, if_pos (by linarith)]
  · have hf : ⌊x⌋ = m - 1 := Int.floor_eq_iff.mpr ⟨by push_cast; linarith, by push_cast; linarith⟩
    rw [hf]
    have : ¬ (x - ((m - 1 : ℤ) : ℚ) < 1 / 2) := by push_cast; linarith
    rw [if_neg this, if_pos (by push_cast; linarith)]
    ring

theorem log2_eq (a : ℚ) (e : ℤ) (hlo : (2 : ℚ) ^ e ≤ a) (hhi : a < (2 : ℚ) ^ (e + 1)) :
    Int.log 2 a = e := by
  have hpos : 0 < a := lt_of_lt_of_le (zpow_pos (by norm_num) e) hlo
  have h1 : e ≤ Int.log 2 a :=
    (Int.zpow_le_iff_le_log (by norm_num) hpos).mp (by simpa using hlo)
  have h2 : Int.log 2 a < e + 1 :=
    (Int.lt_zpow_iff_log_lt (by norm_num) hpos).mp (by simpa using hhi)
  omega

theorem F32.round_near (q : ℚ) (e m : ℤ) (hlo : (2 : ℚ) ^ e ≤ |q|)
    (hhi : |q| < (2 : ℚ) ^ (e + 1)) (he : -126 ≤ e)
    (hm : |q / (2 : ℚ) ^ (e - 23) - m| < 1 / 2)
    (hfin : |(m : ℚ) * (2 : ℚ) ^ (e - 23)| < (2 : ℚ) ^ (128 : ℤ)) :
    F32.round q = .fin ((m : ℚ) * (2 : ℚ) ^ (e - 23)) := by
  have hq : q ≠ 0 := by
    intro h0
    rw [h0, abs_zero] at hlo
    exact absurd hlo (not_le.mpr (zpow_pos (by norm_num) e))
  unfold F32.round
  rw [if_neg hq]
  simp only [log2_eq |q| e hlo hhi, max_eq_left he, roundEven_near _ m hm]
  rw [if_neg (not_le.mpr hfin)]

theorem F32.round_zero : F32.round 0 = .fin 0 := by
  simp [F32.round]

theorem F32.sqrtPos_inexact (q : ℚ) (e k : ℤ) (N t : ℕ) (hlo : (2 : ℚ) ^ e ≤ q)
    (hhi : q < (2 : ℚ) ^ (e + 1)) (hk : k = e / 2 - 25) (hN : (N : ℚ) = q / 4 ^ k)
    (ht1 : t * t ≤ N) (ht2 : N < (t + 1) * (t + 1)) (hne : t * t ≠ N) :
    F32.sqrtPos q = F32.round (((t : ℚ) + 1 / 2) * 2 ^ k) := by
  unfold F32.sqrtPos
  simp only [log2_eq q e hlo hhi, ← hk, ← hN, Nat.floor_natCast]
  have ht : Nat.sqrt N = t := (Nat.eq_sqrt.mpr ⟨ht1, ht2⟩).symm
  rw [ht, if_neg]
  intro h
  exact hne (by exact_mod_cast h)

theorem round_sq_157500 : F32.round ((-157500) * (-157500)) = .fin 24806250496 := by
  rw [F32.round_near _ 34 12112427 (by norm_num [abs_of_pos]) (by norm_num [abs_of_pos])
    (by norm_num) (by norm_num [abs_lt]) (by norm_num [abs_of_pos])]
  norm_num

theorem round_sum_157500 : F32.round (0 + 24806250496) = .fin 24806250496 := by
  rw [F32.round_near _ 34 12112427 (by norm_num [abs_of_pos]) (by norm_num [abs_of_pos])
    (by norm_num) (by norm_num [abs_lt]) (by norm_num [abs_of_pos])]
  norm_num

theorem sqrt_157500 : F32.sqrtPos 24806250496 = .fin 157500 := by
  rw [F32.sqrtPos_inexact 24806250496 34 (-8) 1625702432505856 40320000 (by norm_num)
    (by norm_num) (by norm_num) (by norm_num) (by norm_num) (by norm_num) (by norm_num)]
  rw [F32.round_near _ 17 10080000 (by norm_num [abs_of_pos]) (by norm_num [abs_of_pos])
    (by norm_num) (by norm_num [abs_lt]) (by norm_num [abs_of_pos])]
  norm_num

theorem round_one : F32.round 1 = .fin 1 := by
  rw [F32.round_near _ 0 8388608 (by norm_num [abs_of_pos]) (by norm_num [abs_of_pos])
    (by norm_num) (by norm_num [abs_lt]) (by norm_num [abs_of_pos])]
  norm_num

theorem round_inv_157500 : F32.round (1 / 157500) = .fin (3490513 / 549755813888) := by
  rw [F32.round_near _ (-18) 13962052 (by norm_num [abs_of_pos])
    (by norm_num [abs_of_pos]) (by norm_num) (by norm_num [abs_lt])
    (by norm_num [abs_of_pos])]
  norm_num

theorem round_z_157500 :
    F32.round (-157500 * (3490513 / 549755813888)) = .fin (-16777215 / 16777216) := by
  rw [F32.round_near _ (-1) (-16777215) (by norm_num [abs_of_pos])
    (by norm_num [abs_of_pos]) (by norm_num) (by norm_num [abs_lt])
    (by norm_num [abs_of_pos])]
  norm_num

/-- In binary32 the normalised vector of `(0, 0, -157500)` (constant depth 7) has
third component `-16777215/16777216`. -/
theorem normalise_binary32_depth7 :
    normalise binary32 ⟨.fin 0, .fin 0, .fin (-157500)⟩
      = some ⟨.fin 0, .fin 0, .fin (-16777215 / 16777216)⟩ := by
  have hlt : F32.lt (.fin 0) (.fin 157500) = true := by
    show decide ((0 : ℚ) < 157500) = true
    exact decide_eq_true (by norm_num)
  have hs : F32.sqrt (.fin 24806250496) = .fin 157500 := by
    show (if (24806250496 : ℚ) < 0 then F32.nan
      else if (24806250496 : ℚ) = 0 then F32.fin 0 else F32.sqrtPos 24806250496) = _
    rw [if_neg (by norm_num), if_neg (by norm_num), sqrt_157500]
  have hdiv : F32.div (.fin 1) (.fin 157500) = .fin (3490513 / 549755813888) := by
    show (if (157500 : ℚ) = 0 then (if (1 : ℚ) = 0 then F32.nan else F32.inf (decide ((1 : ℚ) < 0)))
      else F32.round (1 / 157500)) = _
    rw [if_neg (by norm_num), round_inv_157500]
  have hm0 : F32.mul (.fin 0) (.fin 0) = .fin 0 := by
    show F32.round (0 * 0) = _
    rw [mul_zero, F32.round_zero]
  have hmz : F32.mul (.fin (-157500)) (.fin (-157500)) = .fin 24806250496 := round_sq_157500
  have ha0 : F32.add (.fin 0) (.fin 0) = .fin 0 := by
    show F32.round (0 + 0) = _
    rw [add_zero, F32.round_zero]
  have ha1 : F32.add (.fin 0) (.fin 24806250496) = .fin 24806250496 := round_sum_157500
  have hmi0 : F32.mul (.fin 0) (.fin (3490513 / 549755813888)) = .fin 0 := by
    show F32.round (0 * _) = _
    rw [zero_mul, F32.round_zero]
  have hmiz : F32.mul (.fin (-157500)) (.fin (3490513 / 549755813888))
      = .fin (-16777215 / 16777216) := round_z_157500
  have h0 : F32.round ((0 : ℤ) : ℚ) = .fin 0 := by rw [Int.cast_zero, F32.round_zero]
  simp only [normalise, binary32, hm0, hmz, ha0, ha1, hs, h0, round_one, hlt, hdiv, hmi0,
    hmiz, if_true]

section GetNormalFacts

variable {F : Type}

theorem pixel_normal_eq (ops : FloatOps F) (depth : Mat Nat) (K : Option (Mat F))
    (y x : Nat) :
    pixel_normal ops depth (focal ops K).1 (focal ops K).2 y x
      = if ((depth.px y x : Nat) : Int) < 2000 then normalise ops (rawAt ops depth K y x)
        else none := by
  rfl

theorem px_const (m : Mat Nat) (d : Nat) (hconst : IsConstant m d) (r c : Int)
    (hr : 0 ≤ r ∧ r < m.rows) (hc : 0 ≤ c ∧ c < m.cols) : m.px r c = d := by
  obtain ⟨r1, rfl⟩ := Int.eq_ofNat_of_zero_le hr.1
  obtain ⟨c1, rfl⟩ := Int.eq_ofNat_of_zero_le hc.1
  unfold Mat.px
  have : ((r1 : Int) * (m.cols : Int) + (c1 : Int)) = ((r1 * m.cols + c1 : Nat) : Int) := by
    push_cast; ring
  rw [this, Int.toNat_ofNat]
  exact hconst r1 c1 (by omega) (by omega)

/-- On a constant frame every ring difference of a pixel whose ring lies inside the
image is zero. -/
theorem ringDelta_const (m : Mat Nat) (d : Nat) (hconst : IsConstant m d) (y x : Nat)
    (hy : 5 ≤ y ∧ y + 6 ≤ m.rows) (hx : 5 ≤ x ∧ x + 6 ≤ m.cols) :
    ∀ o ∈ ringOffsets, ringDelta m y x o = 0 := by
  intro o ho
  have hmem : (o.1 = -5 ∨ o.1 = 0 ∨ o.1 = 5) ∧ (o.2 = -5 ∨ o.2 = 0 ∨ o.2 = 5) := by
    simp only [ringOffsets, Finset.mem_erase, Finset.mem_product, Finset.mem_insert,
      Finset.mem_singleton] at ho
    exact ho.2
  unfold ringDelta
  rw [px_const m d hconst _ _ (by omega) (by omega),
    px_const m d hconst _ _ (by omega) (by omega)]
  simp

end GetNormalFacts

theorem sqNorm_eq_zero {F : Type} [LinearOrderedField F] (v : Vec3 F) (h : sqNorm v = 0) :
    v = ⟨0, 0, 0⟩ := by
  unfold sqNorm at h
  have hx := mul_self_nonneg v.x
  have hy := mul_self_nonneg v.y
  have hz := mul_self_nonneg v.z
  have h1 : v.x = 0 := mul_self_eq_zero.mp (by linarith)
  have h2 : v.y = 0 := mul_self_eq_zero.mp (by linarith)
  have h3 : v.z = 0 := mul_self_eq_zero.mp (by linarith)
  cases v
  simp_all

section ExactArithmetic

variable {F : Type} [LinearOrderedField F] [FloorRing F]

/-- The end of the pixel body in exact arithmetic, for a square root that is exact at
the squared length of the vector. -/
theorem normalise_exact (sqrt : F → F) (v : Vec3 F)
    (hs : 0 ≤ sqrt (sqNorm v) ∧ sqrt (sqNorm v) * sqrt (sqNorm v) = sqNorm v) :
    (v = ⟨0, 0, 0⟩ → normalise (exactOps F sqrt) v = none)
      ∧ (v ≠ ⟨0, 0, 0⟩ → 0 < sqrt (sqNorm v)
          ∧ normalise (exactOps F sqrt) v
            = some ⟨v.x * (1 / sqrt (sqNorm v)), v.y * (1 / sqrt (sqNorm v)),
                v.z * (1 / sqrt (sqNorm v))⟩) := by
  have hdef : normalise (exactOps F sqrt) v
      = if decide (((0 : Int) : F) < sqrt (sqNorm v)) = true then
          some ⟨v.x * ((((1 : ℚ) : F)) / sqrt (sqNorm v)),
            v.y * ((((1 : ℚ) : F)) / sqrt (sqNorm v)),
            v.z * ((((1 : ℚ) : F)) / sqrt (sqNorm v))⟩
        else none := rfl
  rw [hdef]
  simp only [Int.cast_zero, Rat.cast_one, decide_eq_true_eq]
  constructor
  · intro hv
    have hq : sqNorm v = 0 := by rw [hv]; simp [sqNorm]
    have hzero : sqrt (sqNorm v) = 0 := by
      have := hs.2
      rw [hq] at this ⊢
      exact mul_self_eq_zero.mp this
    rw [if_neg (by rw [hzero]; exact lt_irrefl _)]
  · intro hv
    have hne : sqrt (sqNorm v) ≠ 0 := by
      intro h0
      have := hs.2
      rw [h0, mul_zero] at this
      exact hv (sqNorm_eq_zero v this.symm)
    have hpos : 0 < sqrt (sqNorm v) := lt_of_le_of_ne hs.1 (Ne.symm hne)
    exact ⟨hpos, by rw [if_pos hpos]⟩

theorem ring_accum_const (m : Mat Nat) (d : Nat) (hconst : IsConstant m d) (y x : Nat)
    (hy : 5 ≤ y ∧ y + 6 ≤ m.rows) (hx : 5 ≤ x ∧ x + 6 ≤ m.cols) :
    ring_accum m.data m.cols ((y : Int) * (m.cols : Int) + (x : Int))
      = ⟨150, 0, 0, 150, 0, 0⟩ := by
  have h0 := ringDelta_const m d hconst y x hy hx
  rw [ring_accum_sum_form]
  have hA0 : ∑ o ∈ ringOffsets, bilateralWeight (ringDelta m y x o) * o.1 * o.1 = 150 := by
    rw [Finset.sum_congr rfl (fun o ho => by rw [h0 o ho]), sum_ringOffsets]
    norm_num [bilateralWeight]
  have hA1 : ∑ o ∈ ringOffsets, bilateralWeight (ringDelta m y x o) * o.1 * o.2 = 0 := by
    rw [Finset.sum_congr rfl (fun o ho => by rw [h0 o ho]), sum_ringOffsets]
    norm_num [bilateralWeight]
  have hA3 : ∑ o ∈ ringOffsets, bilateralWeight (ringDelta m y x o) * o.2 * o.2 = 150 := by
    rw [Finset.sum_congr rfl (fun o ho => by rw [h0 o ho]), sum_ringOffsets]
    norm_num [bilateralWeight]
  have hb0 : ∑ o ∈ ringOffsets,
      bilateralWeight (ringDelta m y x o) * o.1 * ringDelta m y x o = 0 := by
    rw [Finset.sum_congr rfl (fun o ho => by rw [h0 o ho])]
    simp
  have hb1 : ∑ o ∈ ringOffsets,
      bilateralWeight (ringDelta m y x o) * o.2 * ringDelta m y x o = 0 := by
    rw [Finset.sum_congr rfl (fun o ho => by rw [h0 o ho])]
    simp
  rw [hA0, hA1, hA3, hb0, hb1]

theorem constFrame_isConstant (rows cols d : Nat) : IsConstant (constFrame rows cols d) d :=
  fun _ _ _ _ => rfl

/-- C9 (amended): on a constant frame of depth `d`, `0 < d < 2000`, for every `fx`,
`fy`, the raw vector of every pixel `get_normal` computes a normal for is exactly
`(0, 0, −22500·d)`, and with the float operations read as exact arithmetic every
non-zero normal of the output field equals `(0, 0, −1)`. -/
theorem get_normal_constant_frame (sqrt : F → F) (hsqrt : ∀ r : F, 0 ≤ r → sqrt (r * r) = r)
    (depth : Mat Nat) (d : Nat) (hconst : IsConstant depth d) (hd : 0 < d ∧ d < 2000)
    (K : Option (Mat F)) (y x : Nat) (hy : y < depth.rows) (hx : x < depth.cols) :
    ((5 ≤ y ∧ y + 7 ≤ depth.rows ∧ 5 ≤ x ∧ x + 7 ≤ depth.cols) →
        rawAt (exactOps F sqrt) depth K y x = ⟨0, 0, -(22500 * (d : F))⟩
        ∧ (get_normal (exactOps F sqrt) depth K).px y x = ⟨0, 0, -1⟩)
      ∧ ((get_normal (exactOps F sqrt) depth K).px y x ≠ ⟨0, 0, 0⟩ →
          (get_normal (exactOps F sqrt) depth K).px y x = ⟨0, 0, -1⟩) := by
  have hpx := get_normal_px (exactOps F sqrt) depth K y x hx
  have hzero : (⟨(exactOps F sqrt).ofInt 0, (exactOps F sqrt).ofInt 0,
      (exactOps F sqrt).ofInt 0⟩ : Vec3 F) = ⟨0, 0, 0⟩ := by
    show (⟨((0 : Int) : F), ((0 : Int) : F), ((0 : Int) : F)⟩ : Vec3 F) = _
    simp
  rw [hzero] at hpx
  have hdepth : depth.px y x = d :=
    px_const depth d hconst y x ⟨by omega, by exact_mod_cast hy⟩ ⟨by omega, by exact_mod_cast hx⟩
  have hproc : (5 ≤ y ∧ y + 7 ≤ depth.rows ∧ 5 ≤ x ∧ x + 7 ≤ depth.cols) →
      rawAt (exactOps F sqrt) depth K y x = ⟨0, 0, -(22500 * (d : F))⟩
      ∧ (get_normal (exactOps F sqrt) depth K).px y x = ⟨0, 0, -1⟩ := by
    intro hin
    have hacc := ring_accum_const depth d hconst y x ⟨hin.1, by omega⟩ ⟨hin.2.2.1, by omega⟩
    have hraw : rawAt (exactOps F sqrt) depth K y x = ⟨0, 0, -(22500 * (d : F))⟩ := by
      unfold rawAt
      rw [hacc, hdepth]
      show (⟨(focal (exactOps F sqrt) K).1 * (((150 * 0 - 0 * 0 : Int)) : F),
        (focal (exactOps F sqrt) K).2 * (((-0 * 0 + 150 * 0 : Int)) : F),
        (((-(150 * 150 - 0 * 0) * ((d : Nat) : Int) : Int)) : F)⟩ : Vec3 F) = _
      push_cast
      norm_num
    have hdpos : (0 : F) < 22500 * (d : F) := by
      have : (0 : F) < (d : F) := by exact_mod_cast hd.1
      linarith
    have hq : sqNorm (rawAt (exactOps F sqrt) depth K y x)
        = (22500 * (d : F)) * (22500 * (d : F)) := by
      rw [hraw]; simp only [sqNorm]; ring
    have hroot : sqrt (sqNorm (rawAt (exactOps F sqrt) depth K y x)) = 22500 * (d : F) := by
      rw [hq]; exact hsqrt _ (le_of_lt hdpos)
    have hne : rawAt (exactOps F sqrt) depth K y x ≠ ⟨0, 0, 0⟩ := by
      rw [hraw]
      intro h
      have hz := congrArg Vec3.z h
      simp only at hz
      linarith
    obtain ⟨_, hn⟩ := (normalise_exact sqrt (rawAt (exactOps F sqrt) depth K y x)
      (by rw [hroot]; exact ⟨le_of_lt hdpos, hq.symm⟩)).2 hne
    refine ⟨hraw, ?_⟩
    rw [hpx, if_pos ⟨hin.1, by omega, hin.2.2.1, by omega⟩, pixel_normal_eq,
      if_pos (by rw [hdepth]; exact_mod_cast hd.2), hn, hroot, hraw]
    simp only [Option.getD_some, zero_mul]
    congr 1
    field_simp
  refine ⟨hproc, ?_⟩
  intro hnz
  by_cases hin : 5 ≤ y ∧ y < depth.rows - 6 ∧ 5 ≤ x ∧ x < depth.cols - 6
  · exact (hproc ⟨hin.1, by omega, hin.2.2.1, by omega⟩).2
  · rw [hpx, if_neg hin] at hnz
    exact absurd rfl hnz

end ExactArithmetic

theorem rat_sqrt_exact : ∀ r : ℚ, 0 ≤ r → Rat.sqrt (r * r) = r := by
  intro r hr
  rw [Rat.sqrt_eq, abs_of_nonneg hr]

theorem get_normal_constant_frame_witness :
    (∀ r : ℚ, 0 ≤ r → Rat.sqrt (r * r) = r) ∧ IsConstant (constFrame 12 12 7) 7
      ∧ (0 < 7 ∧ 7 < 2000) ∧ 5 < (constFrame 12 12 7).rows ∧ 5 < (constFrame 12 12 7).cols
      ∧ (get_normal (exactOps ℚ Rat.sqrt) (constFrame 12 12 7) none).px 5 5 = ⟨0, 0, -1⟩ :=
  ⟨rat_sqrt_exact, constFrame_isConstant 12 12 7, by decide, by decide, by decide,
    ((get_normal_constant_frame Rat.sqrt rat_sqrt_exact (constFrame 12 12 7) 7
      (constFrame_isConstant 12 12 7) (by decide) none 5 5 (by decide) (by decide)).1
      (by decide)).2⟩

theorem round_530 : F32.round 530 = .fin 530 := by
  rw [F32.round_near _ 9 8683520 (by norm_num [abs_of_pos]) (by norm_num [abs_of_pos])
    (by norm_num) (by norm_num [abs_lt]) (by norm_num [abs_of_pos])]
  norm_num

theorem round_neg_157500 : F32.round (-157500) = .fin (-157500) := by
  rw [F32.round_near _ 17 (-10080000) (by norm_num [abs_of_pos]) (by norm_num [abs_of_pos])
    (by norm_num) (by norm_num [abs_lt]) (by norm_num [abs_of_pos])]
  norm_num

/-- The raw vector of a pixel of a constant frame in binary32, with the default focal
lengths. -/
theorem rawAt_binary32_const (rows cols d : Nat) (y x : Nat)
    (hy : 5 ≤ y ∧ y + 6 ≤ rows) (hx : 5 ≤ x ∧ x + 6 ≤ cols) :
    rawAt binary32 (constFrame rows cols d) none y x
      = ⟨.fin 0, .fin 0, F32.round (-(22500 * (d : ℚ)))⟩ := by
  have hacc := ring_accum_const (constFrame rows cols d) d (constFrame_isConstant rows cols d)
    y x hy hx
  unfold rawAt
  rw [hacc]
  show (⟨F32.mul (F32.round ((530 : Int) : ℚ)) (F32.round (((150 * 0 - 0 * 0 : Int)) : ℚ)),
    F32.mul (F32.round ((530 : Int) : ℚ)) (F32.round (((-0 * 0 + 150 * 0 : Int)) : ℚ)),
    F32.round (((-(150 * 150 - 0 * 0) * ((d : Nat) : Int) : Int)) : ℚ)⟩ : Vec3 F32) = _
  have h530 : F32.round ((530 : Int) : ℚ) = .fin 530 := by
    rw [show ((530 : Int) : ℚ) = 530 by norm_num, round_530]
  have hz1 : F32.round (((150 * 0 - 0 * 0 : Int)) : ℚ) = .fin 0 := by
    rw [show (((150 * 0 - 0 * 0 : Int)) : ℚ) = 0 by norm_num, F32.round_zero]
  have hz2 : F32.round (((-0 * 0 + 150 * 0 : Int)) : ℚ) = .fin 0 := by
    rw [show (((-0 * 0 + 150 * 0 : Int)) : ℚ) = 0 by norm_num, F32.round_zero]
  have hm : F32.mul (.fin 530) (.fin 0) = .fin 0 := by
    show F32.round (530 * 0) = _
    rw [mul_zero, F32.round_zero]
  rw [h530, hz1, hz2, hm]
  congr 2
  push_cast
  ring

/-- The normal `get_normal` stores in binary32 arithmetic at the pixel `(5, 5)` of the
12 x 12 frame of constant depth 7. -/
theorem get_normal_binary32_px_depth7 :
    rawAt binary32 (constFrame 12 12 7) none 5 5 = ⟨.fin 0, .fin 0, .fin (-157500)⟩
      ∧ (get_normal binary32 (constFrame 12 12 7) none).px 5 5
        = ⟨.fin 0, .fin 0, .fin (-16777215 / 16777216)⟩ := by
  have hraw : rawAt binary32 (constFrame 12 12 7) none 5 5
      = ⟨.fin 0, .fin 0, .fin (-157500)⟩ := by
    rw [rawAt_binary32_const 12 12 7 5 5 (by decide) (by decide)]
    norm_num [round_neg_157500]
  refine ⟨hraw, ?_⟩
  have h := get_normal_px binary32 (constFrame 12 12 7) none 5 5 (by decide)
  rw [if_pos (by decide), pixel_normal_eq, if_pos (by decide), hraw,
    normalise_binary32_depth7] at h
  exact h

/-- C9 (counterexample): in the 12 x 12 frame of constant depth 7 the raw vector at
`(5, 5)` is exactly `(0, 0, −157500)`, and the normal stored in binary32 arithmetic
is `(0, 0, −16777215/16777216)`: non-zero and different from `(0, 0, −1)`. -/
theorem get_normal_binary32_depth7 :
    rawAt binary32 (constFrame 12 12 7) none 5 5 = ⟨.fin 0, .fin 0, .fin (-157500)⟩
      ∧ (get_normal binary32 (constFrame 12 12 7) none).px 5 5
        = ⟨.fin 0, .fin 0, .fin (-16777215 / 16777216)⟩
      ∧ (get_normal binary32 (constFrame 12 12 7) none).px 5 5 ≠ ⟨.fin 0, .fin 0, .fin 0⟩
      ∧ (get_normal binary32 (constFrame 12 12 7) none).px 5 5 ≠ ⟨.fin 0, .fin 0, .fin (-1)⟩ := by
  obtain ⟨hraw, hn⟩ := get_normal_binary32_px_depth7
  refine ⟨hraw, hn, ?_, ?_⟩
  · rw [hn]
    intro h
    have hz := congrArg Vec3.z h
    simp only [F32.fin.injEq] at hz
    norm_num at hz
  · rw [hn]
    intro h
    have hz := congrArg Vec3.z h
    simp only [F32.fin.injEq] at hz
    norm_num at hz

section OcclusionLemmas

variable {F G : Type}

theorem okOrOob_ok {α : Type} (a : α) : OkOrOob (Except.ok a : Except Fault α) := by
  intro e h; cases h

theorem okOrOob_bind {α β : Type} (x : Except Fault α) (f : α → Except Fault β)
    (hx : OkOrOob x) (hf : ∀ a, OkOrOob (f a)) : OkOrOob (x >>= f) := by
  cases x with
  | error e =>
    intro e1 h
    simp only [bind, Except.bind] at h
    cases h
    exact hx e rfl
  | ok a => exact hf a

theorem okOrOob_at {α : Type} (m : Mat α) (r c : Int) : OkOrOob (m.at? r c) := by
  intro e h
  unfold Mat.at? at h
  split at h
  · cases h
  · exact (Except.error.inj h).symm

theorem okOrOob_set {α : Type} (m : Mat α) (r c : Int) (v : α) : OkOrOob (m.set? r c v) := by
  intro e h
  unfold Mat.set? at h
  split at h
  · cases h
  · exact (Except.error.inj h).symm

theorem okOrOob_foldlM {α σ : Type} (f : σ → α → Except Fault σ)
    (hf : ∀ s a, OkOrOob (f s a)) : ∀ (l : List α) (s : σ), OkOrOob (l.foldlM f s) := by
  intro l
  induction l with
  | nil => intro s; exact okOrOob_ok s
  | cons a l ih =>
    intro s
    rw [List.foldlM_cons]
    exact okOrOob_bind _ _ (hf s a) (fun s1 => ih s1)

theorem okOrOob_scan_step (ops : FloatOps F) (depth : Mat Nat) (r c dep_Dxy : Int)
    (offset_r offset_c : Int) (s : NeighbourScan F) :
    OkOrOob (scan_step ops depth r c dep_Dxy offset_r offset_c s) := by
  unfold scan_step
  split
  · exact okOrOob_ok _
  · apply okOrOob_bind _ _ (okOrOob_at _ _ _)
    intro dep_nn
    split <;> exact okOrOob_ok _

theorem okOrOob_neighbour_scan (ops : FloatOps F) (depth : Mat Nat) (r c dep_Dxy : Int) :
    OkOrOob (neighbour_scan ops depth r c dep_Dxy) := by
  unfold neighbour_scan
  apply okOrOob_foldlM
  intro s offset_r
  apply okOrOob_foldlM
  intro s1 offset_c
  exact okOrOob_scan_step ops depth r c dep_Dxy offset_r offset_c s1

theorem okOrOob_max_step (ops : FloatOps F) (normals : Mat (Vec3 F)) (fx fy : F)
    (r c : Int) (dep_dn : Int → Int → Int) (i j : Int) (m : MaxSearch F) :
    OkOrOob (max_step ops normals fx fy r c dep_dn i j m) := by
  unfold max_step
  apply okOrOob_bind _ _ (okOrOob_at _ _ _)
  intro normal
  dsimp only
  split <;> exact okOrOob_ok _

theorem okOrOob_max_search (ops : FloatOps F) (normals : Mat (Vec3 F)) (fx fy : F)
    (r c : Int) (dep_dn : Int → Int → Int) :
    OkOrOob (max_search ops normals fx fy r c dep_dn) := by
  unfold max_search
  apply okOrOob_foldlM
  intro m i
  apply okOrOob_foldlM
  intro m1 j
  exact okOrOob_max_step ops normals fx fy r c dep_dn i j m1

theorem okOrOob_directional_search (ops : FloatOps F) (depth : Mat Nat) (r c : Int)
    (dx dy : F) : ∀ radii : List Int, OkOrOob (directional_search ops depth r c dx dy radii) := by
  intro radii
  induction radii with
  | nil => exact okOrOob_ok _
  | cons radius rest ih =>
    unfold directional_search
    dsimp only
    split
    · exact okOrOob_ok _
    · apply okOrOob_bind _ _ (okOrOob_at _ _ _)
      intro cur_depth
      split
      · exact okOrOob_ok _
      · exact ih

theorem okOrOob_occ_pixel (ops : FloatOps F) (dops : FloatOps G) (depth : Mat Nat)
    (normals : Mat (Vec3 F)) (fx fy : F) (r c : Int) (occ_edge : Mat Nat) :
    OkOrOob (occ_pixel ops dops depth normals fx fy r c occ_edge) := by
  unfold occ_pixel
  apply okOrOob_bind _ _ (okOrOob_at _ _ _)
  intro dep
  dsimp only
  split
  · exact okOrOob_ok _
  · apply okOrOob_bind _ _ (okOrOob_neighbour_scan _ _ _ _ _)
    intro s
    split
    · apply okOrOob_bind _ _ (okOrOob_max_search _ _ _ _ _ _ _)
      intro m
      split
      · exact okOrOob_set _ _ _ _
      · exact okOrOob_ok _
    · split
      · exact okOrOob_ok _
      · apply okOrOob_bind _ _ (okOrOob_directional_search _ _ _ _ _ _ _)
        intro corr_depth
        split
        · split
          · split
            · exact okOrOob_ok _
            · exact okOrOob_set _ _ _ _
          · exact okOrOob_ok _
        · exact okOrOob_ok _

theorem at_const (m : Mat Nat) (d : Nat) (hconst : IsConstant m d) (r c : Int)
    (hr : 0 ≤ r ∧ r < (m.rows : Int)) (hc : 0 ≤ c ∧ c < (m.cols : Int)) :
    m.at? r c = .ok d := by
  unfold Mat.at?
  rw [if_pos ⟨hr.1, hr.2, hc.1, hc.2⟩, px_const m d hconst r c hr hc]

theorem at_outside {α : Type} (m : Mat α) (r c : Int)
    (h : ¬ (0 ≤ r ∧ r < (m.rows : Int) ∧ 0 ≤ c ∧ c < (m.cols : Int))) :
    m.at? r c = .error .outOfBounds := by
  unfold Mat.at?
  rw [if_neg h]

theorem foldlM_preserves {α σ : Type} (f : σ → α → Except Fault σ) (Q : σ → Prop)
    (l : List α) (hf : ∀ s a, a ∈ l → Q s → ∃ s1, f s a = .ok s1 ∧ Q s1) :
    ∀ s, Q s → ∃ s1, l.foldlM f s = .ok s1 ∧ Q s1 := by
  induction l with
  | nil => intro s hs; exact ⟨s, rfl, hs⟩
  | cons a l ih =>
    intro s hs
    obtain ⟨s1, h1, hq1⟩ := hf s a (List.mem_cons_self _ _) hs
    obtain ⟨s2, h2, hq2⟩ := ih (fun s b hb => hf s b (List.mem_cons_of_mem _ hb)) s1 hq1
    exact ⟨s2, by rw [List.foldlM_cons, h1]; exact h2, hq2⟩

theorem foldlM_faults {α σ : Type} (f : σ → α → Except Fault σ)
    (hf : ∀ s a, OkOrOob (f s a)) (a : α) (ha : ∀ s, f s a = .error .outOfBounds) :
    ∀ (l : List α), a ∈ l → ∀ s, l.foldlM f s = .error .outOfBounds := by
  intro l
  induction l with
  | nil => intro h; simp at h
  | cons b l ih =>
    intro hmem s
    rw [List.foldlM_cons]
    cases hb : f s b with
    | error e =>
      have := hf s b e hb
      subst this
      rfl
    | ok s1 =>
      rcases List.mem_cons.mp hmem with rfl | hl
      · rw [ha s] at hb; cases hb
      · exact ih hl s1

/-- On a frame of constant non-zero depth the scan of the neighbours of an interior
pixel finds no missing neighbour. -/
theorem neighbour_scan_const (ops : FloatOps F) (depth : Mat Nat) (d : Nat)
    (hconst : IsConstant depth d) (hd : 0 < d) (r c : Int)
    (hr : 1 ≤ r ∧ r + 1 < (depth.rows : Int)) (hc : 1 ≤ c ∧ c + 1 < (depth.cols : Int))
    (dep_Dxy : Int) :
    ∃ s, neighbour_scan ops depth r c dep_Dxy = .ok s ∧ s.invalid = false := by
  unfold neighbour_scan
  refine foldlM_preserves _ (fun s : NeighbourScan F => s.invalid = false) _ ?_ _ rfl
  intro s offset_r hor hs
  refine foldlM_preserves _ (fun s : NeighbourScan F => s.invalid = false) _ ?_ _ hs
  · intro s1 offset_c hoc hs1
    have hor1 : offset_r = -1 ∨ offset_r = 0 ∨ offset_r = 1 := by simpa using hor
    have hoc1 : offset_c = -1 ∨ offset_c = 0 ∨ offset_c = 1 := by simpa using hoc
    unfold scan_step
    split
    · exact ⟨s1, rfl, hs1⟩
    · rw [at_const depth d hconst _ _ (by omega) (by omega)]
      have hne : ¬ d = 0 := by omega
      simp only [bind, Except.bind, hne, if_false]
      exact ⟨_, rfl, hs1⟩

theorem max_step_inside (ops : FloatOps F) (normals : Mat (Vec3 F)) (fx fy : F)
    (r c : Int) (dep_dn : Int → Int → Int) (i j : Int) (m : MaxSearch F)
    (h : 0 ≤ r + i ∧ r + i < (normals.rows : Int) ∧ 0 ≤ c + j ∧ c + j < (normals.cols : Int)) :
    ∃ m1, max_step ops normals fx fy r c dep_dn i j m = .ok m1 := by
  unfold max_step Mat.at?
  rw [if_pos h]
  simp only [bind, Except.bind]
  split <;> exact ⟨_, rfl⟩

theorem max_step_outside (ops : FloatOps F) (normals : Mat (Vec3 F)) (fx fy : F)
    (r c : Int) (dep_dn : Int → Int → Int) (i j : Int) (m : MaxSearch F)
    (h : ¬ (0 ≤ r + i ∧ r + i < (normals.rows : Int) ∧ 0 ≤ c + j
      ∧ c + j < (normals.cols : Int))) :
    max_step ops normals fx fy r c dep_dn i j m = .error .outOfBounds := by
  unfold max_step
  rw [at_outside normals _ _ h]
  rfl

/-- In the next to last column the search of the all-neighbours-valid case reads the
normal of column `c + 2 = cols`. -/
theorem max_search_last_column (ops : FloatOps F) (normals : Mat (Vec3 F)) (fx fy : F)
    (r c : Int) (dep_dn : Int → Int → Int)
    (hr : 0 ≤ r ∧ r < (normals.rows : Int)) (hc : 0 ≤ c ∧ c + 2 = (normals.cols : Int)) :
    max_search ops normals fx fy r c dep_dn = .error .outOfBounds := by
  unfold max_search
  rw [List.foldlM_cons, List.foldlM_cons]
  obtain ⟨m1, h1⟩ := max_step_inside ops normals fx fy r c dep_dn 0 0
    { max_d := ops.ofInt 0, max_offset_r := 0, max_offset_c := 0 } (by omega)
  rw [h1]
  simp only [bind, Except.bind]
  rw [List.foldlM_cons]
  obtain ⟨m2, h2⟩ := max_step_inside ops normals fx fy r c dep_dn 0 1 m1 (by omega)
  rw [h2]
  simp only [bind, Except.bind]
  rw [List.foldlM_cons, max_step_outside ops normals fx fy r c dep_dn 0 2 m2 (by omega)]
  rfl

theorem occ_pixel_last_column (ops : FloatOps F) (dops : FloatOps G) (depth : Mat Nat)
    (normals : Mat (Vec3 F)) (fx fy : F) (d : Nat) (hconst : IsConstant depth d)
    (hd : 0 < d) (hnr : normals.rows = depth.rows) (hnc : normals.cols = depth.cols)
    (r c : Int) (hr : 1 ≤ r ∧ r + 1 < (depth.rows : Int))
    (hc : 1 ≤ c ∧ c + 2 = (depth.cols : Int)) (occ_edge : Mat Nat) :
    occ_pixel ops dops depth normals fx fy r c occ_edge = .error .outOfBounds := by
  unfold occ_pixel
  rw [at_const depth d hconst r c (by omega) (by omega)]
  obtain ⟨s, hs, hinv⟩ := neighbour_scan_const ops depth d hconst hd r c hr
    (by omega) ((d : Nat) : Int)
  have hne : ¬ ((d : Nat) : Int) = 0 := by omega
  simp only [bind, Except.bind, hne, if_false, hs, hinv, Bool.not_false, if_true]
  rw [max_search_last_column ops normals fx fy r c s.dep_dn (by rw [hnr]; omega)
    (by rw [hnc]; omega)]

end OcclusionLemmas

/-- C10 (the code departs from the claim): on every frame of constant depth `d > 0`
with at least 3 rows and 3 columns, and every normal field of the same size, the
occlusion detector of `get_depth_edge` reads `normals.at(r+i, c+j)` for `i, j` from 0
to 2 and so, at the pixel `r = 1`, `c = cols-2`, the normal of column `cols`, outside
the field: it returns no edge mask. -/
theorem occlusion_edges_constant_faults {F G : Type} (ops : FloatOps F)
    (dops : FloatOps G) (depth : Mat Nat) (normals : Mat (Vec3 F)) (fx fy : F) (d : Nat)
    (hconst : IsConstant depth d) (hd : 0 < d) (hrows : 3 ≤ depth.rows)
    (hcols : 3 ≤ depth.cols) (hnr : normals.rows = depth.rows)
    (hnc : normals.cols = depth.cols) :
    occlusion_edges ops dops depth normals fx fy = .error .outOfBounds := by
  unfold occlusion_edges
  apply foldlM_faults _ _ 1
  · intro occ_edge
    apply foldlM_faults _ _ (depth.cols - 2)
    · intro occ_edge1
      exact occ_pixel_last_column ops dops depth normals fx fy d hconst hd hnr hnc _ _
        (by omega) (by omega) occ_edge1
    · exact (mem_interval _ _ _).mpr (by omega)
    · intro s c
      exact okOrOob_occ_pixel ops dops depth normals fx fy _ _ s
  · exact (mem_interval _ _ _).mpr (by omega)
  · intro s r
    apply okOrOob_foldlM
    intro s1 c
    exact okOrOob_occ_pixel ops dops depth normals fx fy _ _ s1

theorem occlusion_edges_constant_faults_witness :
    IsConstant (constFrame 3 3 1000) 1000 ∧ 0 < 1000 ∧ 3 ≤ (constFrame 3 3 1000).rows
      ∧ 3 ≤ (constFrame 3 3 1000).cols
      ∧ occlusion_edges binary32 binary32 (constFrame 3 3 1000)
          (get_normal binary32 (constFrame 3 3 1000) none) (F32.fin 530) (F32.fin 530)
        = .error .outOfBounds :=
  ⟨constFrame_isConstant 3 3 1000, by decide, by decide, by decide,
    occlusion_edges_constant_faults binary32 binary32 (constFrame 3 3 1000)
      (get_normal binary32 (constFrame 3 3 1000) none) (F32.fin 530) (F32.fin 530) 1000
      (constFrame_isConstant 3 3 1000) (by decide) (by decide) (by decide) rfl rfl⟩

/-! ## The binary64 test of the missing-data case -/

theorem F64.round_close (q : ℚ) (e m : ℤ) (hlo : (2 : ℚ) ^ e ≤ |q|)
    (hhi : |q| < (2 : ℚ) ^ (e + 1)) (he : -1022 ≤ e)
    (hm : |q / (2 : ℚ) ^ (e - 52) - m| < 1 / 2)
    (hfin : |(m : ℚ) * (2 : ℚ) ^ (e - 52)| < (2 : ℚ) ^ (1024 : ℤ)) :
    F64.round q = .fin ((m : ℚ) * (2 : ℚ) ^ (e - 52)) := by
  have hq : q ≠ 0 := by
    intro h0
    rw [h0, abs_zero] at hlo
    exact absurd hlo (not_le.mpr (zpow_pos (by norm_num) e))
  unfold F64.round
  rw [if_neg hq]
  simp only [log2_eq |q| e hlo hhi, max_eq_left he, roundEven_near _ m hm]
  rw [if_neg (not_le.mpr hfin)]

theorem F64.round_fiftieth :
    F64.round (1 / 50) = .fin (5764607523034235 / 288230376151711744) := by
  rw [F64.round_close _ (-6) 5764607523034235 (by norm_num [abs_of_pos])
    (by norm_num [abs_of_pos]) (by norm_num) (by norm_num [abs_lt])
    (by norm_num [abs_of_pos])]
  norm_num

theorem roundEven_err (y : ℚ) : |(roundEven y : ℚ) - y| ≤ 1 / 2 := by
  have h1 := Int.floor_le y
  have h2 := Int.lt_floor_add_one y
  unfold roundEven
  rw [abs_le]
  split_ifs <;> push_cast <;> constructor <;> linarith

/-- A value within a relative distance `2^-54` above an integer `0 < n < 2^53` rounds
to that integer. -/
theorem F64.round_near_int (x : ℚ) (n : ℤ) (hn : 0 < n) (hn2 : n < 2 ^ 53)
    (hx : (n : ℚ) ≤ x) (hclose : x - n < n / 2 ^ 54) : F64.round x = .fin n := by
  have hpos : (0 : ℚ) < n := by exact_mod_cast hn
  have h1 : (2 : ℚ) ^ Int.log 2 (n : ℚ) ≤ n := by
    simpa using Int.zpow_log_le_self (b := 2) (by norm_num) hpos
  have h2 : (n : ℚ) < (2 : ℚ) ^ (Int.log 2 (n : ℚ) + 1) := by
    simpa using Int.lt_zpow_succ_log_self (b := 2) (by norm_num) (n : ℚ)
  have he0 : 0 ≤ Int.log 2 (n : ℚ) := by
    have : ((2 : ℕ) : ℚ) ^ (0 : ℤ) ≤ (n : ℚ) := by
      have : (1 : ℚ) ≤ n := by exact_mod_cast hn
      simpa using this
    exact (Int.zpow_le_iff_le_log (by norm_num) hpos).mp this
  have he52 : Int.log 2 (n : ℚ) < 53 := by
    have h53 : (n : ℚ) < (2 : ℚ) ^ (53 : ℤ) := by
      have h : (n : ℚ) < 2 ^ 53 := by exact_mod_cast hn2
      rw [show ((53 : ℤ)) = ((53 : ℕ) : ℤ) by rfl, zpow_natCast]
      exact h
    exact (Int.lt_zpow_iff_log_lt (by norm_num) hpos).mp (by simpa using h53)
  obtain ⟨k, hk⟩ := Int.eq_ofNat_of_zero_le he0
  rw [hk] at h1 h2 he52
  have hk52 : k ≤ 52 := by omega
  obtain ⟨j, hj⟩ : ∃ j : ℕ, k + j = 52 := ⟨52 - k, by omega⟩
  have h1n : (2 : ℚ) ^ k ≤ n := by simpa using h1
  have h2n : (n : ℚ) < (2 : ℚ) ^ (k + 1) := by
    have : ((k : ℤ) + 1) = ((k + 1 : ℕ) : ℤ) := by push_cast; rfl
    rw [this, zpow_natCast] at h2
    exact h2
  have h2i : n + 1 ≤ 2 ^ (k + 1) := by
    have : n < 2 ^ (k + 1) := by exact_mod_cast h2n
    omega
  have h2q : (n : ℚ) + 1 ≤ (2 : ℚ) ^ (k + 1) := by exact_mod_cast h2i
  have hsmall : (n : ℚ) / 2 ^ 54 < 1 := by
    have : (n : ℚ) < 2 ^ 53 := by exact_mod_cast hn2
    rw [div_lt_one (by positivity)]
    linarith [show (2 : ℚ) ^ 53 < 2 ^ 54 by norm_num]
  have hxpos : 0 < x := lt_of_lt_of_le hpos hx
  have hulp : (2 : ℚ) ^ ((k : ℤ) - 52) = ((2 : ℚ) ^ j)⁻¹ := by
    have : ((k : ℤ) - 52) = -(j : ℤ) := by omega
    rw [this, zpow_neg, zpow_natCast]
  have hpj : (0 : ℚ) < 2 ^ j := by positivity
  have hkj : (2 : ℚ) ^ (k + 1) * 2 ^ j = 2 ^ 53 := by
    rw [← pow_add]; congr 1; omega
  have key := F64.round_close x k (n * 2 ^ j) (by rw [abs_of_pos hxpos, zpow_natCast]; linarith)
    (by
      rw [abs_of_pos hxpos]
      have : ((k : ℤ) + 1) = ((k + 1 : ℕ) : ℤ) := by push_cast; rfl
      rw [this, zpow_natCast]
      linarith)
    (by omega)
    (by
      rw [hulp, div_inv_eq_mul]
      push_cast
      rw [← sub_mul, abs_of_nonneg (mul_nonneg (by linarith) hpj.le)]
      have hb : (x - n) * 2 ^ j < (n : ℚ) / 2 ^ 54 * 2 ^ j := by
        exact mul_lt_mul_of_pos_right hclose hpj
      have hc : (n : ℚ) / 2 ^ 54 * 2 ^ j ≤ 1 / 2 := by
        have : (n : ℚ) * 2 ^ j ≤ 2 ^ 53 := by
          rw [← hkj]
          exact mul_le_mul_of_nonneg_right (by linarith) hpj.le
        rw [div_mul_eq_mul_div, div_le_iff₀ (by positivity)]
        linarith [show (1 : ℚ) / 2 * 2 ^ 54 = 2 ^ 53 by norm_num]
      linarith)
    (by
      rw [hulp]
      push_cast
      rw [mul_assoc, mul_inv_cancel₀ hpj.ne', mul_one, abs_of_pos hpos]
      have : (n : ℚ) < 2 ^ 53 := by exact_mod_cast hn2
      have h3 : (2 : ℚ) ^ (53 : ℕ) < (2 : ℚ) ^ (1024 : ℤ) := by
        rw [show ((1024 : ℤ)) = ((1024 : ℕ) : ℤ) by rfl, zpow_natCast]
        exact pow_lt_pow_right₀ (by norm_num) (by norm_num)
      linarith)
  rw [key, hulp]
  push_cast
  rw [mul_assoc, mul_inv_cancel₀ hpj.ne', mul_one]

/-- Away from the subnormal and the overflow range, rounding to binary64 changes a
value by at most the fraction `2^-53` of it. -/
theorem F64.round_rel (x : ℚ) (hlo : (2 : ℚ) ^ (-1022 : ℤ) ≤ |x|)
    (hhi : |x| < (2 : ℚ) ^ (1023 : ℤ)) :
    ∃ r, F64.round x = .fin r ∧ |r - x| ≤ |x| / 2 ^ 53 := by
  have habs : 0 < |x| := lt_of_lt_of_le (zpow_pos (by norm_num) _) hlo
  have hq : x ≠ 0 := abs_pos.mp habs
  have h1 : (2 : ℚ) ^ Int.log 2 |x| ≤ |x| := by
    simpa using Int.zpow_log_le_self (b := 2) (by norm_num) habs
  have he : -1022 ≤ Int.log 2 |x| :=
    (Int.zpow_le_iff_le_log (by norm_num) habs).mp (by simpa using hlo)
  have hulp : (0 : ℚ) < 2 ^ (Int.log 2 |x| - 52) := zpow_pos (by norm_num) _
  have hhalf : (2 : ℚ) ^ (Int.log 2 |x| - 52) / 2 ≤ |x| / 2 ^ 53 := by
    rw [zpow_sub₀ (by norm_num), div_div, div_le_div_iff₀ (by positivity) (by positivity)]
    have : (2 : ℚ) ^ (52 : ℤ) * 2 = 2 ^ 53 := by norm_num
    rw [this]
    exact mul_le_mul_of_nonneg_right h1 (by positivity)
  have herr : |(roundEven (x / 2 ^ (Int.log 2 |x| - 52)) : ℚ) * 2 ^ (Int.log 2 |x| - 52) - x|
      ≤ 2 ^ (Int.log 2 |x| - 52) / 2 := by
    have h := roundEven_err (x / 2 ^ (Int.log 2 |x| - 52))
    have hx : x = x / 2 ^ (Int.log 2 |x| - 52) * 2 ^ (Int.log 2 |x| - 52) := by
      field_simp
    calc |(roundEven (x / 2 ^ (Int.log 2 |x| - 52)) : ℚ) * 2 ^ (Int.log 2 |x| - 52) - x|
        = |((roundEven (x / 2 ^ (Int.log 2 |x| - 52)) : ℚ) - x / 2 ^ (Int.log 2 |x| - 52))
            * 2 ^ (Int.log 2 |x| - 52)| := by
          congr 1
          rw [sub_mul, ← hx]
      _ = |(roundEven (x / 2 ^ (Int.log 2 |x| - 52)) : ℚ) - x / 2 ^ (Int.log 2 |x| - 52)|
            * 2 ^ (Int.log 2 |x| - 52) := by rw [abs_mul, abs_of_pos hulp]
      _ ≤ 1 / 2 * 2 ^ (Int.log 2 |x| - 52) := mul_le_mul_of_nonneg_right h hulp.le
      _ = 2 ^ (Int.log 2 |x| - 52) / 2 := by ring
  refine ⟨(roundEven (x / 2 ^ (Int.log 2 |x| - 52)) : ℚ) * 2 ^ (Int.log 2 |x| - 52), ?_,
    le_trans herr hhalf⟩
  unfold F64.round
  rw [if_neg hq]
  simp only [max_eq_left he]
  rw [if_neg]
  rw [not_le]
  have h2 : |(roundEven (x / 2 ^ (Int.log 2 |x| - 52)) : ℚ) * 2 ^ (Int.log 2 |x| - 52)|
      ≤ |x| + |x| / 2 ^ 53 := by
    have := abs_sub_abs_le_abs_sub
      ((roundEven (x / 2 ^ (Int.log 2 |x| - 52)) : ℚ) * 2 ^ (Int.log 2 |x| - 52)) x
    linarith [le_trans herr hhalf]
  have h3 : (2 : ℚ) ^ (1024 : ℤ) = 2 * 2 ^ (1023 : ℤ) := by
    rw [show (1024 : ℤ) = 1023 + 1 by norm_num, zpow_add_one₀ (by norm_num)]
    ring
  have h4 : |x| / 2 ^ 53 ≤ |x| := div_le_self habs.le (by norm_num)
  rw [h3]
  linarith

theorem F64.round_int (n : ℤ) (h0 : 0 ≤ n) (h : n < 2 ^ 53) : F64.round n = .fin n := by
  rcases h0.eq_or_lt with h1 | h1
  · subst h1
    simp [F64.round]
  · have hpos : (0 : ℚ) < n := by exact_mod_cast h1
    exact F64.round_near_int n n h1 h le_rfl (by rw [sub_self]; positivity)

/-- The test `std::abs(diff) > 0.02 * dep_Dxy` of the source, evaluated in binary64 on
values of `uint16_t`, is the exact comparison `dep_Dxy < 50 * |diff|`. -/
theorem binary64_two_percent (dep a : ℤ) (hdep : 0 < dep) (hdep2 : dep < 65536)
    (ha : 0 ≤ a) (ha2 : a < 65536) :
    binary64.lt (binary64.mul (binary64.ofLit (1 / 50)) (binary64.ofInt dep))
      (binary64.ofInt a) = decide (dep < 50 * a) := by
  have hdq : (0 : ℚ) < dep := by exact_mod_cast hdep
  have hdq2 : (dep : ℚ) < 65536 := by exact_mod_cast hdep2
  have haq : (0 : ℚ) ≤ a := by exact_mod_cast ha
  have haq2 : (a : ℚ) < 65536 := by exact_mod_cast ha2
  show F64.lt (F64.mul (F64.round (1 / 50)) (F64.round dep)) (F64.round a) = _
  rw [F64.round_fiftieth, F64.round_int dep hdep.le (by omega), F64.round_int a ha (by omega)]
  show F64.lt (F64.round (5764607523034235 / 288230376151711744 * (dep : ℚ))) (.fin a) = _
  rcases lt_trichotomy dep (50 * a) with hlt | heq | hgt
  · have h1 : (dep : ℚ) + 1 ≤ 50 * a := by exact_mod_cast hlt
    obtain ⟨r, hr, herr⟩ := F64.round_rel (5764607523034235 / 288230376151711744 * (dep : ℚ))
      (by
        rw [abs_of_pos (by positivity)]
        have h2 : (2 : ℚ) ^ (-1022 : ℤ) ≤ 2 ^ (-6 : ℤ) :=
          zpow_le_zpow_right₀ (by norm_num) (by norm_num)
        have h3 : (2 : ℚ) ^ (-6 : ℤ) = 1 / 64 := by norm_num
        have h4 : (1 : ℚ) ≤ dep := by exact_mod_cast hdep
        linarith)
      (by
        rw [abs_of_pos (by positivity)]
        have h2 : (2 : ℚ) ^ (11 : ℤ) ≤ 2 ^ (1023 : ℤ) :=
          zpow_le_zpow_right₀ (by norm_num) (by norm_num)
        have h3 : (2 : ℚ) ^ (11 : ℤ) = 2048 := by norm_num
        linarith)
    rw [hr]
    rw [abs_of_pos (mul_pos (by norm_num) hdq :
      (0 : ℚ) < 5764607523034235 / 288230376151711744 * (dep : ℚ))] at herr
    have h5 := (abs_le.mp herr).2
    have hra : r < a := by linarith
    show decide (r < (a : ℚ)) = _
    rw [decide_eq_true hra, decide_eq_true hlt]
  · have hapos : 0 < a := by omega
    have haq0 : (0 : ℚ) < a := by exact_mod_cast hapos
    have hd : (dep : ℚ) = 50 * a := by exact_mod_cast heq
    rw [F64.round_near_int _ a hapos (by omega) (by rw [hd]; linarith)
      (by rw [hd]; norm_num; linarith)]
    show decide ((a : ℚ) < a) = _
    rw [decide_eq_false (lt_irrefl _), decide_eq_false (by omega)]
  · have h1 : (50 : ℚ) * a + 1 ≤ dep := by exact_mod_cast hgt
    obtain ⟨r, hr, herr⟩ := F64.round_rel (5764607523034235 / 288230376151711744 * (dep : ℚ))
      (by
        rw [abs_of_pos (by positivity)]
        have h2 : (2 : ℚ) ^ (-1022 : ℤ) ≤ 2 ^ (-6 : ℤ) :=
          zpow_le_zpow_right₀ (by norm_num) (by norm_num)
        have h3 : (2 : ℚ) ^ (-6 : ℤ) = 1 / 64 := by norm_num
        have h4 : (1 : ℚ) ≤ dep := by exact_mod_cast hdep
        linarith)
      (by
        rw [abs_of_pos (by positivity)]
        have h2 : (2 : ℚ) ^ (11 : ℤ) ≤ 2 ^ (1023 : ℤ) :=
          zpow_le_zpow_right₀ (by norm_num) (by norm_num)
        have h3 : (2 : ℚ) ^ (11 : ℤ) = 2048 := by norm_num
        linarith)
    rw [hr]
    rw [abs_of_pos (mul_pos (by norm_num) hdq :
      (0 : ℚ) < 5764607523034235 / 288230376151711744 * (dep : ℚ))] at herr
    have h5 := (abs_le.mp herr).1
    have hra : ¬ r < a := by
      rw [not_lt]
      linarith
    show decide (r < (a : ℚ)) = _
    rw [decide_eq_false hra, decide_eq_false (by omega)]


/-! ## The missing-data case of the occlusion detector -/

section MissingDataLemmas

variable {F : Type}

theorem at_inside {α : Type} (m : Mat α) (r c : Int)
    (h : 0 ≤ r ∧ r < (m.rows : Int) ∧ 0 ≤ c ∧ c < (m.cols : Int)) :
    m.at? r c = .ok (m.px r c) := by
  unfold Mat.at?
  rw [if_pos h]

/-- A loop every pass of which returns and keeps a flag, once it is set: the loop
returns, keeps the flag, and the flag is set if some pass sets it. -/
theorem foldlM_flag {α σ : Type} (f : σ → α → Except Fault σ) (P : σ → Prop) :
    ∀ (l : List α), (∀ s a, a ∈ l → ∃ s1, f s a = .ok s1 ∧ (P s → P s1)) →
      ∀ s, ∃ s1, l.foldlM f s = .ok s1 ∧ (P s → P s1)
        ∧ (∀ a ∈ l, (∀ t t1, f t a = .ok t1 → P t1) → P s1) := by
  intro l
  induction l with
  | nil => intro _ s; exact ⟨s, rfl, id, fun a ha => by simp at ha⟩
  | cons b l ih =>
    intro hf s
    obtain ⟨s1, h1, hp1⟩ := hf s b (List.mem_cons_self _ _)
    obtain ⟨s2, h2, hp2, hset2⟩ := ih (fun t a ha => hf t a (List.mem_cons_of_mem _ ha)) s1
    refine ⟨s2, by rw [List.foldlM_cons, h1]; exact h2, fun hs => hp2 (hp1 hs), ?_⟩
    intro a ha hset
    rcases List.mem_cons.mp ha with rfl | hl
    · exact hp2 (hset s s1 h1)
    · exact hset2 a hl hset

theorem scan_step_interior (ops : FloatOps F) (depth : Mat Nat) (r c dep_Dxy : Int)
    (offset_r offset_c : Int) (s : NeighbourScan F)
    (hin : 0 ≤ r + offset_r ∧ r + offset_r < (depth.rows : Int) ∧ 0 ≤ c + offset_c
      ∧ c + offset_c < (depth.cols : Int)) :
    ∃ s1, scan_step ops depth r c dep_Dxy offset_r offset_c s = .ok s1
      ∧ (s.invalid = true → s1.invalid = true)
      ∧ (¬ (offset_c = 0 ∧ offset_r = 0) →
          depth.px (r + offset_r) (c + offset_c) = 0 → s1.invalid = true) := by
  unfold scan_step
  by_cases h0 : offset_c = 0 ∧ offset_r = 0
  · rw [if_pos h0]
    exact ⟨s, rfl, id, fun h => absurd h0 h⟩
  · rw [if_neg h0, at_inside depth _ _ hin]
    simp only [bind, Except.bind]
    by_cases hz : depth.px (r + offset_r) (c + offset_c) = 0
    · rw [if_pos hz]
      exact ⟨_, rfl, fun _ => rfl, fun _ _ => rfl⟩
    · rw [if_neg hz]
      exact ⟨_, rfl, id, fun _ h => absurd h hz⟩

/-- At an interior pixel with a neighbour of depth 0 the neighbour scan returns with
`invalid` set. -/
theorem neighbour_scan_missing (ops : FloatOps F) (depth : Mat Nat) (r c dep_Dxy : Int)
    (hr : 1 ≤ r ∧ r + 1 < (depth.rows : Int)) (hc : 1 ≤ c ∧ c + 1 < (depth.cols : Int))
    (oi oj : Int) (hoi : oi = -1 ∨ oi = 0 ∨ oi = 1) (hoj : oj = -1 ∨ oj = 0 ∨ oj = 1)
    (hne : ¬ (oi = 0 ∧ oj = 0)) (hzero : depth.px (r + oi) (c + oj) = 0) :
    ∃ s, neighbour_scan ops depth r c dep_Dxy = .ok s ∧ s.invalid = true := by
  have hinner : ∀ offset_r : Int, offset_r ∈ [(-1 : Int), 0, 1] → ∀ s : NeighbourScan F,
      ∃ s1, [(-1 : Int), 0, 1].foldlM
          (fun s offset_c => scan_step ops depth r c dep_Dxy offset_r offset_c s) s = .ok s1
        ∧ (s.invalid = true → s1.invalid = true)
        ∧ (∀ a ∈ [(-1 : Int), 0, 1], (∀ t t1,
            scan_step ops depth r c dep_Dxy offset_r a t = .ok t1 → t1.invalid = true) →
            s1.invalid = true) := by
    intro offset_r hor s
    have hor1 : offset_r = -1 ∨ offset_r = 0 ∨ offset_r = 1 := by simpa using hor
    refine foldlM_flag _ (fun s : NeighbourScan F => s.invalid = true) _ ?_ s
    intro t offset_c hoc
    have hoc1 : offset_c = -1 ∨ offset_c = 0 ∨ offset_c = 1 := by simpa using hoc
    obtain ⟨t1, h1, h2, _⟩ := scan_step_interior ops depth r c dep_Dxy offset_r offset_c t
      (by omega)
    exact ⟨t1, h1, h2⟩
  unfold neighbour_scan
  obtain ⟨s1, h1, _, hset⟩ := foldlM_flag
    (fun s offset_r => [(-1 : Int), 0, 1].foldlM
      (fun s offset_c => scan_step ops depth r c dep_Dxy offset_r offset_c s) s)
    (fun s : NeighbourScan F => s.invalid = true) [(-1 : Int), 0, 1]
    (fun s offset_r hor => by
      obtain ⟨s1, h1, h2, _⟩ := hinner offset_r hor s
      exact ⟨s1, h1, h2⟩)
    { dx := ops.ofInt 0, dy := ops.ofInt 0, invalid_count := 0, dep_dn := fun _ _ => 0,
      invalid := false }
  refine ⟨s1, h1, hset oi (by rcases hoi with h | h | h <;> simp [h]) ?_⟩
  intro t t1 ht
  obtain ⟨t2, h2, _, hset2⟩ := hinner oi (by rcases hoi with h | h | h <;> simp [h]) t
  rw [ht] at h2
  cases h2
  refine hset2 oj (by rcases hoj with h | h | h <;> simp [h]) ?_
  intro u u1 hu
  obtain ⟨u2, h3, _, h4⟩ := scan_step_interior ops depth r c dep_Dxy oi oj u (by omega)
  rw [hu] at h3
  cases h3
  exact h4 (fun h => hne ⟨h.2, h.1⟩) hzero

/-- The directional search returns `0` or a depth sample of the frame. -/
theorem directional_search_range (ops : FloatOps F) (depth : Mat Nat)
    (h16 : ∀ k, depth.data k < 65536) (r c : Int) (dx dy : F) :
    ∀ (radii : List Int) (corr : Int),
      directional_search ops depth r c dx dy radii = .ok corr → 0 ≤ corr ∧ corr < 65536 := by
  intro radii
  induction radii with
  | nil =>
    intro corr h
    unfold directional_search at h
    cases h
    omega
  | cons radius rest ih =>
    intro corr h
    unfold directional_search at h
    dsimp only at h
    split at h
    · cases h; omega
    · unfold Mat.at? at h
      split at h
      · simp only [bind, Except.bind] at h
        split at h
        · cases h
          have := h16 (((r + ops.floor (ops.mul dy (ops.ofInt radius))) * (depth.cols : Int)
            + (c + ops.floor (ops.mul dx (ops.ofInt radius)))).toNat)
          unfold Mat.px
          omega
        · exact ih corr h
      · cases h

end MissingDataLemmas

/-- C11: at an interior pixel `(r, c)` of a 16-bit depth frame with depth `> 0` and a
neighbour of depth 0, the neighbour scan returns its locals `s`, and, the `double`
test being evaluated in binary64: if the missing-data case finds the sample depth
`corr` (`0` for no sample), the pixel body returns the mask with the centre marked when
`corr > 0` and `corr − centre > 0.02·centre`, and the unchanged mask otherwise; it
fails only if the directional search does. -/
theorem occ_pixel_missing_data {F : Type} (ops : FloatOps F) (depth : Mat Nat)
    (normals : Mat (Vec3 F)) (fx fy : F) (r c : Int) (occ_edge : Mat Nat)
    (hr : 1 ≤ r ∧ r + 1 < (depth.rows : Int)) (hc : 1 ≤ c ∧ c + 1 < (depth.cols : Int))
    (hsize : occ_edge.rows = depth.rows ∧ occ_edge.cols = depth.cols)
    (h16 : ∀ k, depth.data k < 65536) (hcentre : 0 < depth.px r c)
    (oi oj : Int) (hoi : oi = -1 ∨ oi = 0 ∨ oi = 1) (hoj : oj = -1 ∨ oj = 0 ∨ oj = 1)
    (hne : ¬ (oi = 0 ∧ oj = 0)) (hzero : depth.px (r + oi) (c + oj) = 0) :
    ∃ s, neighbour_scan ops depth r c ((depth.px r c : Nat) : Int) = .ok s
      ∧ s.invalid = true
      ∧ (∀ corr, found_sample ops depth r c s = .ok corr →
          occ_pixel ops binary64 depth normals fx fy r c occ_edge
            = .ok (if 0 < corr ∧ (1 / 50 : ℚ) * (depth.px r c : ℚ)
                  < (corr : ℚ) - (depth.px r c : ℚ)
                then markAt occ_edge r c else occ_edge))
      ∧ (∀ e, found_sample ops depth r c s = .error e →
          occ_pixel ops binary64 depth normals fx fy r c occ_edge = .error e) := by
  obtain ⟨s, hs, hinv⟩ := neighbour_scan_missing ops depth r c ((depth.px r c : Nat) : Int)
    hr hc oi oj hoi hoj hne hzero
  have hdep : ¬ ((depth.px r c : Nat) : Int) = 0 := by omega
  have hd16 : ((depth.px r c : Nat) : Int) < 65536 := by
    have := h16 ((r * (depth.cols : Int) + c).toNat)
    unfold Mat.px
    omega
  have hpix : ∀ x, found_sample ops depth r c s = x →
      occ_pixel ops binary64 depth normals fx fy r c occ_edge
        = x >>= fun corr_depth =>
          if corr_depth > 0 then
            if binary64.lt (binary64.mul (binary64.ofLit (1 / 50))
                (binary64.ofInt ((depth.px r c : Nat) : Int)))
                (binary64.ofInt |corr_depth - ((depth.px r c : Nat) : Int)|) then
              if corr_depth - ((depth.px r c : Nat) : Int) < 0 then .ok occ_edge
              else occ_edge.set? r c 255
            else .ok occ_edge
          else .ok occ_edge := by
    intro x hx
    unfold occ_pixel
    rw [at_inside depth r c (by omega)]
    simp only [bind, Except.bind, hdep, if_false, hs, hinv, Bool.not_true]
    unfold found_sample at hx
    by_cases hz : (ops.beq s.dx (ops.ofInt 0) && ops.beq s.dy (ops.ofInt 0)) = true
    · rw [if_pos hz] at hx
      subst hx
      simp [hz]
    · rw [if_neg hz] at hx
      subst hx
      simp only [hz, Bool.false_eq_true, if_false]
      rfl
  refine ⟨s, hs, hinv, ?_, ?_⟩
  · intro corr hfound
    rw [hpix _ hfound]
    have hrange : 0 ≤ corr ∧ corr < 65536 := by
      unfold found_sample at hfound
      split at hfound
      · cases hfound; omega
      · exact directional_search_range ops depth h16 r c _ _ _ corr hfound
    have hp : (0 : ℚ) < (depth.px r c : ℚ) := by exact_mod_cast hcentre
    simp only [bind, Except.bind]
    by_cases hpos : corr > 0
    · rw [if_pos hpos]
      have habs : 0 ≤ |corr - ((depth.px r c : Nat) : Int)|
          ∧ |corr - ((depth.px r c : Nat) : Int)| < 65536 := by
        refine ⟨abs_nonneg _, abs_lt.mpr ⟨by omega, by omega⟩⟩
      rw [binary64_two_percent _ _ (by omega) hd16 habs.1 habs.2]
      by_cases hneg : corr - ((depth.px r c : Nat) : Int) < 0
      · have hq : (corr : ℚ) - (depth.px r c : ℚ) < 0 := by
          have : ((corr - ((depth.px r c : Nat) : Int) : Int) : ℚ) < 0 := by exact_mod_cast hneg
          push_cast at this
          exact this
        have hcond : ¬ (0 < corr ∧ (1 / 50 : ℚ) * (depth.px r c : ℚ)
            < (corr : ℚ) - (depth.px r c : ℚ)) := by
          intro h
          linarith [h.2]
        rw [if_neg hcond, if_pos hneg]
        split <;> rfl
      · rw [abs_of_nonneg (by omega)]
        by_cases hbig : ((depth.px r c : Nat) : Int) < 50 * (corr - ((depth.px r c : Nat) : Int))
        · have hq : (1 / 50 : ℚ) * (depth.px r c : ℚ) < (corr : ℚ) - (depth.px r c : ℚ) := by
            have : (((depth.px r c : Nat) : Int) : ℚ)
                < ((50 * (corr - ((depth.px r c : Nat) : Int)) : Int) : ℚ) := by
              exact_mod_cast hbig
            push_cast at this
            linarith
          rw [decide_eq_true hbig, if_pos rfl, if_neg hneg, if_pos ⟨hpos, hq⟩]
          unfold Mat.set? markAt
          rw [if_pos (by rw [hsize.1, hsize.2]; omega)]
        · have hq : ¬ (1 / 50 : ℚ) * (depth.px r c : ℚ) < (corr : ℚ) - (depth.px r c : ℚ) := by
            intro h
            apply hbig
            have : (((depth.px r c : Nat) : Int) : ℚ)
                < ((50 * (corr - ((depth.px r c : Nat) : Int)) : Int) : ℚ) := by
              push_cast
              linarith
            exact_mod_cast this
          rw [decide_eq_false hbig, if_neg (by simp), if_neg (fun h => hq h.2)]
    · rw [if_neg hpos, if_neg (fun h => hpos h.1)]
  · intro e hfound
    rw [hpix _ hfound]
    rfl

theorem gapFrame_scan :
    ∃ s, neighbour_scan (exactOps ℚ Rat.sqrt) gapFrame 1 1 1000 = .ok s
      ∧ s.dx = 1 ∧ s.dy = 0 ∧ s.invalid_count = 1 := by
  refine ⟨_, rfl, ?_, ?_, ?_⟩
  · simp [exactOps]
  · simp [exactOps]
  · rfl

theorem gapFrame_found (s : NeighbourScan ℚ) (hdx : s.dx = 1) (hdy : s.dy = 0)
    (hcnt : s.invalid_count = 1) :
    found_sample (exactOps ℚ Rat.sqrt) gapFrame 1 1 s = .ok 1100 := by
  have hl : (interval 1 50).map (fun radius => (radius : Int))
      = 1 :: 2 :: (interval 3 50).map (fun radius => (radius : Int)) := by rfl
  unfold found_sample
  rw [hdx, hdy, hcnt, hl]
  simp [exactOps, directional_search, Mat.at?, Mat.px, gapFrame, bind, Except.bind]

theorem occ_pixel_missing_data_witness :
    (∀ k, gapFrame.data k < 65536) ∧ 0 < gapFrame.px 1 1 ∧ gapFrame.px (1 + 0) (1 + 1) = 0
      ∧ occ_pixel (exactOps ℚ Rat.sqrt) binary64 gapFrame ⟨3, 4, fun _ => ⟨0, 0, 0⟩⟩ 530 530
          1 1 (constFrame 3 4 0) = .ok (markAt (constFrame 3 4 0) 1 1) := by
  have h16 : ∀ k, gapFrame.data k < 65536 := by
    intro k
    unfold gapFrame
    dsimp only
    split_ifs <;> omega
  obtain ⟨s, hs, _, hok, _⟩ := occ_pixel_missing_data (exactOps ℚ Rat.sqrt) gapFrame
    ⟨3, 4, fun _ => ⟨0, 0, 0⟩⟩ 530 530 1 1 (constFrame 3 4 0) (by decide) (by decide)
    ⟨rfl, rfl⟩ h16 (by decide) 0 1 (by decide) (by decide) (by decide) (by decide)
  obtain ⟨s0, hs0, hdx, hdy, hcnt⟩ := gapFrame_scan
  have hpx : gapFrame.px 1 1 = 1000 := by decide
  rw [hpx] at hs hok
  rw [show ((1000 : Nat) : Int) = 1000 by rfl, hs0] at hs
  have hss : s = s0 := (Except.ok.inj hs).symm
  rw [hss] at hok
  refine ⟨h16, by decide, by decide, ?_⟩
  rw [hok 1100 (gapFrame_found s0 hdx hdy hcnt), if_pos]
  exact ⟨by norm_num, by norm_num⟩

/-! ## The all-neighbours-valid case of the occlusion detector -/

/-- The loop body of the all-neighbours-valid case compares `compared_value` with
`max_d`. -/
theorem max_step_eq {F : Type} (ops : FloatOps F) (normals : Mat (Vec3 F)) (fx fy : F)
    (r c : Int) (dep_dn : Int → Int → Int) (i j : Int) (m : MaxSearch F) :
    max_step ops normals fx fy r c dep_dn i j m
      = compared_value ops normals fx fy r c dep_dn i j >>= fun dist =>
          .ok (if ops.lt m.max_d dist then ⟨dist, i - 1, j - 1⟩ else m) := by
  unfold max_step compared_value
  cases normals.at? (r + i) (c + j) with
  | error e => rfl
  | ok n =>
    simp only [bind, Except.bind]
    split <;> rfl

theorem stepFrame_scan :
    ∃ s, neighbour_scan (exactOps ℚ Rat.sqrt) stepFrame 1 1 1000 = .ok s
      ∧ s.invalid = false ∧ s.dep_dn 0 0 = 100
      ∧ ∀ i j, ¬ (i = 0 ∧ j = 0) → s.dep_dn i j = 0 := by
  refine ⟨_, rfl, rfl, rfl, ?_⟩
  intro i j hij
  simp [stepFrame, Mat.px]
  omega

theorem stepNormals_compared (dep_dn : Int → Int → Int) (i j : Int)
    (hi : i = 0 ∨ i = 1 ∨ i = 2) (hj : j = 0 ∨ j = 1 ∨ j = 2) :
    compared_value (exactOps ℚ Rat.sqrt) stepNormals 530 530 1 1 dep_dn i j = .ok 0 := by
  rcases hi with rfl | rfl | rfl <;> rcases hj with rfl | rfl | rfl <;>
    simp [compared_value, Mat.at?, Mat.px, stepNormals, exactOps, dot, bind, Except.bind]

theorem stepNormals_max_search (dep_dn : Int → Int → Int) :
    max_search (exactOps ℚ Rat.sqrt) stepNormals 530 530 1 1 dep_dn
      = .ok { max_d := 0, max_offset_r := 0, max_offset_c := 0 } := by
  have hlt : (exactOps ℚ Rat.sqrt).lt (0 : ℚ) 0 = false := by simp [exactOps]
  unfold max_search
  simp only [List.foldlM_cons, List.foldlM_nil, max_step_eq]
  simp only [stepNormals_compared dep_dn _ _ (Or.inl rfl) (Or.inl rfl),
    stepNormals_compared dep_dn _ _ (Or.inl rfl) (Or.inr (Or.inl rfl)),
    stepNormals_compared dep_dn _ _ (Or.inl rfl) (Or.inr (Or.inr rfl)),
    stepNormals_compared dep_dn _ _ (Or.inr (Or.inl rfl)) (Or.inl rfl),
    stepNormals_compared dep_dn _ _ (Or.inr (Or.inl rfl)) (Or.inr (Or.inl rfl)),
    stepNormals_compared dep_dn _ _ (Or.inr (Or.inl rfl)) (Or.inr (Or.inr rfl)),
    stepNormals_compared dep_dn _ _ (Or.inr (Or.inr rfl)) (Or.inl rfl),
    stepNormals_compared dep_dn _ _ (Or.inr (Or.inr rfl)) (Or.inr (Or.inl rfl)),
    stepNormals_compared dep_dn _ _ (Or.inr (Or.inr rfl)) (Or.inr (Or.inr rfl)),
    bind, Except.bind, pure, Except.pure]
  simp [exactOps]

/-- C12 (the code departs from the claim): on the 4 x 4 frame `stepFrame` with the
normal field `stepNormals`, all neighbours of the centre `(1, 1)` are valid.  For the
neighbour offset `(-1, -1)` the value of the claim, `|v · n|` with `n` the normal stored
at the neighbour `(0, 0)`, is `1/10`; the loop body for this offset (`i = j = 0`) reads
`normals.at(r+i, c+j)`, the normal of the centre, and compares the value 0.  Every value
the code compares is 0, the largest stays 0 and the pixel body marks nothing. -/
theorem max_search_reads_shifted_normal :
    (∃ s, neighbour_scan (exactOps ℚ Rat.sqrt) stepFrame 1 1 1000 = .ok s
        ∧ s.invalid = false
        ∧ compared_value (exactOps ℚ Rat.sqrt) stepNormals 530 530 1 1 s.dep_dn 0 0 = .ok 0
        ∧ max_search (exactOps ℚ Rat.sqrt) stepNormals 530 530 1 1 s.dep_dn
            = .ok { max_d := 0, max_offset_r := 0, max_offset_c := 0 })
      ∧ projection_spec (exactOps ℚ Rat.sqrt) stepFrame stepNormals 530 530 1 1 (-1) (-1)
          = .ok (1 / 10)
      ∧ occ_pixel (exactOps ℚ Rat.sqrt) binary64 stepFrame stepNormals 530 530 1 1
          (constFrame 4 4 0) = .ok (constFrame 4 4 0) := by
  obtain ⟨s, hs, hinv, _, _⟩ := stepFrame_scan
  refine ⟨⟨s, hs, hinv, stepNormals_compared _ 0 0 (Or.inl rfl) (Or.inl rfl),
    stepNormals_max_search _⟩, ?_, ?_⟩
  · simp [projection_spec, Mat.at?, Mat.px, stepFrame, stepNormals, exactOps, dot, bind,
      Except.bind]
    norm_num
  · unfold occ_pixel
    rw [at_inside stepFrame 1 1 (by decide)]
    have hpx : stepFrame.px 1 1 = 1000 := by decide
    simp only [bind, Except.bind, hpx]
    rw [show ((1000 : Nat) : Int) = 1000 by rfl, hs]
    simp only [show ¬ ((1000 : Int) = 0) by decide, if_false, hinv, Bool.not_false, if_true,
      stepNormals_max_search]
    simp [exactOps]

/-! ## The gradient stage -/

/-- C13 (the code departs from the claim): for all filters and channels, `sx` is
`SobelX(Blur(Nx))` but `sy` is `SobelY(Ny)`, the gradient of the unsmoothed
y-component: the second blur writes its result to `N_xyz[0]` and `N_xyz[1]` is never
smoothed.  For the column `0, 0, 4, 0, 0` as y-component and the filters
`columnFilters` the code gives `sy = 0, 4, 0, -4, 0` where the claim has
`SobelY(Blur(Ny)) = 1, 2, 0, -2, -1`. -/
theorem gradient_stage_unsmoothed_y :
    (∀ (I : Type) (flt : Filters I) (N_xyz : Nat → I),
        (gradient_stage flt N_xyz).sx = flt.SobelX (flt.GaussianBlur (N_xyz 0))
        ∧ (gradient_stage flt N_xyz).sy = flt.SobelY (N_xyz 1)
        ∧ (gradient_stage flt N_xyz).N_xyz 1 = N_xyz 1
        ∧ (gradient_stage flt N_xyz).N_xyz 0 = flt.GaussianBlur (N_xyz 1))
      ∧ (gradient_stage columnFilters (fun _ => [0, 0, 4, 0, 0])).sy = [0, 4, 0, -4, 0]
      ∧ columnFilters.SobelY (columnFilters.GaussianBlur [0, 0, 4, 0, 0])
          = [1, 2, 0, -2, -1] := by
  refine ⟨?_, by decide, by decide⟩
  intro I flt N_xyz
  simp [gradient_stage]

/-! ## The parallel region under interleaving -/

section Interleaving

variable {F T M P D C S Q : Type}

/-- A thread that executes all its statements without another thread in between does
what `icp_slot` does. -/
theorem run_schedule_thread (E : Externals F T M P D C S Q) (temp_max_diff : F)
    (depth_aligned : Bool) (down_sample width_local height_local : Int) (depths : D)
    (mat4_v : List M) (i j : Nat) (schedule : List Nat) (todo : Nat → List SlotAction)
    (st : State F T M S Q) (htodo : todo j = slot_actions depth_aligned) :
    run_schedule E temp_max_diff down_sample width_local height_local depths mat4_v i
        (List.replicate (slot_actions depth_aligned).length j ++ schedule) todo st
      = icp_slot E temp_max_diff depth_aligned down_sample width_local height_local depths
          mat4_v i j st >>= fun st1 =>
        run_schedule E temp_max_diff down_sample width_local height_local depths mat4_v i
          schedule (Function.update todo j []) st1 := by
  cases depth_aligned with
  | true =>
    simp only [slot_actions, if_true, List.length_cons, List.length_nil, List.replicate,
      List.cons_append, List.nil_append] at htodo ⊢
    unfold icp_slot
    rw [run_schedule, htodo]
    simp only [slot_action, bind, Except.bind]
    cases readAt mat4_v j with
    | error e => rfl
    | ok m =>
      simp only []
      cases readAt st.result_poses (j + i) with
      | error e => rfl
      | ok r =>
        simp only []
        cases writeAt st.result_poses (j + i) { r with transformation_ := E.asMat4x4f m } with
        | error e => rfl
        | ok rs =>
          simp only [if_true]
          rw [run_schedule, Function.update_same]
          simp only [slot_action, bind, Except.bind]
          rw [run_schedule, Function.update_same]
          simp only [slot_action, bind, Except.bind, Function.update_idem]
  | false =>
    simp only [slot_actions, Bool.false_eq_true, if_false, List.length_cons, List.length_nil,
      List.replicate, List.cons_append, List.nil_append] at htodo ⊢
    unfold icp_slot
    rw [run_schedule, htodo]
    simp only [slot_action, bind, Except.bind]
    cases readAt mat4_v j with
    | error e => rfl
    | ok m =>
      simp only []
      cases readAt st.result_poses (j + i) with
      | error e => rfl
      | ok r =>
        simp only []
        cases writeAt st.result_poses (j + i) { r with transformation_ := E.asMat4x4f m } with
        | error e => rfl
        | ok rs =>
          simp only [Bool.false_eq_true, if_false]
          rw [run_schedule, Function.update_same]
          simp only [slot_action, bind, Except.bind]
          rw [run_schedule, Function.update_same]
          simp only [slot_action, bind, Except.bind]
          cases icp_phase E (E.depth2cloud depths (↑j * width_local * height_local)
            width_local height_local down_sample) (j + i)
            (setting_for_align E { st with result_poses := rs }) with
          | error e => rfl
          | ok st2 =>
            simp only []
            rw [run_schedule, Function.update_same]
            simp only [slot_action, bind, Except.bind]
            rw [run_schedule, Function.update_same]
            simp only [slot_action, bind, Except.bind, Function.update_idem]

/-- Entries of a schedule naming threads that have nothing left to execute are
skipped. -/
theorem run_schedule_idle (E : Externals F T M P D C S Q) (temp_max_diff : F)
    (down_sample width_local height_local : Int) (depths : D) (mat4_v : List M) (i : Nat) :
    ∀ (schedule : List Nat) (todo : Nat → List SlotAction) (st : State F T M S Q),
      (∀ j ∈ schedule, todo j = []) →
      run_schedule E temp_max_diff down_sample width_local height_local depths mat4_v i
        schedule todo st = .ok st := by
  intro schedule
  induction schedule with
  | nil => intro todo st _; rfl
  | cons j schedule ih =>
    intro todo st h
    rw [run_schedule, h j (List.mem_cons_self _ _)]
    exact ih todo st (fun k hk => h k (List.mem_cons_of_mem _ hk))

theorem run_schedule_sequential (E : Externals F T M P D C S Q) (temp_max_diff : F)
    (depth_aligned : Bool) (down_sample width_local height_local : Int) (depths : D)
    (mat4_v : List M) (i : Nat) (idle : List Nat) :
    ∀ (js : List Nat) (todo : Nat → List SlotAction) (st : State F T M S Q),
      js.Nodup → (∀ j ∈ js, todo j = slot_actions depth_aligned) →
      (∀ j ∈ idle, todo j = [] ∧ j ∉ js) →
      run_schedule E temp_max_diff down_sample width_local height_local depths mat4_v i
          (js.flatMap (fun j => List.replicate (slot_actions depth_aligned).length j) ++ idle)
          todo st
        = run_slots E temp_max_diff depth_aligned down_sample width_local height_local
            depths mat4_v i js st := by
  intro js
  induction js with
  | nil =>
    intro todo st _ _ hidle
    rw [List.flatMap_nil, List.nil_append]
    exact run_schedule_idle E temp_max_diff down_sample width_local height_local depths
      mat4_v i idle todo st (fun j hj => (hidle j hj).1)
  | cons j js ih =>
    intro todo st hnd htodo hidle
    rw [List.flatMap_cons, List.append_assoc,
      run_schedule_thread E temp_max_diff depth_aligned down_sample
        width_local height_local depths mat4_v i j _ todo st
        (htodo j (List.mem_cons_self _ _))]
    rw [run_slots]
    congr 1
    funext st1
    apply ih _ st1 (List.nodup_cons.mp hnd).2
    · intro k hk
      have hne : k ≠ j := fun h => (List.nodup_cons.mp hnd).1 (h ▸ hk)
      rw [Function.update_noteq hne]
      exact htodo k (List.mem_cons_of_mem _ hk)
    · intro k hk
      obtain ⟨h1, h2⟩ := hidle k hk
      have hne : k ≠ j := fun h => h2 (h ▸ List.mem_cons_self _ _)
      rw [Function.update_noteq hne]
      exact ⟨h1, fun h => h2 (List.mem_cons_of_mem _ h)⟩

end Interleaving

/-- C14 (the code departs from the claim): under the schedule that lets the threads
run one after another the parallel region does what the sequential `icp_batch` does,
but for two slots and `depth_aligned = false`, under the schedule in which thread 0
runs up to its call of `setting_backup`, thread 1 runs up to its call of
`setting_for_align` and thread 0 then makes its refinement call, that call observes
the rejection distance `FLT_MAX` and the 1-iteration criteria thread 1 has set. -/
theorem icp_batch_interleaved_interference :
    (∀ (F T M P D C S Q : Type) (E : Externals F T M P D C S Q) (temp_max_diff : F)
        (depth_aligned : Bool) (down_sample width_local height_local : Int)
        (mat4_v : List M) (i : Nat) (st : State F T M S Q),
        icp_batch_interleaved E temp_max_diff depth_aligned down_sample width_local
            height_local mat4_v i (sequential_schedule depth_aligned mat4_v.length) st
          = icp_batch E temp_max_diff depth_aligned down_sample width_local height_local
              mat4_v i st)
      ∧ (icp_batch symExt 7 false 1 4 2 [10, 11] 0 symStart).toOption.map
            (fun st => st.solver_calls)
          = some [⟨0, ⟨1, 1, 1⟩, 1000000⟩, ⟨0, ⟨1, 1, 30⟩, 7⟩,
                  ⟨1, ⟨1, 1, 1⟩, 1000000⟩, ⟨1, ⟨1, 1, 30⟩, 7⟩]
      ∧ (icp_batch_interleaved symExt 7 false 1 4 2 [10, 11] 0
            [0, 0, 0, 0, 1, 1, 0, 1, 1, 1] symStart).toOption.map (fun st => st.solver_calls)
          = some [⟨0, ⟨1, 1, 1⟩, 1000000⟩, ⟨0, ⟨1, 1, 1⟩, 1000000⟩,
                  ⟨1, ⟨1, 1, 1⟩, 1000000⟩, ⟨1, ⟨1, 1, 30⟩, 7⟩]
      ∧ (icp_batch symExt 7 false 1 4 2 [10, 11] 0 symStart).toOption.map
            (fun st => st.result_poses.map (fun r => r.transformation_))
          ≠ (icp_batch_interleaved symExt 7 false 1 4 2 [10, 11] 0
              [0, 0, 0, 0, 1, 1, 0, 1, 1, 1] symStart).toOption.map
            (fun st => st.result_poses.map (fun r => r.transformation_)) := by
  refine ⟨?_, by decide, by decide, by decide⟩
  intro F T M P D C S Q E temp_max_diff depth_aligned down_sample width_local height_local
    mat4_v i st
  unfold icp_batch_interleaved icp_batch sequential_schedule
  obtain ⟨d, hd⟩ := Nat.exists_eq_add_of_le (team_size_le E i mat4_v.length)
  rw [hd, List.range_add, List.flatMap_append, ← hd]
  apply run_schedule_sequential
  · exact List.nodup_range _
  · intro j hj
    rw [if_pos (List.mem_range.mp hj)]
  · intro j hj
    obtain ⟨k, hk, hjk⟩ := List.mem_flatMap.mp hj
    obtain ⟨x, _, rfl⟩ := List.mem_map.mp hk
    have hjx := (List.mem_replicate.mp hjk).2
    subst hjx
    refine ⟨if_neg (by omega), fun h => ?_⟩
    have := List.mem_range.mp h
    omega


/-! ## The trace of `cannyTraceEdge` -/

section TraceLemmas

variable {F : Type}

theorem index_inj (W : Nat) (r c r1 c1 : Int) (hr : 0 ≤ r) (hc : 0 ≤ c ∧ c < (W : Int))
    (hr1 : 0 ≤ r1) (hc1 : 0 ≤ c1 ∧ c1 < (W : Int))
    (h : (r * (W : Int) + c).toNat = (r1 * (W : Int) + c1).toNat) : r = r1 ∧ c = c1 := by
  have hW : (0 : Int) < W := by omega
  have h1 : 0 ≤ r * (W : Int) + c := add_nonneg (mul_nonneg hr hW.le) hc.1
  have h2 : 0 ≤ r1 * (W : Int) + c1 := add_nonneg (mul_nonneg hr1 hW.le) hc1.1
  have h3 : r * (W : Int) + c = r1 * (W : Int) + c1 := by
    have := congrArg (fun n : Nat => (n : Int)) h
    simpa [Int.toNat_of_nonneg h1, Int.toNat_of_nonneg h2] using this
  have hm : (r * (W : Int) + c) % W = c := by
    rw [add_comm, Int.add_mul_emod_self]
    exact Int.emod_eq_of_lt hc.1 hc.2
  have hm1 : (r1 * (W : Int) + c1) % W = c1 := by
    rw [add_comm, Int.add_mul_emod_self]
    exact Int.emod_eq_of_lt hc1.1 hc1.2
  have hcc : c = c1 := by rw [← hm, ← hm1, h3]
  refine ⟨?_, hcc⟩
  subst hcc
  have : r * (W : Int) = r1 * (W : Int) := by linarith
  exact Int.eq_of_mul_eq_mul_right hW.ne' this

/-- The effect of an assignment `m.at(r, c) = v` that returns. -/
theorem set_px {α : Type} (m m1 : Mat α) (r c : Int) (v : α) (h : m.set? r c v = .ok m1) :
    m1.rows = m.rows ∧ m1.cols = m.cols ∧ Inside m (r, c) ∧ m1.px r c = v
      ∧ ∀ p, Inside m p → p ≠ (r, c) → m1.px p.1 p.2 = m.px p.1 p.2 := by
  unfold Mat.set? at h
  split at h
  · rename_i hin
    cases h
    refine ⟨rfl, rfl, hin, ?_, ?_⟩
    · simp [Mat.px]
    · intro p hp hne
      unfold Mat.px
      dsimp only
      rw [Function.update_noteq]
      intro hidx
      apply hne
      obtain ⟨h1, h2⟩ := index_inj m.cols p.1 p.2 r c hp.1 ⟨hp.2.2.1, hp.2.2.2⟩ hin.1
        ⟨hin.2.2.1, hin.2.2.2⟩ hidx
      exact Prod.ext h1 h2
  · cases h

theorem set_inside {α : Type} (m : Mat α) (r c : Int) (v : α) (h : Inside m (r, c)) :
    ∃ m1, m.set? r c v = .ok m1 := by
  unfold Mat.set?
  rw [if_pos (show 0 ≤ r ∧ r < (m.rows : Int) ∧ 0 ≤ c ∧ c < (m.cols : Int) from h)]
  exact ⟨_, rfl⟩

theorem mem_unmarked (canny_edge : Mat Nat) (p : Int × Int) :
    p ∈ (Finset.Ico (0 : Int) canny_edge.rows ×ˢ Finset.Ico (0 : Int) canny_edge.cols).filter
        (fun p => canny_edge.px p.1 p.2 = 0)
      ↔ Inside canny_edge p ∧ canny_edge.px p.1 p.2 = 0 := by
  simp only [Finset.mem_filter, Finset.mem_product, Finset.mem_Ico, Inside]
  tauto

theorem unmarked_le (canny_edge : Mat Nat) :
    unmarked canny_edge ≤ canny_edge.rows * canny_edge.cols := by
  unfold unmarked
  refine le_trans (Finset.card_filter_le _ _) ?_
  simp

theorem unmarked_mono (a b : Mat Nat) (hr : b.rows = a.rows) (hc : b.cols = a.cols)
    (hmono : ∀ p, Marked a p → Marked b p) : unmarked b ≤ unmarked a := by
  unfold unmarked
  apply Finset.card_le_card
  intro p hp
  rw [mem_unmarked] at hp ⊢
  have hin : Inside a p := by
    unfold Inside at hp ⊢
    rw [hr, hc] at hp
    exact hp.1
  refine ⟨hin, ?_⟩
  by_contra hne
  have hm := (hmono p ⟨hin, Nat.pos_of_ne_zero hne⟩).2
  have hz := hp.2
  omega

theorem unmarked_mark (a b : Mat Nat) (r c : Int) (v : Nat) (hv : 0 < v)
    (h : a.set? r c v = .ok b) (h0 : a.px r c = 0) : unmarked b + 1 = unmarked a := by
  obtain ⟨hr, hc, hin, hsame, hother⟩ := set_px a b r c v h
  unfold unmarked
  have hmem : (r, c) ∈ (Finset.Ico (0 : Int) a.rows ×ˢ Finset.Ico (0 : Int) a.cols).filter
      (fun p => a.px p.1 p.2 = 0) := (mem_unmarked a (r, c)).mpr ⟨hin, h0⟩
  have heq : (Finset.Ico (0 : Int) b.rows ×ˢ Finset.Ico (0 : Int) b.cols).filter
      (fun p => b.px p.1 p.2 = 0)
      = ((Finset.Ico (0 : Int) a.rows ×ˢ Finset.Ico (0 : Int) a.cols).filter
        (fun p => a.px p.1 p.2 = 0)).erase (r, c) := by
    ext p
    rw [Finset.mem_erase, mem_unmarked, mem_unmarked]
    have hinab : Inside b p ↔ Inside a p := by unfold Inside; rw [hr, hc]
    rw [hinab]
    constructor
    · rintro ⟨hp, hz⟩
      have hne : p ≠ (r, c) := by
        rintro rfl
        rw [hsame] at hz
        omega
      exact ⟨hne, hp, by rw [← hother p hp hne]; exact hz⟩
    · rintro ⟨hne, hp, hz⟩
      exact ⟨hp, by rw [hother p hp hne]; exact hz⟩
  rw [heq, Finset.card_erase_of_mem hmem]
  have := Finset.card_pos.mpr ⟨_, hmem⟩
  omega

end TraceLemmas

section TracePostLemmas

variable {F : Type}

/-- The eight calls of `cannyTraceEdge` are the calls for `traceOffsets`. -/
theorem cannyTraceEdge_succ (ops : FloatOps F) (mag_nms : Mat F) (fuel : Nat)
    (rowOffset colOffset row col : Int) (t : TraceState) :
    cannyTraceEdge ops mag_nms (fuel + 1) rowOffset colOffset row col t
      = if row + rowOffset > 0 ∧ row + rowOffset < (mag_nms.rows : Int)
            ∧ col + colOffset > 0 ∧ col + colOffset < (mag_nms.cols : Int) then
          mag_nms.at? (row + rowOffset) (col + colOffset) >>= fun mag_v =>
          t.canny_edge.at? (row + rowOffset) (col + colOffset) >>= fun marked =>
          if marked > 0 ∨ ops.lt mag_v (ops.ofLit (1 / 100)) = true then .ok t
          else
            t.canny_edge.set? (row + rowOffset) (col + colOffset) 255 >>= fun canny_edge =>
            trace_all ops mag_nms fuel (row + rowOffset) (col + colOffset) traceOffsets
              { canny_edge := canny_edge, recursing_calls := t.recursing_calls + 1 }
        else .ok t := by
  rw [cannyTraceEdge]
  simp only [trace_all, traceOffsets, List.foldlM_cons, List.foldlM_nil, bind_pure]

theorem tracePost_same (ops : FloatOps F) (mag_nms : Mat F) (t : TraceState)
    (starts : List (Int × Int))
    (hhit : ∀ q ∈ starts, Traceable ops mag_nms q → Marked t.canny_edge q) :
    TracePost ops mag_nms t t starts where
  rows_eq := rfl
  cols_eq := rfl
  mono := fun _ h => h
  sound := fun _ h hn => absurd h hn
  closed := fun _ h hn => absurd h hn
  hit := hhit
  count := rfl

theorem tracePost_trans (ops : FloatOps F) (mag_nms : Mat F) (t t1 t2 : TraceState)
    (s1 s2 : List (Int × Int)) (h1 : TracePost ops mag_nms t t1 s1)
    (h2 : TracePost ops mag_nms t1 t2 s2) : TracePost ops mag_nms t t2 (s1 ++ s2) where
  rows_eq := h2.rows_eq.trans h1.rows_eq
  cols_eq := h2.cols_eq.trans h1.cols_eq
  mono := fun p h => h2.mono p (h1.mono p h)
  sound := by
    intro p hp hn
    by_cases hm : Marked t1.canny_edge p
    · obtain ⟨q, hq, h⟩ := h1.sound p hm hn
      exact ⟨q, List.mem_append_left _ hq, h⟩
    · obtain ⟨q, hq, h⟩ := h2.sound p hp hm
      exact ⟨q, List.mem_append_right _ hq, h⟩
  closed := by
    intro p hp hn q hadj hq
    by_cases hm : Marked t1.canny_edge p
    · exact h2.mono q (h1.closed p hm hn q hadj hq)
    · exact h2.closed p hp hm q hadj hq
  hit := by
    intro q hq htr
    rcases List.mem_append.mp hq with h | h
    · exact h2.mono q (h1.hit q h htr)
    · exact h2.hit q h htr
  count := h2.count.trans h1.count

theorem trace_all_post (ops : FloatOps F) (mag_nms : Mat F) (fuel : Nat) (row col : Int)
    (hcall : ∀ (o : Int × Int) (t : TraceState), t.canny_edge.rows = mag_nms.rows →
      t.canny_edge.cols = mag_nms.cols → unmarked t.canny_edge < fuel →
      ∃ t1, cannyTraceEdge ops mag_nms fuel o.1 o.2 row col t = .ok t1
        ∧ TracePost ops mag_nms t t1 [(row + o.1, col + o.2)]) :
    ∀ (os : List (Int × Int)) (t : TraceState), t.canny_edge.rows = mag_nms.rows →
      t.canny_edge.cols = mag_nms.cols → unmarked t.canny_edge < fuel →
      ∃ t1, trace_all ops mag_nms fuel row col os t = .ok t1
        ∧ TracePost ops mag_nms t t1 (os.map (fun o => (row + o.1, col + o.2))) := by
  intro os
  induction os with
  | nil =>
    intro t _ _ _
    exact ⟨t, rfl, tracePost_same ops mag_nms t _ (fun q hq => by simp at hq)⟩
  | cons o os ih =>
    intro t hr hc hu
    obtain ⟨t1, h1, p1⟩ := hcall o t hr hc hu
    have hu1 : unmarked t1.canny_edge < fuel :=
      lt_of_le_of_lt (unmarked_mono _ _ p1.rows_eq p1.cols_eq p1.mono) hu
    obtain ⟨t2, h2, p2⟩ := ih t1 (p1.rows_eq.trans hr) (p1.cols_eq.trans hc) hu1
    refine ⟨t2, ?_, ?_⟩
    · unfold trace_all at h2 ⊢
      rw [List.foldlM_cons, h1]
      exact h2
    · exact tracePost_trans ops mag_nms t t1 t2 _ _ p1 p2

theorem adjacent_iff (p q : Int × Int) :
    Adjacent p q ↔ q ∈ traceOffsets.map (fun o => (p.1 + o.1, p.2 + o.2)) := by
  unfold Adjacent
  rw [List.mem_map]
  constructor
  · intro h
    exact ⟨_, h, by ext <;> simp⟩
  · rintro ⟨o, ho, rfl⟩
    simpa using ho

/-- Marking the unmarked accepted pixel `q` and tracing its eight neighbours is a trace
towards `q`. -/
theorem tracePost_mark (ops : FloatOps F) (mag_nms : Mat F) (t t2 : TraceState)
    (canny_edge : Mat Nat) (q : Int × Int) (calls : Nat)
    (hset : t.canny_edge.set? q.1 q.2 255 = .ok canny_edge)
    (h0 : t.canny_edge.px q.1 q.2 = 0)
    (hpost : TracePost ops mag_nms { canny_edge := canny_edge, recursing_calls := calls } t2
      (traceOffsets.map (fun o => (q.1 + o.1, q.2 + o.2)))) :
    t2.canny_edge.rows = t.canny_edge.rows ∧ t2.canny_edge.cols = t.canny_edge.cols
      ∧ (∀ p, Marked t.canny_edge p → Marked t2.canny_edge p)
      ∧ Marked t2.canny_edge q
      ∧ (∀ p, Marked t2.canny_edge p → ¬ Marked t.canny_edge p →
          p = q ∨ ∃ o ∈ traceOffsets, Traceable ops mag_nms (q.1 + o.1, q.2 + o.2)
            ∧ Relation.ReflTransGen (TraceStep ops mag_nms) (q.1 + o.1, q.2 + o.2) p)
      ∧ (∀ p, Marked t2.canny_edge p → ¬ Marked t.canny_edge p →
          ∀ p1, Adjacent p p1 → Traceable ops mag_nms p1 → Marked t2.canny_edge p1)
      ∧ t2.recursing_calls + unmarked t2.canny_edge + 1 = calls + unmarked t.canny_edge := by
  obtain ⟨hr, hc, hin, hsame, hother⟩ := set_px _ _ _ _ _ hset
  have hin1 : ∀ p, Inside canny_edge p ↔ Inside t.canny_edge p := by
    intro p; unfold Inside; rw [hr, hc]
  have hm1 : ∀ p, Marked t.canny_edge p → Marked canny_edge p := by
    intro p hp
    refine ⟨(hin1 p).mpr hp.1, ?_⟩
    by_cases hpq : p = q
    · subst hpq; rw [hsame]; omega
    · rw [hother p hp.1 hpq]; exact hp.2
  have hq1 : Marked canny_edge q := ⟨(hin1 q).mpr hin, by rw [hsame]; omega⟩
  have hnew : ∀ p, ¬ Marked t.canny_edge p → p ≠ q → ¬ Marked canny_edge p := by
    intro p hn hpq hm
    apply hn
    have hp : Inside t.canny_edge p := (hin1 p).mp hm.1
    exact ⟨hp, by rw [← hother p hp hpq]; exact hm.2⟩
  refine ⟨hpost.rows_eq.trans hr, hpost.cols_eq.trans hc, fun p hp => hpost.mono p (hm1 p hp),
    hpost.mono q hq1, ?_, ?_, ?_⟩
  · intro p hp hn
    by_cases hpq : p = q
    · exact Or.inl hpq
    · obtain ⟨s, hs, htr, hreach⟩ := hpost.sound p hp (hnew p hn hpq)
      obtain ⟨o, ho, rfl⟩ := List.mem_map.mp hs
      exact Or.inr ⟨o, ho, htr, hreach⟩
  · intro p hp hn p1 hadj htr
    by_cases hpq : p = q
    · subst hpq
      exact hpost.hit p1 ((adjacent_iff p p1).mp hadj) htr
    · exact hpost.closed p hp (hnew p hn hpq) p1 hadj htr
  · have := unmarked_mark _ _ _ _ 255 (by norm_num) hset h0
    have := hpost.count
    simp only at this
    omega

/-- A call of `cannyTraceEdge` whose recursion budget exceeds the number of unmarked
pixels returns, and is a trace towards the pixel `(row + rowOffset, col + colOffset)`. -/
theorem cannyTraceEdge_post (ops : FloatOps F) (mag_nms : Mat F) :
    ∀ (fuel : Nat) (rowOffset colOffset row col : Int) (t : TraceState),
      t.canny_edge.rows = mag_nms.rows → t.canny_edge.cols = mag_nms.cols →
      unmarked t.canny_edge < fuel →
      ∃ t1, cannyTraceEdge ops mag_nms fuel rowOffset colOffset row col t = .ok t1
        ∧ TracePost ops mag_nms t t1 [(row + rowOffset, col + colOffset)] := by
  intro fuel
  induction fuel with
  | zero => intro _ _ _ _ t _ _ h; omega
  | succ fuel ih =>
    intro rowOffset colOffset row col t hr hc hu
    rw [cannyTraceEdge_succ]
    by_cases hg : row + rowOffset > 0 ∧ row + rowOffset < (mag_nms.rows : Int)
        ∧ col + colOffset > 0 ∧ col + colOffset < (mag_nms.cols : Int)
    · rw [if_pos hg, at_inside mag_nms _ _ (by omega),
        at_inside t.canny_edge _ _ (by rw [hr, hc]; omega)]
      simp only [bind, Except.bind]
      by_cases hstop : t.canny_edge.px (row + rowOffset) (col + colOffset) > 0
          ∨ ops.lt (mag_nms.px (row + rowOffset) (col + colOffset)) (ops.ofLit (1 / 100)) = true
      · rw [if_pos hstop]
        refine ⟨t, rfl, tracePost_same ops mag_nms t _ ?_⟩
        intro q hq htr
        rw [List.mem_singleton] at hq
        subst hq
        rcases hstop with h | h
        · exact ⟨by unfold Inside; rw [hr, hc]; dsimp only; omega, h⟩
        · have := htr.2.2.2.2
          dsimp only at this
          rw [h] at this
          cases this
      · rw [if_neg hstop]
        have hin : Inside t.canny_edge (row + rowOffset, col + colOffset) := by
          unfold Inside; rw [hr, hc]; dsimp only; omega
        obtain ⟨canny_edge, hset⟩ := set_inside t.canny_edge _ _ 255 hin
        rw [hset]
        have h0 : t.canny_edge.px (row + rowOffset) (col + colOffset) = 0 := by
          have := (not_or.mp hstop).1
          omega
        have hlt : ops.lt (mag_nms.px (row + rowOffset) (col + colOffset))
            (ops.ofLit (1 / 100)) = false := by
          have := (not_or.mp hstop).2
          simpa using this
        obtain ⟨hr1, hc1, _, _, _⟩ := set_px _ _ _ _ _ hset
        have hu1 : unmarked canny_edge < fuel := by
          have := unmarked_mark _ _ _ _ 255 (by norm_num) hset h0
          omega
        obtain ⟨t2, h2, p2⟩ := trace_all_post ops mag_nms fuel (row + rowOffset)
          (col + colOffset) (fun o t => ih o.1 o.2 _ _ t) traceOffsets
          { canny_edge := canny_edge, recursing_calls := t.recursing_calls + 1 }
          (hr1.trans hr) (hc1.trans hc) hu1
        refine ⟨t2, h2, ?_⟩
        obtain ⟨k1, k2, k3, k4, k5, k6, k7⟩ := tracePost_mark ops mag_nms t t2 canny_edge
          (row + rowOffset, col + colOffset) (t.recursing_calls + 1) hset h0 p2
        have htrq : Traceable ops mag_nms (row + rowOffset, col + colOffset) :=
          ⟨hg.1, hg.2.1, hg.2.2.1, hg.2.2.2, hlt⟩
        refine ⟨k1, k2, k3, ?_, k6, fun q hq _ => ?_, by omega⟩
        · intro p hp hn
          refine ⟨_, List.mem_singleton.mpr rfl, htrq, ?_⟩
          rcases k5 p hp hn with rfl | ⟨o, ho, htr, hreach⟩
          · exact Relation.ReflTransGen.refl
          · refine Relation.ReflTransGen.head ⟨?_, htr⟩ hreach
            unfold Adjacent
            simpa using ho
        · rw [List.mem_singleton] at hq
          subst hq
          exact k4
    · rw [if_neg hg]
      refine ⟨t, rfl, tracePost_same ops mag_nms t _ ?_⟩
      intro q hq htr
      rw [List.mem_singleton] at hq
      subst hq
      exact absurd ⟨htr.1, htr.2.1, htr.2.2.1, htr.2.2.2.1⟩ hg

end TracePostLemmas

section HysteresisLemmas

variable {F : Type}

theorem foldlM_nested {α β σ : Type} (g : σ → α → β → Except Fault σ) (l2 : List β) :
    ∀ (l1 : List α) (s : σ),
      l1.foldlM (fun s a => l2.foldlM (fun s b => g s a b) s) s
        = (l1.flatMap (fun a => l2.map (fun b => (a, b)))).foldlM (fun s p => g s p.1 p.2) s := by
  intro l1
  induction l1 with
  | nil => intro s; rfl
  | cons a l1 ih =>
    intro s
    rw [List.foldlM_cons, List.flatMap_cons, List.foldlM_append, List.foldlM_map]
    congr 1
    funext s1
    exact ih s1

/-- A loop every pass of which returns, keeps an invariant, moves the state along a
preorder and establishes a fact about its element that the preorder keeps. -/
theorem foldlM_collect {α σ : Type} (f : σ → α → Except Fault σ) (Inv : σ → Prop)
    (R : σ → σ → Prop) (hrefl : ∀ s, R s s) (htrans : ∀ a b c, R a b → R b c → R a c)
    (Q : α → σ → Prop) (hQ : ∀ a s s1, Q a s → R s s1 → Q a s1) :
    ∀ l : List α,
      (∀ s a, a ∈ l → Inv s → ∃ s1, f s a = .ok s1 ∧ Inv s1 ∧ R s s1 ∧ Q a s1) →
      ∀ s, Inv s → ∃ s1, l.foldlM f s = .ok s1 ∧ Inv s1 ∧ R s s1 ∧ ∀ a ∈ l, Q a s1 := by
  intro l
  induction l with
  | nil => intro _ s hs; exact ⟨s, rfl, hs, hrefl s, fun a ha => by simp at ha⟩
  | cons b l ih =>
    intro hstep s hs
    obtain ⟨s1, h1, i1, r1, q1⟩ := hstep s b (List.mem_cons_self _ _) hs
    obtain ⟨s2, h2, i2, r2, q2⟩ := ih (fun t a ha => hstep t a (List.mem_cons_of_mem _ ha)) s1 i1
    refine ⟨s2, by rw [List.foldlM_cons, h1]; exact h2, i2, htrans _ _ _ r1 r2, ?_⟩
    intro a ha
    rcases List.mem_cons.mp ha with rfl | hl
    · exact hQ _ _ _ q1 r2
    · exact q2 a hl

/-- The eight calls of `cannyTraceEdge` of the seed loop are the calls for
`traceOffsets`. -/
theorem hysteresis_pixel_eq (ops : FloatOps F) (tHigh : F) (mag_nms : Mat F) (fuel : Nat)
    (r c : Int) (t : TraceState) :
    hysteresis_pixel ops tHigh mag_nms fuel r c t
      = mag_nms.at? r c >>= fun mag_v =>
        t.canny_edge.at? r c >>= fun marked =>
        if ops.lt mag_v tHigh = true ∨ marked > 0 then .ok t
        else
          t.canny_edge.set? r c 255 >>= fun canny_edge =>
          trace_all ops mag_nms fuel r c traceOffsets
            { canny_edge := canny_edge, recursing_calls := t.recursing_calls } := by
  unfold hysteresis_pixel
  simp only [trace_all, traceOffsets, List.foldlM_cons, List.foldlM_nil, bind_pure]

theorem hysteresis_pixel_post (ops : FloatOps F) (tHigh : F) (mag_nms : Mat F) (fuel : Nat)
    (hfuel : mag_nms.rows * mag_nms.cols < fuel) (p : Int × Int) (hp : Inside mag_nms p)
    (t : TraceState) (hinv : HystInv ops tHigh mag_nms t) :
    ∃ t1, hysteresis_pixel ops tHigh mag_nms fuel p.1 p.2 t = .ok t1
      ∧ HystInv ops tHigh mag_nms t1
      ∧ (∀ q, Marked t.canny_edge q → Marked t1.canny_edge q)
      ∧ (Seed ops tHigh mag_nms p → Marked t1.canny_edge p) := by
  have hin : Inside t.canny_edge p := by
    unfold Inside; rw [hinv.rows_eq, hinv.cols_eq]; exact hp
  rw [hysteresis_pixel_eq, at_inside mag_nms _ _ hp, at_inside t.canny_edge _ _ hin]
  simp only [bind, Except.bind]
  by_cases hstop : ops.lt (mag_nms.px p.1 p.2) tHigh = true ∨ t.canny_edge.px p.1 p.2 > 0
  · rw [if_pos hstop]
    refine ⟨t, rfl, hinv, fun q h => h, ?_⟩
    intro hseed
    rcases hstop with h | h
    · rw [hseed.2] at h; cases h
    · exact ⟨hin, h⟩
  · rw [if_neg hstop]
    obtain ⟨canny_edge, hset⟩ := set_inside t.canny_edge p.1 p.2 255 hin
    rw [hset]
    have h0 : t.canny_edge.px p.1 p.2 = 0 := by
      have := (not_or.mp hstop).2
      omega
    have hseed : Seed ops tHigh mag_nms p := by
      refine ⟨hp, ?_⟩
      have := (not_or.mp hstop).1
      simpa using this
    obtain ⟨hr1, hc1, _, _, _⟩ := set_px _ _ _ _ _ hset
    have hu1 : unmarked canny_edge < fuel := by
      have h1 := unmarked_le canny_edge
      rw [hr1, hc1, hinv.rows_eq, hinv.cols_eq] at h1
      omega
    obtain ⟨t2, h2, p2⟩ := trace_all_post ops mag_nms fuel p.1 p.2
      (fun o t => cannyTraceEdge_post ops mag_nms fuel o.1 o.2 _ _ t) traceOffsets
      { canny_edge := canny_edge, recursing_calls := t.recursing_calls }
      (hr1.trans hinv.rows_eq) (hc1.trans hinv.cols_eq) hu1
    obtain ⟨k1, k2, k3, k4, k5, k6, k7⟩ := tracePost_mark ops mag_nms t t2 canny_edge
      p t.recursing_calls hset h0 p2
    refine ⟨t2, h2, ⟨k1.trans hinv.rows_eq, k2.trans hinv.cols_eq, ?_, ?_, ?_⟩, k3,
      fun _ => k4⟩
    · intro q hq
      by_cases hm : Marked t.canny_edge q
      · exact hinv.sound q hm
      · rcases k5 q hq hm with rfl | ⟨o, ho, htr, hreach⟩
        · exact ⟨q, hseed, Relation.ReflTransGen.refl⟩
        · refine ⟨p, hseed, Relation.ReflTransGen.head ⟨?_, htr⟩ hreach⟩
          unfold Adjacent
          simpa using ho
    · intro q hq q1 hadj htr
      by_cases hm : Marked t.canny_edge q
      · exact k3 q1 (hinv.closed q hm q1 hadj htr)
      · exact k6 q hq hm q1 hadj htr
    · have := hinv.count
      omega

/-- The hysteresis stage with a recursion budget above the number of pixels returns;
the pixels it marks are those reached from a seed by trace steps, and at most one call
of `cannyTraceEdge` per pixel recurses. -/
theorem hysteresis_post (ops : FloatOps F) (tHigh : F) (mag_nms : Mat F) (fuel : Nat)
    (hfuel : mag_nms.rows * mag_nms.cols < fuel) :
    ∃ t, hysteresis ops tHigh fuel mag_nms = .ok t
      ∧ t.canny_edge.rows = mag_nms.rows ∧ t.canny_edge.cols = mag_nms.cols
      ∧ (∀ p, Marked t.canny_edge p ↔
          ∃ s, Seed ops tHigh mag_nms s ∧ Relation.ReflTransGen (TraceStep ops mag_nms) s p)
      ∧ t.recursing_calls ≤ mag_nms.rows * mag_nms.cols := by
  unfold hysteresis
  rw [foldlM_nested (fun t (r : Nat) (c : Nat) =>
    hysteresis_pixel ops tHigh mag_nms fuel (r : Int) (c : Int) t)]
  obtain ⟨t, ht, hinv, _, hseeds⟩ := foldlM_collect
    (fun t (p : Nat × Nat) => hysteresis_pixel ops tHigh mag_nms fuel (p.1 : Int) (p.2 : Int) t)
    (HystInv ops tHigh mag_nms)
    (fun t t1 => ∀ q, Marked t.canny_edge q → Marked t1.canny_edge q)
    (fun _ _ h => h) (fun _ _ _ h1 h2 q h => h2 q (h1 q h))
    (fun (p : Nat × Nat) t => Seed ops tHigh mag_nms ((p.1 : Int), (p.2 : Int)) →
      Marked t.canny_edge ((p.1 : Int), (p.2 : Int)))
    (fun _ _ _ hq hr hs => hr _ (hq hs))
    ((interval 0 mag_nms.rows).flatMap
      (fun a => (interval 0 mag_nms.cols).map (fun b => (a, b))))
    (by
      intro t p hp hinv
      have hin : Inside mag_nms ((p.1 : Int), (p.2 : Int)) := by
        obtain ⟨a, ha, hab⟩ := List.mem_flatMap.mp hp
        obtain ⟨b, hb, rfl⟩ := List.mem_map.mp hab
        have h1 := (mem_interval _ _ _).mp ha
        have h2 := (mem_interval _ _ _).mp hb
        unfold Inside
        dsimp only
        omega
      exact hysteresis_pixel_post ops tHigh mag_nms fuel hfuel _ hin t hinv)
    { canny_edge := { rows := mag_nms.rows, cols := mag_nms.cols, data := fun _ => 0 }
      recursing_calls := 0 }
    { rows_eq := rfl
      cols_eq := rfl
      sound := fun p hp => absurd hp.2 (by simp [Mat.px])
      closed := fun p hp => absurd hp.2 (by simp [Mat.px])
      count := by
        have := unmarked_le
          ({ rows := mag_nms.rows, cols := mag_nms.cols, data := fun _ => 0 } : Mat Nat)
        simpa using this }
  refine ⟨t, ht, hinv.rows_eq, hinv.cols_eq, ?_, by have := hinv.count; omega⟩
  intro p
  constructor
  · exact hinv.sound p
  · rintro ⟨s, hs, hreach⟩
    induction hreach with
    | refl =>
      obtain ⟨h1, h2, h3, h4⟩ := hs.1
      have hmem : ((s.1.toNat, s.2.toNat) : Nat × Nat) ∈ (interval 0 mag_nms.rows).flatMap
          (fun a => (interval 0 mag_nms.cols).map (fun b => (a, b))) := by
        rw [List.mem_flatMap]
        refine ⟨s.1.toNat, (mem_interval _ _ _).mpr (by omega), ?_⟩
        rw [List.mem_map]
        exact ⟨s.2.toNat, (mem_interval _ _ _).mpr (by omega), rfl⟩
      have := hseeds _ hmem
      dsimp only at this
      rw [Int.toNat_of_nonneg h1, Int.toNat_of_nonneg h3] at this
      exact this hs
    | tail _ hstep ih => exact hinv.closed _ ih _ hstep.1 hstep.2

end HysteresisLemmas

section SuppressionLemmas

variable {F : Type}

/-- A loop over distinct elements every pass of which returns, keeps an invariant,
turns the initial fact `Z` about its element into the final fact `V`, and keeps both
facts about every other element. -/
theorem foldlM_pointwise {α σ : Type} (f : σ → α → Except Fault σ) (Inv : σ → Prop)
    (Z V : α → σ → Prop) :
    ∀ l : List α, l.Nodup →
      (∀ s a, a ∈ l → Inv s → Z a s → ∃ s1, f s a = .ok s1 ∧ Inv s1 ∧ V a s1
        ∧ ∀ b, b ≠ a → (Z b s → Z b s1) ∧ (V b s → V b s1)) →
      ∀ s, Inv s → (∀ a ∈ l, Z a s) →
        ∃ s1, l.foldlM f s = .ok s1 ∧ Inv s1 ∧ (∀ a ∈ l, V a s1)
          ∧ ∀ b, b ∉ l → (Z b s → Z b s1) ∧ (V b s → V b s1) := by
  intro l
  induction l with
  | nil => intro _ _ s hs _; exact ⟨s, rfl, hs, fun a ha => by simp at ha, fun b _ => ⟨id, id⟩⟩
  | cons a l ih =>
    intro hnd hstep s hs hz
    obtain ⟨hal, hndl⟩ := List.nodup_cons.mp hnd
    obtain ⟨s1, h1, i1, v1, k1⟩ := hstep s a (List.mem_cons_self _ _) hs
      (hz a (List.mem_cons_self _ _))
    obtain ⟨s2, h2, i2, v2, k2⟩ := ih hndl
      (fun t b hb => hstep t b (List.mem_cons_of_mem _ hb)) s1 i1
      (fun b hb => (k1 b (fun h => hal (h ▸ hb))).1 (hz b (List.mem_cons_of_mem _ hb)))
    refine ⟨s2, by rw [List.foldlM_cons, h1]; exact h2, i2, ?_, ?_⟩
    · intro b hb
      rcases List.mem_cons.mp hb with rfl | hl
      · exact (k2 b hal).2 v1
      · exact v2 b hl
    · intro b hb
      have hba : b ≠ a := fun h => hb (h ▸ List.mem_cons_self _ _)
      have hbl : b ∉ l := fun h => hb (List.mem_cons_of_mem _ h)
      exact ⟨fun h => (k2 b hbl).1 ((k1 b hba).1 h), fun h => (k2 b hbl).2 ((k1 b hba).2 h)⟩

theorem keep_if_max_post (ops : FloatOps F) (mag : Mat F) (p : Int × Int) (mag_v : F)
    (a b : Int × Int) (mag_nms : Mat F) (ha : Inside mag a) (hb : Inside mag b)
    (hp : Inside mag_nms p) :
    ∃ m1, keep_if_max ops mag p.1 p.2 mag_v a.1 a.2 b.1 b.2 mag_nms = .ok m1
      ∧ m1.rows = mag_nms.rows ∧ m1.cols = mag_nms.cols
      ∧ m1.px p.1 p.2
          = (if ge ops mag_v (mag.px a.1 a.2) && ge ops mag_v (mag.px b.1 b.2) then mag_v
            else mag_nms.px p.1 p.2)
      ∧ ∀ q, Inside mag_nms q → q ≠ p → m1.px q.1 q.2 = mag_nms.px q.1 q.2 := by
  unfold keep_if_max
  rw [at_inside mag _ _ ha]
  simp only [bind, Except.bind]
  by_cases h1 : ge ops mag_v (mag.px a.1 a.2) = true
  · rw [if_pos h1, at_inside mag _ _ hb]
    simp only
    by_cases h2 : ge ops mag_v (mag.px b.1 b.2) = true
    · rw [if_pos h2]
      obtain ⟨m1, hset⟩ := set_inside mag_nms p.1 p.2 mag_v hp
      obtain ⟨k1, k2, _, k4, k5⟩ := set_px _ _ _ _ _ hset
      exact ⟨m1, hset, k1, k2, by rw [k4, h1, h2]; rfl, k5⟩
    · rw [if_neg h2]
      refine ⟨mag_nms, rfl, rfl, rfl, ?_, fun _ _ _ => rfl⟩
      rw [if_neg]
      simp [h2]
  · rw [if_neg h1]
    refine ⟨mag_nms, rfl, rfl, rfl, ?_, fun _ _ _ => rfl⟩
    rw [if_neg]
    simp [h1]

theorem nms_pixel_post (ops : FloatOps F) (tLow : F) (mag : Mat F)
    (quantized_unfiltered : Mat Nat) (hqr : quantized_unfiltered.rows = mag.rows)
    (hqc : quantized_unfiltered.cols = mag.cols)
    (hsafe : NmsSafe ops tLow mag quantized_unfiltered) (p : Int × Int)
    (hp : 1 ≤ p.1 ∧ p.1 < (mag.rows : Int) ∧ 1 ≤ p.2 ∧ p.2 < (mag.cols : Int))
    (mag_nms : Mat F) (hr : mag_nms.rows = mag.rows) (hc : mag_nms.cols = mag.cols)
    (hz : mag_nms.px p.1 p.2 = ops.ofInt 0) :
    ∃ m1, nms_pixel ops tLow mag quantized_unfiltered p.1 p.2 mag_nms = .ok m1
      ∧ m1.rows = mag.rows ∧ m1.cols = mag.cols
      ∧ m1.px p.1 p.2 = nms_value ops tLow mag quantized_unfiltered p
      ∧ ∀ q, Inside mag q → q ≠ p → m1.px q.1 q.2 = mag_nms.px q.1 q.2 := by
  have hin : Inside mag p := ⟨by omega, hp.2.1, by omega, hp.2.2.2⟩
  have hinn : Inside mag_nms p := by unfold Inside; rw [hr, hc]; exact hin
  have hinq : Inside quantized_unfiltered p := by unfold Inside; rw [hqr, hqc]; exact hin
  have hq : ∀ q, Inside mag q → Inside mag_nms q := by
    intro q h; unfold Inside; rw [hr, hc]; exact h
  unfold nms_pixel
  rw [at_inside mag _ _ hin, at_inside mag_nms _ _ hinn]
  simp only [bind, Except.bind]
  by_cases hlt : ops.lt (mag.px p.1 p.2) tLow = true
  · rw [if_pos hlt]
    refine ⟨mag_nms, rfl, hr, hc, ?_, fun _ _ _ => rfl⟩
    rw [hz]
    unfold nms_value
    rw [if_neg]
    simp [hlt]
  · rw [if_neg hlt, at_inside quantized_unfiltered _ _ hinq]
    simp only
    have hlt0 : ops.lt (mag.px p.1 p.2) tLow = false := by simpa using hlt
    have hs := hsafe p hp.1 hp.2.1 hp.2.2.1 hp.2.2.2 hlt0
    have hkeep : ∀ a b, nmsNeighbours (quantized_unfiltered.px p.1 p.2) = some (a, b) →
        ∃ m1, keep_if_max ops mag p.1 p.2 (mag.px p.1 p.2) (p.1 + a.1) (p.2 + a.2)
            (p.1 + b.1) (p.2 + b.2) mag_nms = .ok m1
          ∧ m1.rows = mag.rows ∧ m1.cols = mag.cols
          ∧ m1.px p.1 p.2 = nms_value ops tLow mag quantized_unfiltered p
          ∧ ∀ q, Inside mag q → q ≠ p → m1.px q.1 q.2 = mag_nms.px q.1 q.2 := by
      intro a b hab
      obtain ⟨ha, hb⟩ := hs a b hab
      obtain ⟨m1, k0, k1, k2, k3, k4⟩ := keep_if_max_post ops mag p (mag.px p.1 p.2)
        (p.1 + a.1, p.2 + a.2) (p.1 + b.1, p.2 + b.2) mag_nms ha hb hinn
      refine ⟨m1, k0, k1.trans hr, k2.trans hc, ?_, fun q h1 h2 => k4 q (hq q h1) h2⟩
      rw [k3, hz]
      unfold nms_value nms_keeps
      rw [hab, hlt0]
      simp
    by_cases h0 : quantized_unfiltered.px p.1 p.2 = 0
    · rw [if_pos h0]
      have := hkeep (0, 1) (0, -1) (by simp [nmsNeighbours, h0])
      simpa using this
    · rw [if_neg h0]
      by_cases h1 : quantized_unfiltered.px p.1 p.2 = 1
      · rw [if_pos h1]
        have := hkeep (-1, 1) (1, -1) (by simp [nmsNeighbours, h1])
        simpa [sub_eq_add_neg] using this
      · rw [if_neg h1]
        by_cases h2 : quantized_unfiltered.px p.1 p.2 = 2
        · rw [if_pos h2]
          have := hkeep (-1, 0) (1, 0) (by simp [nmsNeighbours, h2])
          simpa [sub_eq_add_neg] using this
        · rw [if_neg h2]
          by_cases h3 : quantized_unfiltered.px p.1 p.2 = 3
          · rw [if_pos h3]
            have := hkeep (1, 1) (-1, -1) (by simp [nmsNeighbours, h3])
            simpa [sub_eq_add_neg] using this
          · rw [if_neg h3]
            refine ⟨mag_nms, rfl, hr, hc, ?_, fun _ _ _ => rfl⟩
            rw [hz]
            unfold nms_value nms_keeps
            simp [nmsNeighbours, h0, h1, h2, h3]

end SuppressionLemmas

section SuppressionPost

variable {F : Type}

theorem nodup_pairs (l1 l2 : List Nat) (h1 : l1.Nodup) (h2 : l2.Nodup) :
    (l1.flatMap (fun a => l2.map (fun b => (a, b)))).Nodup :=
  List.Nodup.product h1 h2

theorem mem_pairs (lo1 hi1 lo2 hi2 : Nat) (p : Nat × Nat) :
    p ∈ (interval lo1 hi1).flatMap (fun a => (interval lo2 hi2).map (fun b => (a, b)))
      ↔ (lo1 ≤ p.1 ∧ p.1 < hi1) ∧ (lo2 ≤ p.2 ∧ p.2 < hi2) := by
  rw [List.mem_flatMap]
  constructor
  · rintro ⟨a, ha, hab⟩
    obtain ⟨b, hb, rfl⟩ := List.mem_map.mp hab
    exact ⟨(mem_interval _ _ _).mp ha, (mem_interval _ _ _).mp hb⟩
  · rintro ⟨h1, h2⟩
    exact ⟨p.1, (mem_interval _ _ _).mpr h1, List.mem_map.mpr ⟨p.2, (mem_interval _ _ _).mpr h2, rfl⟩⟩

/-- When every read is inside the image the non-maximum suppression returns; row 0 and
column 0 of its result are 0 and every other pixel holds its suppressed magnitude. -/
theorem non_max_suppression_post (ops : FloatOps F) (tLow : F) (mag : Mat F)
    (quantized_unfiltered : Mat Nat) (hqr : quantized_unfiltered.rows = mag.rows)
    (hqc : quantized_unfiltered.cols = mag.cols)
    (hsafe : NmsSafe ops tLow mag quantized_unfiltered) :
    ∃ m, non_max_suppression ops tLow mag quantized_unfiltered = .ok m
      ∧ m.rows = mag.rows ∧ m.cols = mag.cols
      ∧ ∀ p, Inside mag p →
          m.px p.1 p.2 = if 1 ≤ p.1 ∧ 1 ≤ p.2 then
            nms_value ops tLow mag quantized_unfiltered p else ops.ofInt 0 := by
  unfold non_max_suppression
  rw [foldlM_nested (fun m (r : Nat) (c : Nat) =>
    nms_pixel ops tLow mag quantized_unfiltered (r : Int) (c : Int) m)]
  obtain ⟨m, hm, hdims, hv, hz⟩ := foldlM_pointwise
    (fun m (p : Nat × Nat) =>
      nms_pixel ops tLow mag quantized_unfiltered (p.1 : Int) (p.2 : Int) m)
    (fun m => m.rows = mag.rows ∧ m.cols = mag.cols)
    (fun (p : Nat × Nat) m => Inside mag ((p.1 : Int), (p.2 : Int)) →
      m.px (p.1 : Int) (p.2 : Int) = ops.ofInt 0)
    (fun (p : Nat × Nat) m => Inside mag ((p.1 : Int), (p.2 : Int)) →
      m.px (p.1 : Int) (p.2 : Int)
        = nms_value ops tLow mag quantized_unfiltered ((p.1 : Int), (p.2 : Int)))
    ((interval 1 mag.rows).flatMap (fun a => (interval 1 mag.cols).map (fun b => (a, b))))
    (nodup_pairs (interval 1 mag.rows) (interval 1 mag.cols) (List.nodup_range' _ _)
      (List.nodup_range' _ _))
    (by
      intro m a ha hd hza
      have hb := (mem_pairs _ _ _ _ a).mp ha
      have hin : Inside mag ((a.1 : Int), (a.2 : Int)) := by
        unfold Inside; dsimp only; omega
      obtain ⟨m1, k0, k1, k2, k3, k4⟩ := nms_pixel_post ops tLow mag quantized_unfiltered
        hqr hqc hsafe ((a.1 : Int), (a.2 : Int)) (by dsimp only; omega) m hd.1 hd.2 (hza hin)
      refine ⟨m1, k0, ⟨k1, k2⟩, fun _ => k3, ?_⟩
      intro b hba
      have hne : (((b.1 : Int), (b.2 : Int)) : Int × Int) ≠ ((a.1 : Int), (a.2 : Int)) := by
        intro h
        apply hba
        have h1 := congrArg Prod.fst h
        have h2 := congrArg Prod.snd h
        dsimp only at h1 h2
        exact Prod.ext (by omega) (by omega)
      exact ⟨fun h hi => by rw [k4 _ hi hne]; exact h hi,
        fun h hi => by rw [k4 _ hi hne]; exact h hi⟩)
    { rows := mag.rows, cols := mag.cols, data := fun _ => ops.ofInt 0 } ⟨rfl, rfl⟩
    (fun _ _ _ => rfl)
  refine ⟨m, hm, hdims.1, hdims.2, ?_⟩
  intro p hp
  obtain ⟨h1, h2, h3, h4⟩ := hp
  have hcast : (((p.1.toNat : Nat) : Int), ((p.2.toNat : Nat) : Int)) = p := by
    rw [Int.toNat_of_nonneg h1, Int.toNat_of_nonneg h3]
  by_cases hpos : 1 ≤ p.1 ∧ 1 ≤ p.2
  · rw [if_pos hpos]
    have := hv (p.1.toNat, p.2.toNat) ((mem_pairs _ _ _ _ _).mpr (by dsimp only; omega))
    dsimp only at this
    rw [hcast] at this
    rw [Int.toNat_of_nonneg h1, Int.toNat_of_nonneg h3] at this
    exact this ⟨h1, h2, h3, h4⟩
  · rw [if_neg hpos]
    have := (hz (p.1.toNat, p.2.toNat) (by
      rw [mem_pairs]
      dsimp only
      omega)).1 (fun _ => rfl)
    dsimp only at this
    rw [hcast] at this
    rw [Int.toNat_of_nonneg h1, Int.toNat_of_nonneg h3] at this
    exact this ⟨h1, h2, h3, h4⟩

end SuppressionPost

section SuppressionBorder

variable {F : Type}

/-- A loop that returns has kept every invariant its returning passes keep. -/
theorem foldlM_invariant {α σ : Type} (f : σ → α → Except Fault σ) (Q : σ → Prop) :
    ∀ l : List α, (∀ s a s1, a ∈ l → Q s → f s a = .ok s1 → Q s1) →
      ∀ s s1, Q s → l.foldlM f s = .ok s1 → Q s1 := by
  intro l
  induction l with
  | nil =>
    intro _ s s1 hs h
    have : s = s1 := Except.ok.inj h
    rw [← this]
    exact hs
  | cons a l ih =>
    intro hf s s1 hs h
    rw [List.foldlM_cons] at h
    obtain ⟨s2, h2, hrest⟩ := bind_ok _ _ _ h
    exact ih (fun s a s1 ha => hf s a s1 (List.mem_cons_of_mem _ ha)) s2 s1
      (hf s a s2 (List.mem_cons_self _ _) hs h2) hrest

/-- A statement `if(...) mag_nms_v = mag_v;` that returns leaves `mag_nms` as it is or
assigns `mag_v` to the pixel. -/
theorem keep_if_max_result (ops : FloatOps F) (mag : Mat F) (r c : Int) (mag_v : F)
    (r1 c1 r2 c2 : Int) (mag_nms m1 : Mat F)
    (h : keep_if_max ops mag r c mag_v r1 c1 r2 c2 mag_nms = .ok m1) :
    m1 = mag_nms ∨ mag_nms.set? r c mag_v = .ok m1 := by
  unfold keep_if_max at h
  obtain ⟨first, _, h⟩ := bind_ok _ _ _ h
  split at h
  · obtain ⟨second, _, h⟩ := bind_ok _ _ _ h
    split at h
    · exact Or.inr h
    · exact Or.inl (Except.ok.inj h).symm
  · exact Or.inl (Except.ok.inj h).symm

/-- A pass of the suppression loops that returns leaves `mag_nms` as it is or assigns
to the pixel of the pass. -/
theorem nms_pixel_result (ops : FloatOps F) (tLow : F) (mag : Mat F)
    (quantized_unfiltered : Mat Nat) (r c : Int) (mag_nms m1 : Mat F)
    (h : nms_pixel ops tLow mag quantized_unfiltered r c mag_nms = .ok m1) :
    m1 = mag_nms ∨ ∃ v, mag_nms.set? r c v = .ok m1 := by
  unfold nms_pixel at h
  obtain ⟨mag_v, _, h⟩ := bind_ok _ _ _ h
  obtain ⟨_, _, h⟩ := bind_ok _ _ _ h
  have hk : ∀ r1 c1 r2 c2, keep_if_max ops mag r c mag_v r1 c1 r2 c2 mag_nms = .ok m1 →
      m1 = mag_nms ∨ ∃ v, mag_nms.set? r c v = .ok m1 := by
    intro r1 c1 r2 c2 hk
    rcases keep_if_max_result ops mag r c mag_v r1 c1 r2 c2 mag_nms m1 hk with h1 | h1
    · exact Or.inl h1
    · exact Or.inr ⟨mag_v, h1⟩
  split at h
  · exact Or.inl (Except.ok.inj h).symm
  · obtain ⟨quant_angle, _, h⟩ := bind_ok _ _ _ h
    split at h
    · exact hk _ _ _ _ h
    · split at h
      · exact hk _ _ _ _ h
      · split at h
        · exact hk _ _ _ _ h
        · split at h
          · exact hk _ _ _ _ h
          · exact Or.inl (Except.ok.inj h).symm

/-- An image the non-maximum suppression returns has the size of `mag`, and its row 0
and column 0, which the loops do not visit, are 0. -/
theorem non_max_suppression_first (ops : FloatOps F) (tLow : F) (mag : Mat F)
    (quantized_unfiltered : Mat Nat) (mag_nms : Mat F)
    (h : non_max_suppression ops tLow mag quantized_unfiltered = .ok mag_nms) :
    mag_nms.rows = mag.rows ∧ mag_nms.cols = mag.cols
      ∧ ∀ p, Inside mag p → p.1 = 0 ∨ p.2 = 0 → mag_nms.px p.1 p.2 = ops.ofInt 0 := by
  unfold non_max_suppression at h
  rw [foldlM_nested (fun m (r : Nat) (c : Nat) =>
    nms_pixel ops tLow mag quantized_unfiltered (r : Int) (c : Int) m)] at h
  refine foldlM_invariant
    (fun m (p : Nat × Nat) =>
      nms_pixel ops tLow mag quantized_unfiltered (p.1 : Int) (p.2 : Int) m)
    (fun m : Mat F => m.rows = mag.rows ∧ m.cols = mag.cols
      ∧ ∀ p, Inside mag p → p.1 = 0 ∨ p.2 = 0 → m.px p.1 p.2 = ops.ofInt 0)
    ((interval 1 mag.rows).flatMap (fun a => (interval 1 mag.cols).map (fun b => (a, b))))
    ?_ { rows := mag.rows, cols := mag.cols, data := fun _ => ops.ofInt 0 } mag_nms
    ⟨rfl, rfl, fun _ _ _ => rfl⟩ h
  intro m a m1 ha hm hstep
  have hb := (mem_pairs _ _ _ _ a).mp ha
  rcases nms_pixel_result ops tLow mag quantized_unfiltered _ _ m m1 hstep with h1 | ⟨v, h1⟩
  · rw [h1]; exact hm
  · obtain ⟨k1, k2, _, _, k5⟩ := set_px _ _ _ _ _ h1
    refine ⟨k1.trans hm.1, k2.trans hm.2.1, ?_⟩
    intro p hp h0
    have hpm : Inside m p := by unfold Inside; rw [hm.1, hm.2.1]; exact hp
    rw [k5 p hpm (by
      intro heq
      have e1 := congrArg Prod.fst heq
      have e2 := congrArg Prod.snd heq
      dsimp only at e1 e2
      omega)]
    exact hm.2.2 p hp h0

/-- When the pixels of the last row and column are skipped, the comparison neighbours
of every pixel the loops do not skip lie inside the image. -/
theorem nmsSafe_of_last (ops : FloatOps F) (tLow : F) (mag : Mat F)
    (quantized_unfiltered : Mat Nat) (h : LastSkipped ops tLow mag) :
    NmsSafe ops tLow mag quantized_unfiltered := by
  intro p h1 h2 h3 h4 hlt a b hab
  have hin : Inside mag p := ⟨by omega, h2, by omega, h4⟩
  have hr : p.1 + 1 < (mag.rows : Int) := by
    by_contra hc
    have := h p hin (Or.inl (by omega))
    rw [hlt] at this
    cases this
  have hc : p.2 + 1 < (mag.cols : Int) := by
    by_contra hc
    have := h p hin (Or.inr (by omega))
    rw [hlt] at this
    cases this
  unfold nmsNeighbours at hab
  unfold Inside
  split_ifs at hab <;>
    simp only [Option.some.injEq, Prod.mk.injEq] at hab <;>
    obtain ⟨rfl, rfl⟩ := hab <;>
    dsimp only <;>
    omega

/-- A property of the pixels `(r, c)`, `r < rows`, `c < cols`, holds of every pixel
inside the image. -/
theorem inside_cases {α : Type} (m : Mat α) (P : Int × Int → Prop)
    (h : ∀ r ∈ List.range m.rows, ∀ c ∈ List.range m.cols, P ((r : Int), (c : Int))) :
    ∀ p, Inside m p → P p := by
  intro p hp
  obtain ⟨h1, h2, h3, h4⟩ := hp
  have := h p.1.toNat (List.mem_range.mpr (by omega)) p.2.toNat
    (List.mem_range.mpr (by omega))
  rw [Int.toNat_of_nonneg h1, Int.toNat_of_nonneg h3] at this
  exact this

end SuppressionBorder

/-! ## The work-list flood fill -/

section FloodFill

variable {F : Type}

theorem set_markAt (m : Mat Nat) (p : Int × Int) (h : Inside m p) :
    m.set? p.1 p.2 255 = .ok (markAt m p.1 p.2) := by
  unfold Mat.set? markAt
  rw [if_pos (show 0 ≤ p.1 ∧ p.1 < (m.rows : Int) ∧ 0 ≤ p.2 ∧ p.2 < (m.cols : Int) from h)]

/-- Marking an unvisited pixel inside the bitmap. -/
theorem markAt_post (m : Mat Nat) (p : Int × Int) (h : Inside m p) (h0 : m.px p.1 p.2 = 0) :
    (markAt m p.1 p.2).rows = m.rows ∧ (markAt m p.1 p.2).cols = m.cols
      ∧ Marked (markAt m p.1 p.2) p
      ∧ (∀ x, Marked m x → Marked (markAt m p.1 p.2) x)
      ∧ (∀ x, Marked (markAt m p.1 p.2) x → ¬ Marked m x → x = p)
      ∧ unmarked (markAt m p.1 p.2) + 1 = unmarked m := by
  have hset := set_markAt m p h
  obtain ⟨hr, hc, _, hsame, hother⟩ := set_px _ _ _ _ _ hset
  have hin : ∀ x, Inside (markAt m p.1 p.2) x ↔ Inside m x := by
    intro x; unfold Inside; rw [hr, hc]
  refine ⟨hr, hc, ⟨(hin p).mpr h, by rw [hsame]; omega⟩, ?_, ?_,
    unmarked_mark _ _ _ _ 255 (by norm_num) hset h0⟩
  · intro x hx
    refine ⟨(hin x).mpr hx.1, ?_⟩
    by_cases hxp : x = p
    · subst hxp; rw [hsame]; omega
    · rw [hother x hx.1 hxp]; exact hx.2
  · intro x hx hn
    by_contra hxp
    apply hn
    have hxi := (hin x).mp hx.1
    exact ⟨hxi, by rw [← hother x hxi hxp]; exact hx.2⟩

/-- What looking at the neighbours of `p` at the offsets `os` establishes. -/
theorem fill_steps_post (accept : Int × Int → Bool) (p : Int × Int) :
    ∀ (os : List (Int × Int)) (v : Mat Nat) (w : List (Int × Int)),
      (∀ q, accept q = true → Inside v q) →
      ((os.foldl (fill_step accept p) (v, w)).1.rows = v.rows
        ∧ (os.foldl (fill_step accept p) (v, w)).1.cols = v.cols)
      ∧ (∀ x, Marked v x → Marked (os.foldl (fill_step accept p) (v, w)).1 x)
      ∧ (∀ x, Marked (os.foldl (fill_step accept p) (v, w)).1 x → ¬ Marked v x →
          accept x = true ∧ ∃ o ∈ os, x = (p.1 + o.1, p.2 + o.2))
      ∧ (∀ x, x ∈ (os.foldl (fill_step accept p) (v, w)).2 ↔
          x ∈ w ∨ (Marked (os.foldl (fill_step accept p) (v, w)).1 x ∧ ¬ Marked v x))
      ∧ (∀ o ∈ os, accept (p.1 + o.1, p.2 + o.2) = true →
          Marked (os.foldl (fill_step accept p) (v, w)).1 (p.1 + o.1, p.2 + o.2))
      ∧ unmarked (os.foldl (fill_step accept p) (v, w)).1
          + (os.foldl (fill_step accept p) (v, w)).2.length = unmarked v + w.length := by
  intro os
  induction os with
  | nil =>
    intro v w _
    refine ⟨⟨rfl, rfl⟩, fun _ h => h, fun _ h hn => absurd h hn, ?_, fun o ho => by simp at ho,
      rfl⟩
    intro x
    simp only [List.foldl_nil]
    constructor
    · exact Or.inl
    · rintro (h | ⟨h, hn⟩)
      · exact h
      · exact absurd h hn
  | cons o os ih =>
    intro v w hacc
    rw [List.foldl_cons]
    by_cases hc : (accept (p.1 + o.1, p.2 + o.2) && decide (v.px (p.1 + o.1) (p.2 + o.2) = 0))
        = true
    · have hstep : fill_step accept p (v, w) o
          = (markAt v (p.1 + o.1) (p.2 + o.2), (p.1 + o.1, p.2 + o.2) :: w) := by
        unfold fill_step
        rw [if_pos hc]
      rw [hstep]
      rw [Bool.and_eq_true, decide_eq_true_eq] at hc
      obtain ⟨k1, k2, k3, k4, k5, k6⟩ := markAt_post v (p.1 + o.1, p.2 + o.2) (hacc _ hc.1) hc.2
      have hacc1 : ∀ q, accept q = true → Inside (markAt v (p.1 + o.1) (p.2 + o.2)) q := by
        intro q hq
        have := hacc q hq
        unfold Inside at this ⊢
        rw [k1, k2]
        exact this
      have hnew : ¬ Marked v (p.1 + o.1, p.2 + o.2) := by
        intro h
        have := h.2
        dsimp only at this
        omega
      obtain ⟨⟨j1, j2⟩, j3, j4, j5, j6, j7⟩ := ih (markAt v (p.1 + o.1) (p.2 + o.2))
        ((p.1 + o.1, p.2 + o.2) :: w) hacc1
      refine ⟨⟨j1.trans k1, j2.trans k2⟩, fun x hx => j3 x (k4 x hx), ?_, ?_, ?_, ?_⟩
      · intro x hx hn
        by_cases hm : Marked (markAt v (p.1 + o.1) (p.2 + o.2)) x
        · have := k5 x hm hn
          subst this
          exact ⟨hc.1, o, List.mem_cons_self _ _, rfl⟩
        · obtain ⟨h1, o1, ho1, h2⟩ := j4 x hx hm
          exact ⟨h1, o1, List.mem_cons_of_mem _ ho1, h2⟩
      · intro x
        rw [j5 x, List.mem_cons]
        constructor
        · rintro ((h | h) | ⟨h, hn⟩)
          · subst h
            exact Or.inr ⟨j3 _ k3, hnew⟩
          · exact Or.inl h
          · exact Or.inr ⟨h, fun hv => hn (k4 x hv)⟩
        · rintro (h | ⟨h, hn⟩)
          · exact Or.inl (Or.inr h)
          · by_cases hm : Marked (markAt v (p.1 + o.1) (p.2 + o.2)) x
            · exact Or.inl (Or.inl (k5 x hm hn))
            · exact Or.inr ⟨h, hm⟩
      · intro o1 ho1 hacc2
        rcases List.mem_cons.mp ho1 with rfl | h
        · exact j3 _ k3
        · exact j6 o1 h hacc2
      · have h7 := j7
        rw [List.length_cons] at h7
        have h6 := k6
        dsimp only at h6
        omega
    · have hstep : fill_step accept p (v, w) o = (v, w) := by
        unfold fill_step
        rw [if_neg hc]
      rw [hstep]
      obtain ⟨j1, j3, j4, j5, j6, j7⟩ := ih v w hacc
      refine ⟨j1, j3, ?_, j5, ?_, j7⟩
      · intro x hx hn
        obtain ⟨h1, o1, ho1, h2⟩ := j4 x hx hn
        exact ⟨h1, o1, List.mem_cons_of_mem _ ho1, h2⟩
      · intro o1 ho1 hacc2
        rcases List.mem_cons.mp ho1 with rfl | h
        · have hz : ¬ v.px (p.1 + o1.1) (p.2 + o1.2) = 0 := by
            intro hz
            apply hc
            rw [Bool.and_eq_true, decide_eq_true_eq]
            exact ⟨hacc2, hz⟩
          exact j3 _ ⟨hacc _ hacc2, Nat.pos_of_ne_zero hz⟩
        · exact j6 o1 h hacc2

end FloodFill

section FloodFillPost

variable {F : Type}

/-- The flood fill with a budget above the number of unvisited pixels plus the length
of the work list ends with every visited pixel reached from a seed and the accepted
neighbours of every visited pixel visited. -/
theorem flood_fill_post (ops : FloatOps F) (tHigh : F) (mag_nms : Mat F)
    (accept : Int × Int → Bool) (hacc : ∀ q, accept q = true → Inside mag_nms q) :
    ∀ (fuel : Nat) (v : Mat Nat) (w : List (Int × Int)),
      FillInv ops tHigh mag_nms accept v w → unmarked v + w.length < fuel →
      FillInv ops tHigh mag_nms accept (flood_fill accept fuel v w) []
        ∧ ∀ x, Marked v x → Marked (flood_fill accept fuel v w) x := by
  intro fuel
  induction fuel with
  | zero => intro v w _ h; omega
  | succ fuel ih =>
    intro v w hinv hm
    cases w with
    | nil =>
      rw [flood_fill]
      exact ⟨hinv, fun _ h => h⟩
    | cons p w =>
      rw [flood_fill]
      have haccv : ∀ q, accept q = true → Inside v q := by
        intro q hq
        have := hacc q hq
        unfold Inside at this ⊢
        rw [hinv.rows_eq, hinv.cols_eq]
        exact this
      obtain ⟨⟨j1, j2⟩, j3, j4, j5, j6, j7⟩ := fill_steps_post accept p traceOffsets v w haccv
      have hinv1 : FillInv ops tHigh mag_nms accept
          (traceOffsets.foldl (fill_step accept p) (v, w)).1
          (traceOffsets.foldl (fill_step accept p) (v, w)).2 := by
        refine ⟨j1.trans hinv.rows_eq, j2.trans hinv.cols_eq, ?_, ?_, ?_⟩
        · intro x hx
          by_cases hv : Marked v x
          · exact hinv.sound x hv
          · obtain ⟨hax, o, ho, hxo⟩ := j4 x hx hv
            obtain ⟨s, hs, hreach⟩ := hinv.sound p (hinv.work_marked p (List.mem_cons_self _ _))
            refine ⟨s, hs, Relation.ReflTransGen.tail hreach ⟨?_, hax⟩⟩
            unfold Adjacent
            rw [hxo]
            simpa using ho
        · intro x hx hxw q hadj hq
          have hnw : x ∉ w ∧ ¬ (Marked (traceOffsets.foldl (fill_step accept p) (v, w)).1 x
              ∧ ¬ Marked v x) := by
            constructor
            · intro h; exact hxw ((j5 x).mpr (Or.inl h))
            · intro h; exact hxw ((j5 x).mpr (Or.inr h))
          have hv : Marked v x := by
            by_contra hv
            exact hnw.2 ⟨hx, hv⟩
          by_cases hxp : x = p
          · subst hxp
            obtain ⟨o, ho, hqo⟩ := List.mem_map.mp ((adjacent_iff x q).mp hadj)
            rw [← hqo] at hq ⊢
            exact j6 o ho hq
          · exact j3 q (hinv.closed x hv (by
              intro h
              rcases List.mem_cons.mp h with h | h
              · exact hxp h
              · exact hnw.1 h) q hadj hq)
        · intro x hx
          rcases (j5 x).mp hx with h | h
          · exact j3 x (hinv.work_marked x (List.mem_cons_of_mem _ h))
          · exact h.1
      have hm1 : unmarked (traceOffsets.foldl (fill_step accept p) (v, w)).1
          + (traceOffsets.foldl (fill_step accept p) (v, w)).2.length < fuel := by
        rw [j7]
        rw [List.length_cons] at hm
        omega
      obtain ⟨r1, r2⟩ := ih _ _ hinv1 hm1
      exact ⟨r1, fun x hx => r2 x (j3 x hx)⟩

theorem foldl_collect {α σ : Type} (f : σ → α → σ) (Inv : σ → Prop) (R : σ → σ → Prop)
    (hrefl : ∀ s, R s s) (htrans : ∀ a b c, R a b → R b c → R a c)
    (Q : α → σ → Prop) (hQ : ∀ a s s1, Q a s → R s s1 → Q a s1) :
    ∀ l : List α, (∀ s a, a ∈ l → Inv s → Inv (f s a) ∧ R s (f s a) ∧ Q a (f s a)) →
      ∀ s, Inv s → Inv (l.foldl f s) ∧ R s (l.foldl f s) ∧ ∀ a ∈ l, Q a (l.foldl f s) := by
  intro l
  induction l with
  | nil => intro _ s hs; exact ⟨hs, hrefl s, fun a ha => by simp at ha⟩
  | cons b l ih =>
    intro hstep s hs
    obtain ⟨i1, r1, q1⟩ := hstep s b (List.mem_cons_self _ _) hs
    obtain ⟨i2, r2, q2⟩ := ih (fun t a ha => hstep t a (List.mem_cons_of_mem _ ha)) (f s b) i1
    rw [List.foldl_cons]
    refine ⟨i2, htrans _ _ _ r1 r2, ?_⟩
    intro a ha
    rcases List.mem_cons.mp ha with rfl | hl
    · exact hQ _ _ _ q1 r2
    · exact q2 a hl

/-- The hysteresis stage as a flood fill, with a budget above the number of pixels,
visits the seeds and the pixels reached from a seed by steps to accepted
8-neighbours. -/
theorem flood_hysteresis_post (ops : FloatOps F) (tHigh : F) (mag_nms : Mat F)
    (accept : Int × Int → Bool) (hacc : ∀ q, accept q = true → Inside mag_nms q)
    (fuel : Nat) (hfuel : mag_nms.rows * mag_nms.cols < fuel) (p : Int × Int) :
    Marked (flood_hysteresis ops tHigh accept fuel mag_nms) p ↔
      ∃ s, Seed ops tHigh mag_nms s ∧ Relation.ReflTransGen (FillStep accept) s p := by
  obtain ⟨hinv, _, hseeds⟩ := foldl_collect
    (fun (visited : Mat Nat) (p : Nat × Nat) =>
      if !ops.lt (mag_nms.px (p.1 : Int) (p.2 : Int)) tHigh
          && decide (visited.px (p.1 : Int) (p.2 : Int) = 0) then
        flood_fill accept fuel (markAt visited (p.1 : Int) (p.2 : Int))
          [((p.1 : Int), (p.2 : Int))]
      else visited)
    (fun v => FillInv ops tHigh mag_nms accept v [])
    (fun v v1 => ∀ x, Marked v x → Marked v1 x)
    (fun _ _ h => h) (fun _ _ _ h1 h2 x h => h2 x (h1 x h))
    (fun (p : Nat × Nat) v => Seed ops tHigh mag_nms ((p.1 : Int), (p.2 : Int)) →
      Marked v ((p.1 : Int), (p.2 : Int)))
    (fun _ _ _ hq hr hs => hr _ (hq hs))
    ((interval 0 mag_nms.rows).flatMap
      (fun r => (interval 0 mag_nms.cols).map (fun c => (r, c))))
    (by
      intro v a ha hinv
      have hb := (mem_pairs _ _ _ _ a).mp ha
      have hin : Inside mag_nms ((a.1 : Int), (a.2 : Int)) := by
        unfold Inside; dsimp only; omega
      have hinv' : Inside v ((a.1 : Int), (a.2 : Int)) := by
        unfold Inside; rw [hinv.rows_eq, hinv.cols_eq]; exact hin
      by_cases hc : (!ops.lt (mag_nms.px (a.1 : Int) (a.2 : Int)) tHigh
          && decide (v.px (a.1 : Int) (a.2 : Int) = 0)) = true
      · simp only [hc, if_true]
        rw [Bool.and_eq_true, decide_eq_true_eq] at hc
        have hseed : Seed ops tHigh mag_nms ((a.1 : Int), (a.2 : Int)) :=
          ⟨hin, by simpa using hc.1⟩
        obtain ⟨k1, k2, k3, k4, k5, k6⟩ := markAt_post v ((a.1 : Int), (a.2 : Int)) hinv' hc.2
        have hinv0 : FillInv ops tHigh mag_nms accept (markAt v (a.1 : Int) (a.2 : Int))
            [((a.1 : Int), (a.2 : Int))] := by
          refine ⟨k1.trans hinv.rows_eq, k2.trans hinv.cols_eq, ?_, ?_, ?_⟩
          · intro x hx
            by_cases hv : Marked v x
            · exact hinv.sound x hv
            · rw [k5 x hx hv]
              exact ⟨_, hseed, Relation.ReflTransGen.refl⟩
          · intro x hx hxw q hadj hq
            have hv : Marked v x := by
              by_contra hv
              exact hxw (List.mem_singleton.mpr (k5 x hx hv))
            exact k4 q (hinv.closed x hv (by simp) q hadj hq)
          · intro x hx
            rw [List.mem_singleton.mp hx]
            exact k3
        have hm : unmarked (markAt v (a.1 : Int) (a.2 : Int))
            + [((a.1 : Int), (a.2 : Int))].length < fuel := by
          have h1 := unmarked_le v
          rw [hinv.rows_eq, hinv.cols_eq] at h1
          have h6 := k6
          dsimp only at h6
          rw [List.length_singleton]
          omega
        obtain ⟨r1, r2⟩ := flood_fill_post ops tHigh mag_nms accept hacc fuel _ _ hinv0 hm
        exact ⟨r1, fun x hx => r2 x (k4 x hx), fun _ => r2 _ k3⟩
      · have hc' : (!ops.lt (mag_nms.px (a.1 : Int) (a.2 : Int)) tHigh
            && decide (v.px (a.1 : Int) (a.2 : Int) = 0)) = false := by simpa using hc
        simp only [hc', Bool.false_eq_true, if_false]
        refine ⟨hinv, fun _ h => h, ?_⟩
        intro hseed
        refine ⟨hinv', ?_⟩
        have h2 := hseed.2
        dsimp only at h2 ⊢
        rw [h2] at hc'
        simp at hc'
        omega)
    { rows := mag_nms.rows, cols := mag_nms.cols, data := fun _ => 0 }
    { rows_eq := rfl
      cols_eq := rfl
      sound := fun p hp => absurd hp.2 (by simp [Mat.px])
      closed := fun p hp => absurd hp.2 (by simp [Mat.px])
      work_marked := fun p hp => by simp at hp }
  unfold flood_hysteresis
  constructor
  · exact hinv.sound p
  · rintro ⟨s, hs, hreach⟩
    induction hreach with
    | refl =>
      obtain ⟨h1, h2, h3, h4⟩ := hs.1
      have := hseeds (s.1.toNat, s.2.toNat) ((mem_pairs _ _ _ _ _).mpr (by dsimp only; omega))
      dsimp only at this
      rw [Int.toNat_of_nonneg h1, Int.toNat_of_nonneg h3] at this
      exact this hs
    | tail _ hstep ih => exact hinv.closed _ ih (by simp) _ hstep.1 hstep.2

end FloodFillPost

theorem fillStep_trace {F : Type} (ops : FloatOps F) (mag_nms : Mat F) (a b : Int × Int) :
    FillStep (acceptTrace ops mag_nms) a b ↔ TraceStep ops mag_nms a b := by
  unfold FillStep TraceStep Traceable acceptTrace
  simp only [Bool.and_eq_true, decide_eq_true_eq, Bool.not_eq_true']
  tauto

theorem fillStep_path {F : Type} (ops : FloatOps F) (mag_nms : Mat F) (a b : Int × Int) :
    FillStep (acceptPath ops mag_nms) a b ↔ PathStep ops mag_nms a b := by
  unfold FillStep PathStep acceptPath
  simp only [Bool.and_eq_true, decide_eq_true_eq, Bool.not_eq_true']

theorem reflTransGen_congr {α : Type} (r1 r2 : α → α → Prop) (h : ∀ a b, r1 a b ↔ r2 a b)
    (a b : α) : Relation.ReflTransGen r1 a b ↔ Relation.ReflTransGen r2 a b :=
  ⟨Relation.ReflTransGen.mono (fun a b hab => (h a b).mp hab),
    Relation.ReflTransGen.mono (fun a b hab => (h a b).mpr hab)⟩

/-! ## `cannyTraceEdge` and the hysteresis stage -/

/-- C16: a call of `cannyTraceEdge` on a mask of the size of `mag_nms`, from any pixel
and with any offsets, returns as soon as the recursion budget exceeds the number of
unmarked pixels: no mark is removed, every call that recursed has marked one unmarked
pixel (the sum of the recursing calls and the unmarked pixels is unchanged), and the
number of recursing calls is at most the number of pixels. -/
theorem cannyTraceEdge_terminates {F : Type} (ops : FloatOps F) (mag_nms : Mat F)
    (canny_edge : Mat Nat) (rowOffset colOffset row col : Int) (fuel : Nat)
    (hr : canny_edge.rows = mag_nms.rows) (hc : canny_edge.cols = mag_nms.cols)
    (hfuel : unmarked canny_edge < fuel) :
    ∃ t1, cannyTraceEdge ops mag_nms fuel rowOffset colOffset row col
          { canny_edge := canny_edge, recursing_calls := 0 } = .ok t1
      ∧ (∀ p, Marked canny_edge p → Marked t1.canny_edge p)
      ∧ t1.recursing_calls + unmarked t1.canny_edge = unmarked canny_edge
      ∧ t1.recursing_calls ≤ mag_nms.rows * mag_nms.cols := by
  obtain ⟨t1, h1, p1⟩ := cannyTraceEdge_post ops mag_nms fuel rowOffset colOffset row col
    { canny_edge := canny_edge, recursing_calls := 0 } hr hc hfuel
  have hcount := p1.count
  simp only [zero_add] at hcount
  have hle := unmarked_le canny_edge
  rw [hr, hc] at hle
  exact ⟨t1, h1, p1.mono, hcount, by omega⟩

theorem cannyTraceEdge_terminates_witness :
    unmarked (constFrame 3 3 0) < 10
      ∧ ∃ t1, cannyTraceEdge (exactOps ℚ Rat.sqrt) (⟨3, 3, fun _ => 1⟩ : Mat ℚ) 10 1 0 0 1
            { canny_edge := constFrame 3 3 0, recursing_calls := 0 } = .ok t1
        ∧ (∀ p, Marked (constFrame 3 3 0) p → Marked t1.canny_edge p)
        ∧ t1.recursing_calls + unmarked t1.canny_edge = unmarked (constFrame 3 3 0)
        ∧ t1.recursing_calls ≤ (⟨3, 3, fun _ => 1⟩ : Mat ℚ).rows
            * (⟨3, 3, fun _ => 1⟩ : Mat ℚ).cols :=
  have h : unmarked (constFrame 3 3 0) < 10 :=
    lt_of_le_of_lt (unmarked_le (constFrame 3 3 0)) (by decide)
  ⟨h, cannyTraceEdge_terminates (exactOps ℚ Rat.sqrt) (⟨3, 3, fun _ => 1⟩ : Mat ℚ)
    (constFrame 3 3 0) 1 0 0 1 10 rfl rfl h⟩

/-- C15: for every suppressed-magnitude image, that is every image `mag_nms` the
non-maximum suppression returns, with `0 < 0.01` in the arithmetic of the floats and a
recursion budget above the number of pixels, the hysteresis stage returns and marks
exactly the seeds (`mag_nms < tHigh` fails, `tHigh = 1.1` in the source) and the pixels
connected to a seed by an 8-connected path inside the image whose pixels have
`mag_nms >= 0.01` (the test `mag_v < 0.01f` fails); these are the pixels a work-list
flood fill over the 8-neighbourhood with a visited bitmap visits. -/
theorem hysteresis_marks_paths {F : Type} (ops : FloatOps F) (tLow tHigh : F) (mag : Mat F)
    (quantized_unfiltered : Mat Nat) (mag_nms : Mat F) (fuel : Nat)
    (hnms : non_max_suppression ops tLow mag quantized_unfiltered = .ok mag_nms)
    (hfloor : ops.lt (ops.ofInt 0) (ops.ofLit (1 / 100)) = true)
    (hfuel : mag_nms.rows * mag_nms.cols < fuel) :
    ∃ t, hysteresis ops tHigh fuel mag_nms = .ok t
      ∧ t.canny_edge.rows = mag_nms.rows ∧ t.canny_edge.cols = mag_nms.cols
      ∧ (∀ p, Marked t.canny_edge p ↔
          ∃ s, Seed ops tHigh mag_nms s
            ∧ Relation.ReflTransGen (PathStep ops mag_nms) s p)
      ∧ ∀ p, Marked t.canny_edge p ↔
          Marked (flood_hysteresis ops tHigh (acceptPath ops mag_nms) fuel mag_nms) p := by
  obtain ⟨t, ht, hr, hc, hchar, _⟩ := hysteresis_post ops tHigh mag_nms fuel hfuel
  obtain ⟨hnr, hnc, hzero⟩ := non_max_suppression_first ops tLow mag quantized_unfiltered
    mag_nms hnms
  have hborder : ∀ p, Inside mag_nms p → p.1 = 0 ∨ p.2 = 0 →
      ops.lt (mag_nms.px p.1 p.2) (ops.ofLit (1 / 100)) = true := by
    intro p hp h0
    have hpm : Inside mag p := by
      unfold Inside at hp ⊢; rw [hnr, hnc] at hp; exact hp
    rw [hzero p hpm h0]
    exact hfloor
  have hstep : ∀ a b, TraceStep ops mag_nms a b ↔ PathStep ops mag_nms a b := by
    intro a b
    unfold TraceStep PathStep Traceable Inside
    constructor
    · rintro ⟨hadj, h1, h2, h3, h4, h5⟩
      exact ⟨hadj, ⟨by omega, h2, by omega, h4⟩, h5⟩
    · rintro ⟨hadj, ⟨h1, h2, h3, h4⟩, h5⟩
      have hne : ¬ (b.1 = 0 ∨ b.2 = 0) := by
        intro h0
        have := hborder b ⟨h1, h2, h3, h4⟩ h0
        rw [h5] at this
        cases this
      exact ⟨hadj, by omega, h2, by omega, h4, h5⟩
  have hpath : ∀ p, Marked t.canny_edge p ↔
      ∃ s, Seed ops tHigh mag_nms s ∧ Relation.ReflTransGen (PathStep ops mag_nms) s p := by
    intro p
    rw [hchar p]
    constructor
    · rintro ⟨s, hs, hreach⟩
      exact ⟨s, hs, (reflTransGen_congr _ _ hstep s p).mp hreach⟩
    · rintro ⟨s, hs, hreach⟩
      exact ⟨s, hs, (reflTransGen_congr _ _ hstep s p).mpr hreach⟩
  refine ⟨t, ht, hr, hc, hpath, ?_⟩
  intro p
  rw [hpath p, flood_hysteresis_post ops tHigh mag_nms (acceptPath ops mag_nms)
    (by
      intro q hq
      unfold acceptPath at hq
      rw [Bool.and_eq_true, decide_eq_true_eq] at hq
      exact hq.1) fuel hfuel p]
  constructor
  · rintro ⟨s, hs, hreach⟩
    exact ⟨s, hs, (reflTransGen_congr _ _ (fillStep_path ops mag_nms) s p).mpr hreach⟩
  · rintro ⟨s, hs, hreach⟩
    exact ⟨s, hs, (reflTransGen_congr _ _ (fillStep_path ops mag_nms) s p).mp hreach⟩

/-- In binary32 arithmetic the value 0 passes the test `mag_v < 0.01f` of
`cannyTraceEdge`. -/
theorem binary32_floor_test :
    binary32.lt (binary32.ofInt 0) (binary32.ofLit (1 / 100)) = true := by
  show F32.lt (F32.round ((0 : Int) : ℚ)) (F32.round (1 / 100)) = true
  rw [Int.cast_zero, F32.round_zero,
    F32.round_near (1 / 100) (-7) 10737418 (by norm_num [abs_of_pos])
      (by norm_num [abs_of_pos]) (by norm_num) (by norm_num [abs_lt])
      (by norm_num [abs_of_pos])]
  show decide (_ < _) = true
  norm_num

/-- In binary32 arithmetic the value 0 passes the test `mag_v < tLow` of the suppression
loops, `tLow = 0.2f`. -/
theorem binary32_low_test :
    binary32.lt (binary32.ofInt 0) (binary32.ofLit (1 / 5)) = true := by
  show F32.lt (F32.round ((0 : Int) : ℚ)) (F32.round (1 / 5)) = true
  rw [Int.cast_zero, F32.round_zero,
    F32.round_near (1 / 5) (-3) 13421773 (by norm_num [abs_of_pos])
      (by norm_num [abs_of_pos]) (by norm_num) (by norm_num [abs_lt])
      (by norm_num [abs_of_pos])]
  show decide (_ < _) = true
  norm_num

/-- The border pixels of `ridgeImage` are 0. -/
theorem ridgeImage_border : ∀ p, Inside ridgeImage p →
    p.1 = 0 ∨ p.2 = 0 ∨ p.1 + 1 = (ridgeImage.rows : Int)
      ∨ p.2 + 1 = (ridgeImage.cols : Int) →
    ridgeImage.px p.1 p.2 = 0 :=
  inside_cases ridgeImage _ (by decide)

theorem ridgeImage_first : FirstSkipped (exactOps ℚ Rat.sqrt) (1 / 5) ridgeImage := by
  intro p hp h0
  rw [ridgeImage_border p hp (by omega)]
  simp [exactOps]

theorem ridgeImage_last : LastSkipped (exactOps ℚ Rat.sqrt) (1 / 5) ridgeImage := by
  intro p hp h0
  rw [ridgeImage_border p hp (by omega)]
  simp [exactOps]

/-- The non-maximum suppression of `ridgeImage` with the class 2 (up/down) at every
pixel keeps both non-zero pixels. -/
theorem ridgeImage_suppressed :
    non_max_suppression (exactOps ℚ Rat.sqrt) (1 / 5) ridgeImage (constFrame 3 4 2)
      = .ok ridgeSuppressed := by
  have h1 : ¬ ((2 : ℚ) < 5⁻¹) := by norm_num
  have h2 : ¬ ((2 : ℚ)⁻¹ < 5⁻¹) := by norm_num
  simp [non_max_suppression, interval, nms_pixel, keep_if_max, Mat.at?, Mat.set?, Mat.px,
    ridgeImage, ridgeSuppressed, constFrame, exactOps, ge, bind, Except.bind, List.range',
    List.foldlM, pure, Except.pure, h1, h2]

theorem hysteresis_marks_paths_witness :
    non_max_suppression (exactOps ℚ Rat.sqrt) (1 / 5) ridgeImage (constFrame 3 4 2)
        = .ok ridgeSuppressed
      ∧ (exactOps ℚ Rat.sqrt).lt ((exactOps ℚ Rat.sqrt).ofInt 0)
          ((exactOps ℚ Rat.sqrt).ofLit (1 / 100)) = true
      ∧ ridgeSuppressed.rows * ridgeSuppressed.cols < 13
      ∧ ∃ t, hysteresis (exactOps ℚ Rat.sqrt) (11 / 10) 13 ridgeSuppressed = .ok t
        ∧ Marked t.canny_edge (1, 1) ∧ Marked t.canny_edge (1, 2)
        ∧ ¬ Marked t.canny_edge (1, 3)
        ∧ ∀ p, Marked t.canny_edge p ↔
            Marked (flood_hysteresis (exactOps ℚ Rat.sqrt) (11 / 10)
              (acceptPath (exactOps ℚ Rat.sqrt) ridgeSuppressed) 13 ridgeSuppressed) p := by
  have hfloor : (exactOps ℚ Rat.sqrt).lt ((exactOps ℚ Rat.sqrt).ofInt 0)
      ((exactOps ℚ Rat.sqrt).ofLit (1 / 100)) = true := by simp [exactOps]
  obtain ⟨t, ht, _, _, hpath, hfill⟩ := hysteresis_marks_paths (exactOps ℚ Rat.sqrt) (1 / 5)
    (11 / 10) ridgeImage (constFrame 3 4 2) ridgeSuppressed 13 ridgeImage_suppressed hfloor
    (by decide)
  have hseed : Seed (exactOps ℚ Rat.sqrt) (11 / 10) ridgeSuppressed (1, 1) := by
    refine ⟨by decide, ?_⟩
    simp [exactOps, ridgeSuppressed, Mat.px]
    norm_num
  have hstep : PathStep (exactOps ℚ Rat.sqrt) ridgeSuppressed (1, 1) (1, 2) := by
    refine ⟨by decide, by decide, ?_⟩
    simp [exactOps, ridgeSuppressed, Mat.px]
    norm_num
  refine ⟨ridgeImage_suppressed, hfloor, by decide, t, ht,
    (hpath (1, 1)).mpr ⟨(1, 1), hseed, Relation.ReflTransGen.refl⟩,
    (hpath (1, 2)).mpr ⟨(1, 1), hseed, Relation.ReflTransGen.single hstep⟩, ?_, hfill⟩
  rw [hpath]
  rintro ⟨s, hs, hreach⟩
  rcases Relation.ReflTransGen.cases_tail hreach with h | ⟨b, _, hlast⟩
  · rw [← h] at hs
    have h2 := hs.2
    simp [exactOps, ridgeSuppressed, Mat.px] at h2
  · have h2 := hlast.2.2
    simp [exactOps, ridgeSuppressed, Mat.px] at h2

/-! ## The non-maximum suppression -/

/-- C18: for every magnitude image on which the suppression loops skip the first and
the last row and column (`mag < tLow` there, as for the magnitude of `get_depth_edge`,
which is 0 there) and every orientation-class image of the same size, the non-maximum
suppression returns, and at every pixel whose two comparison neighbours for its class
lie inside the image (class 0: left/right; class 1: `(r-1, c+1)` and `(r+1, c-1)`;
class 2: up/down; class 3: `(r+1, c+1)` and `(r-1, c-1)`) `mag_nms` is `mag` if
`mag < tLow` fails (`tLow = 0.2` in the source) and `mag` is `>=` both comparison
neighbours, and 0 otherwise. -/
theorem non_max_suppression_pixels {F : Type} (ops : FloatOps F) (tLow : F) (mag : Mat F)
    (quantized_unfiltered : Mat Nat) (hqr : quantized_unfiltered.rows = mag.rows)
    (hqc : quantized_unfiltered.cols = mag.cols)
    (hfirst : FirstSkipped ops tLow mag) (hlast : LastSkipped ops tLow mag) :
    ∃ mag_nms, non_max_suppression ops tLow mag quantized_unfiltered = .ok mag_nms
      ∧ mag_nms.rows = mag.rows ∧ mag_nms.cols = mag.cols
      ∧ ∀ p a b, Inside mag p →
          nmsNeighbours (quantized_unfiltered.px p.1 p.2) = some (a, b) →
          Inside mag (p.1 + a.1, p.2 + a.2) → Inside mag (p.1 + b.1, p.2 + b.2) →
          mag_nms.px p.1 p.2
            = if ops.lt (mag.px p.1 p.2) tLow = false
                ∧ ge ops (mag.px p.1 p.2) (mag.px (p.1 + a.1) (p.2 + a.2)) = true
                ∧ ge ops (mag.px p.1 p.2) (mag.px (p.1 + b.1) (p.2 + b.2)) = true
              then mag.px p.1 p.2 else ops.ofInt 0 := by
  obtain ⟨m, hm, hr, hc, hpx⟩ := non_max_suppression_post ops tLow mag quantized_unfiltered
    hqr hqc (nmsSafe_of_last ops tLow mag quantized_unfiltered hlast)
  refine ⟨m, hm, hr, hc, ?_⟩
  intro p a b hp hab _ _
  rw [hpx p hp]
  by_cases hpos : 1 ≤ p.1 ∧ 1 ≤ p.2
  · rw [if_pos hpos]
    unfold nms_value nms_keeps
    rw [hab]
    by_cases hlt : ops.lt (mag.px p.1 p.2) tLow = false
    · by_cases ha : ge ops (mag.px p.1 p.2) (mag.px (p.1 + a.1) (p.2 + a.2)) = true
      · by_cases hb : ge ops (mag.px p.1 p.2) (mag.px (p.1 + b.1) (p.2 + b.2)) = true
        · simp [hlt, ha, hb]
        · simp [hlt, ha, hb]
      · simp [hlt, ha]
    · simp [hlt]
  · rw [if_neg hpos]
    have hskip := hfirst p hp (by unfold Inside at hp; omega)
    rw [if_neg]
    rw [hskip]
    simp

theorem non_max_suppression_pixels_witness :
    FirstSkipped (exactOps ℚ Rat.sqrt) (1 / 5) ridgeImage
      ∧ LastSkipped (exactOps ℚ Rat.sqrt) (1 / 5) ridgeImage
      ∧ ∃ mag_nms, non_max_suppression (exactOps ℚ Rat.sqrt) (1 / 5) ridgeImage
            (constFrame 3 4 0) = .ok mag_nms
        ∧ mag_nms.px 1 1 = 2 ∧ mag_nms.px 1 2 = 0 := by
  obtain ⟨m, hm, _, _, hpx⟩ := non_max_suppression_pixels (exactOps ℚ Rat.sqrt) (1 / 5)
    ridgeImage (constFrame 3 4 0) rfl rfl ridgeImage_first ridgeImage_last
  refine ⟨ridgeImage_first, ridgeImage_last, m, hm, ?_, ?_⟩
  · rw [hpx (1, 1) (0, 1) (0, -1) (by decide) (by decide) (by decide) (by decide)]
    simp [exactOps, ge, ridgeImage, Mat.px]
    norm_num
  · rw [hpx (1, 2) (0, 1) (0, -1) (by decide) (by decide) (by decide) (by decide)]
    simp [exactOps, ge, ridgeImage, Mat.px]
    norm_num

/-! ## Thresholds of the curvature detector -/

theorem nms_value_cases {F : Type} (ops : FloatOps F) (tLow : F) (mag : Mat F)
    (quantized_unfiltered : Mat Nat) (p : Int × Int) :
    nms_value ops tLow mag quantized_unfiltered p = ops.ofInt 0
      ∨ nms_value ops tLow mag quantized_unfiltered p = mag.px p.1 p.2 := by
  unfold nms_value
  split
  · exact Or.inr rfl
  · exact Or.inl rfl

section Thresholds

variable {F : Type} [LinearOrderedField F] [FloorRing F]

/-- A pixel kept by the suppression with the higher low threshold is kept with the
lower one, with the same value. -/
theorem nms_value_kept (sqrt : F → F) (tLow tLow1 : F) (hLow : tLow ≤ tLow1) (mag : Mat F)
    (quantized_unfiltered : Mat Nat) (p : Int × Int)
    (h : nms_value (exactOps F sqrt) tLow1 mag quantized_unfiltered p ≠ 0) :
    nms_value (exactOps F sqrt) tLow1 mag quantized_unfiltered p = mag.px p.1 p.2
      ∧ nms_value (exactOps F sqrt) tLow mag quantized_unfiltered p = mag.px p.1 p.2 := by
  unfold nms_value at h ⊢
  by_cases hc : (!(exactOps F sqrt).lt (mag.px p.1 p.2) tLow1
      && nms_keeps (exactOps F sqrt) mag quantized_unfiltered p) = true
  · rw [if_pos hc]
    refine ⟨rfl, ?_⟩
    rw [if_pos]
    rw [Bool.and_eq_true] at hc ⊢
    refine ⟨?_, hc.2⟩
    have h1 := hc.1
    simp only [exactOps, Bool.not_eq_true', decide_eq_false_iff_not, not_lt] at h1 ⊢
    exact le_trans hLow h1
  · rw [if_neg hc] at h
    exact absurd (by simp [exactOps]) h

/-- C17: for a magnitude image and an orientation-class image for which the
suppression with the threshold `tLow` reads inside the image, the magnitudes being
`≥ 0` or the threshold `tHigh` positive, and the comparisons exact: if `tLow ≤ tLow1`
and `tHigh ≤ tHigh1`, the curvature detector returns with both pairs of thresholds,
every pixel marked with `(tLow1, tHigh1)` is marked with `(tLow, tHigh)`, and at least
as many pixels stay unmarked with `(tLow1, tHigh1)`. -/
theorem curvature_edges_antitone (sqrt : F → F) (tLow tLow1 tHigh tHigh1 : F)
    (fuel fuel1 : Nat) (mag : Mat F) (quantized_unfiltered : Mat Nat)
    (hLow : tLow ≤ tLow1) (hHigh : tHigh ≤ tHigh1)
    (hmag : (∀ p, Inside mag p → 0 ≤ mag.px p.1 p.2) ∨ 0 < tHigh)
    (hqr : quantized_unfiltered.rows = mag.rows) (hqc : quantized_unfiltered.cols = mag.cols)
    (hsafe : NmsSafe (exactOps F sqrt) tLow mag quantized_unfiltered)
    (hfuel : mag.rows * mag.cols < fuel) (hfuel1 : mag.rows * mag.cols < fuel1) :
    ∃ edges edges1,
      curvature_edges (exactOps F sqrt) tLow tHigh fuel mag quantized_unfiltered = .ok edges
      ∧ curvature_edges (exactOps F sqrt) tLow1 tHigh1 fuel1 mag quantized_unfiltered
          = .ok edges1
      ∧ (∀ p, Marked edges1 p → Marked edges p)
      ∧ unmarked edges ≤ unmarked edges1 := by
  have hsafe1 : NmsSafe (exactOps F sqrt) tLow1 mag quantized_unfiltered := by
    intro p h1 h2 h3 h4 hlt
    apply hsafe p h1 h2 h3 h4
    simp only [exactOps, decide_eq_false_iff_not, not_lt] at hlt ⊢
    exact le_trans hLow hlt
  obtain ⟨n, hn, hnr, hnc, hpx⟩ := non_max_suppression_post (exactOps F sqrt) tLow mag
    quantized_unfiltered hqr hqc hsafe
  obtain ⟨n1, hn1, hnr1, hnc1, hpx1⟩ := non_max_suppression_post (exactOps F sqrt) tLow1 mag
    quantized_unfiltered hqr hqc hsafe1
  obtain ⟨t, ht, htr, htc, hchar, _⟩ := hysteresis_post (exactOps F sqrt) tHigh n fuel
    (by rw [hnr, hnc]; exact hfuel)
  obtain ⟨t1, ht1, htr1, htc1, hchar1, _⟩ := hysteresis_post (exactOps F sqrt) tHigh1 n1 fuel1
    (by rw [hnr1, hnc1]; exact hfuel1)
  have hzero : (exactOps F sqrt).ofInt 0 = (0 : F) := by simp [exactOps]
  have hin : ∀ p, Inside n1 p → Inside mag p := by
    intro p hp; unfold Inside at hp ⊢; rw [hnr1, hnc1] at hp; exact hp
  have hinn : ∀ p, Inside mag p → Inside n p := by
    intro p hp; unfold Inside at hp ⊢; rw [hnr, hnc]; exact hp
  have hkept : ∀ p, Inside mag p → n1.px p.1 p.2 ≠ 0 →
      n.px p.1 p.2 = n1.px p.1 p.2 := by
    intro p hp hne
    rw [hpx1 p hp] at hne ⊢
    rw [hpx p hp]
    by_cases hpos : 1 ≤ p.1 ∧ 1 ≤ p.2
    · rw [if_pos hpos] at hne ⊢
      rw [if_pos hpos]
      obtain ⟨k1, k2⟩ := nms_value_kept sqrt tLow tLow1 hLow mag quantized_unfiltered p hne
      rw [k1, k2]
    · rw [if_neg hpos, hzero] at hne
      exact absurd rfl hne
  have hnonneg : (∀ p, Inside mag p → 0 ≤ mag.px p.1 p.2) →
      ∀ p, Inside mag p → 0 ≤ n.px p.1 p.2 := by
    intro hmag p hp
    rw [hpx p hp]
    split
    · rcases nms_value_cases (exactOps F sqrt) tLow mag quantized_unfiltered p with h | h
      · rw [h, hzero]
      · rw [h]; exact hmag p hp
    · rw [hzero]
  have htrace : ∀ q, Traceable (exactOps F sqrt) n1 q → Traceable (exactOps F sqrt) n q := by
    rintro q ⟨h1, h2, h3, h4, h5⟩
    have hq : Inside mag q := ⟨by omega, by rw [← hnr1]; exact h2, by omega,
      by rw [← hnc1]; exact h4⟩
    have hge : ((1 / 100 : ℚ) : F) ≤ n1.px q.1 q.2 := by
      simpa [exactOps] using h5
    have hpos : (0 : F) < ((1 / 100 : ℚ) : F) := by
      have : (0 : ℚ) < 1 / 100 := by norm_num
      exact_mod_cast this
    have hne : n1.px q.1 q.2 ≠ 0 := ne_of_gt (lt_of_lt_of_le hpos hge)
    refine ⟨h1, by rw [hnr, ← hnr1]; exact h2, h3, by rw [hnc, ← hnc1]; exact h4, ?_⟩
    rw [hkept q hq hne]
    exact h5
  have hseed : ∀ s, Seed (exactOps F sqrt) tHigh1 n1 s → Seed (exactOps F sqrt) tHigh n s := by
    rintro s ⟨hs, hlt⟩
    have hs1 := hin s hs
    refine ⟨hinn s hs1, ?_⟩
    have hge : tHigh1 ≤ n1.px s.1 s.2 := by simpa [exactOps] using hlt
    have : tHigh ≤ n.px s.1 s.2 := by
      by_cases hne : n1.px s.1 s.2 = 0
      · rw [hne] at hge
        rcases hmag with hm | hpos
        · exact le_trans (le_trans hHigh hge) (hnonneg hm s hs1)
        · exact absurd (lt_of_lt_of_le hpos (le_trans hHigh hge)) (lt_irrefl 0)
      · rw [hkept s hs1 hne]
        exact le_trans hHigh hge
    simpa [exactOps] using this
  have hsub : ∀ p, Marked t1.canny_edge p → Marked t.canny_edge p := by
    intro p hp
    obtain ⟨s, hs, hreach⟩ := (hchar1 p).mp hp
    exact (hchar p).mpr ⟨s, hseed s hs,
      Relation.ReflTransGen.mono (fun a b h => ⟨h.1, htrace b h.2⟩) hreach⟩
  refine ⟨t.canny_edge, t1.canny_edge, ?_, ?_, hsub, ?_⟩
  · unfold curvature_edges
    rw [hn]
    simp only [bind, Except.bind]
    rw [ht]
  · unfold curvature_edges
    rw [hn1]
    simp only [bind, Except.bind]
    rw [ht1]
  · exact unmarked_mono _ _ (by rw [htr, htr1, hnr, hnr1]) (by rw [htc, htc1, hnc, hnc1]) hsub

end Thresholds

theorem peakImage_safe :
    NmsSafe (exactOps ℚ Rat.sqrt) (1 / 5) peakImage (constFrame 3 3 0) := by
  intro p h1 h2 h3 h4 hlt a b hab
  have hr : p.1 = 1 ∨ p.1 = 2 := by
    have : (peakImage.rows : Int) = 3 := rfl
    omega
  have hc : p.2 = 1 ∨ p.2 = 2 := by
    have : (peakImage.cols : Int) = 3 := rfl
    omega
  rcases hr with hr | hr <;> rcases hc with hc | hc <;> rw [hr, hc] at hlt hab ⊢
  · simp [nmsNeighbours, constFrame, Mat.px] at hab
    obtain ⟨rfl, rfl⟩ := hab
    exact ⟨by decide, by decide⟩
  all_goals
    simp [exactOps, peakImage, Mat.px] at hlt

theorem curvature_edges_antitone_witness :
    (1 / 5 : ℚ) ≤ 3 ∧ (11 / 10 : ℚ) ≤ 6 / 5
      ∧ ((∀ p, Inside peakImage p → 0 ≤ peakImage.px p.1 p.2) ∨ (0 : ℚ) < 11 / 10)
      ∧ NmsSafe (exactOps ℚ Rat.sqrt) (1 / 5) peakImage (constFrame 3 3 0)
      ∧ ∃ edges edges1,
          curvature_edges (exactOps ℚ Rat.sqrt) (1 / 5) (11 / 10) 10 peakImage (constFrame 3 3 0)
            = .ok edges
          ∧ curvature_edges (exactOps ℚ Rat.sqrt) 3 (6 / 5) 10 peakImage (constFrame 3 3 0)
              = .ok edges1
          ∧ (∀ p, Marked edges1 p → Marked edges p)
          ∧ unmarked edges ≤ unmarked edges1 := by
  have hmag : ∀ p, Inside peakImage p → 0 ≤ peakImage.px p.1 p.2 := by
    intro p _
    unfold Mat.px peakImage
    dsimp only
    split_ifs <;> norm_num
  exact ⟨by norm_num, by norm_num, Or.inl hmag, peakImage_safe,
    curvature_edges_antitone Rat.sqrt (1 / 5) 3 (11 / 10) (6 / 5) 10 10 peakImage
      (constFrame 3 3 0) (by norm_num) (by norm_num) (Or.inl hmag) rfl rfl peakImage_safe
      (by decide) (by decide)⟩

/-- In exact arithmetic the hysteresis stage applied to the result of the non-maximum
suppression marks the seeds and the pixels connected to a seed by an 8-connected path
inside the image with `mag_nms >= 0.01`: row 0 and column 0 of `mag_nms` are 0. -/
theorem curvature_edges_marks_paths {F : Type} [LinearOrderedField F] [FloorRing F]
    (sqrt : F → F) (tLow tHigh : F) (fuel : Nat) (mag : Mat F)
    (quantized_unfiltered : Mat Nat) (hqr : quantized_unfiltered.rows = mag.rows)
    (hqc : quantized_unfiltered.cols = mag.cols)
    (hsafe : NmsSafe (exactOps F sqrt) tLow mag quantized_unfiltered)
    (hfuel : mag.rows * mag.cols < fuel) :
    ∃ mag_nms t, non_max_suppression (exactOps F sqrt) tLow mag quantized_unfiltered
          = .ok mag_nms
      ∧ hysteresis (exactOps F sqrt) tHigh fuel mag_nms = .ok t
      ∧ curvature_edges (exactOps F sqrt) tLow tHigh fuel mag quantized_unfiltered
          = .ok t.canny_edge
      ∧ ∀ p, Marked t.canny_edge p ↔
          ∃ s, Seed (exactOps F sqrt) tHigh mag_nms s
            ∧ Relation.ReflTransGen (PathStep (exactOps F sqrt) mag_nms) s p := by
  obtain ⟨n, hn, hnr, hnc, hpx⟩ := non_max_suppression_post (exactOps F sqrt) tLow mag
    quantized_unfiltered hqr hqc hsafe
  obtain ⟨t, ht, _, _, hchar, _⟩ := hysteresis_post (exactOps F sqrt) tHigh n fuel
    (by rw [hnr, hnc]; exact hfuel)
  refine ⟨n, t, hn, ht, ?_, ?_⟩
  · unfold curvature_edges
    rw [hn]
    simp only [bind, Except.bind]
    rw [ht]
  · have hborder : ∀ p, Inside n p → p.1 = 0 ∨ p.2 = 0 →
        (exactOps F sqrt).lt (n.px p.1 p.2) ((exactOps F sqrt).ofLit (1 / 100)) = true := by
      intro p hp h0
      have hpm : Inside mag p := by
        unfold Inside at hp ⊢; rw [hnr, hnc] at hp; exact hp
      rw [hpx p hpm, if_neg (by omega)]
      simp [exactOps]
    have hstep : ∀ a b, TraceStep (exactOps F sqrt) n a b ↔ PathStep (exactOps F sqrt) n a b := by
      intro a b
      unfold TraceStep PathStep Traceable Inside
      constructor
      · rintro ⟨hadj, h1, h2, h3, h4, h5⟩
        exact ⟨hadj, ⟨by omega, h2, by omega, h4⟩, h5⟩
      · rintro ⟨hadj, ⟨h1, h2, h3, h4⟩, h5⟩
        have hne : ¬ (b.1 = 0 ∨ b.2 = 0) := by
          intro h0
          have := hborder b ⟨h1, h2, h3, h4⟩ h0
          rw [h5] at this
          cases this
        exact ⟨hadj, by omega, h2, by omega, h4, h5⟩
    intro p
    rw [hchar p]
    constructor
    · rintro ⟨s, hs, hreach⟩
      exact ⟨s, hs, Relation.ReflTransGen.mono (fun a b h => (hstep a b).mp h) hreach⟩
    · rintro ⟨s, hs, hreach⟩
      exact ⟨s, hs, Relation.ReflTransGen.mono (fun a b h => (hstep a b).mpr h) hreach⟩

/-! ## Reads of the non-maximum suppression -/

section SuppressionReads

variable {F : Type}

theorem okOrOob_keep_if_max (ops : FloatOps F) (mag : Mat F) (r c : Int) (mag_v : F)
    (r1 c1 r2 c2 : Int) (mag_nms : Mat F) :
    OkOrOob (keep_if_max ops mag r c mag_v r1 c1 r2 c2 mag_nms) := by
  unfold keep_if_max
  apply okOrOob_bind _ _ (okOrOob_at _ _ _)
  intro first
  split
  · apply okOrOob_bind _ _ (okOrOob_at _ _ _)
    intro second
    split
    · exact okOrOob_set _ _ _ _
    · exact okOrOob_ok _
  · exact okOrOob_ok _

theorem okOrOob_nms_pixel (ops : FloatOps F) (tLow : F) (mag : Mat F)
    (quantized_unfiltered : Mat Nat) (r c : Int) (mag_nms : Mat F) :
    OkOrOob (nms_pixel ops tLow mag quantized_unfiltered r c mag_nms) := by
  unfold nms_pixel
  apply okOrOob_bind _ _ (okOrOob_at _ _ _)
  intro mag_v
  apply okOrOob_bind _ _ (okOrOob_at _ _ _)
  intro _
  split
  · exact okOrOob_ok _
  · apply okOrOob_bind _ _ (okOrOob_at _ _ _)
    intro quant_angle
    split
    · exact okOrOob_keep_if_max _ _ _ _ _ _ _ _ _ _
    · split
      · exact okOrOob_keep_if_max _ _ _ _ _ _ _ _ _ _
      · split
        · exact okOrOob_keep_if_max _ _ _ _ _ _ _ _ _ _
        · split
          · exact okOrOob_keep_if_max _ _ _ _ _ _ _ _ _ _
          · exact okOrOob_ok _

/-- The masked orientation class of a pixel of the last column is 0. -/
theorem mask_orientations_last_column (q : Mat Nat) (r : Nat) (hcols : 0 < q.cols) :
    (mask_orientations q).px (r : Int) ((q.cols - 1 : Nat) : Int) = 0 := by
  unfold Mat.px mask_orientations
  dsimp only
  have hidx : ((r : Int) * (q.cols : Int) + ((q.cols - 1 : Nat) : Int)).toNat
      = r * q.cols + (q.cols - 1) := by
    rw [← Nat.cast_mul, ← Nat.cast_add, Int.toNat_natCast]
  rw [hidx, if_pos]
  right; right; right
  exact (index_div_mod q.cols r (q.cols - 1) (by omega)).2

/-- At a pixel of the last column that is not skipped the suppression reads the
magnitude of column `cols`. -/
theorem nms_pixel_last_column (ops : FloatOps F) (tLow : F) (mag : Mat F)
    (quantized_unfiltered : Mat Nat) (hqr : quantized_unfiltered.rows = mag.rows)
    (hqc : quantized_unfiltered.cols = mag.cols) (r : Nat) (hr : r < mag.rows)
    (hcols : 0 < mag.cols)
    (hmag : ops.lt (mag.px (r : Int) ((mag.cols - 1 : Nat) : Int)) tLow = false)
    (mag_nms : Mat F) :
    nms_pixel ops tLow mag (mask_orientations quantized_unfiltered) (r : Int)
      ((mag.cols - 1 : Nat) : Int) mag_nms = .error .outOfBounds := by
  unfold nms_pixel
  rw [at_inside mag _ _ (by omega)]
  simp only [bind, Except.bind]
  cases h : mag_nms.at? (r : Int) ((mag.cols - 1 : Nat) : Int) with
  | error e =>
    have := okOrOob_at mag_nms _ _ e h
    subst this
    rfl
  | ok v =>
    simp only [hmag, Bool.false_eq_true, if_false]
    have hclass := mask_orientations_last_column quantized_unfiltered r (by omega)
    rw [hqc] at hclass
    rw [at_inside (mask_orientations quantized_unfiltered) _ _ (by
      show 0 ≤ (r : Int) ∧ (r : Int) < (quantized_unfiltered.rows : Int)
        ∧ 0 ≤ ((mag.cols - 1 : Nat) : Int)
        ∧ ((mag.cols - 1 : Nat) : Int) < (quantized_unfiltered.cols : Int)
      rw [hqr, hqc]; omega)]
    simp only [hclass, if_true]
    unfold keep_if_max
    rw [at_outside mag _ _ (by omega)]
    rfl

end SuppressionReads

/-- C20: for every magnitude image on which the suppression loops skip the last row
and the last column (`mag < tLow` there, as for the magnitude of `get_depth_edge`,
which is 0 there) and every orientation-class image of the same size, every position
the loops read lies inside the image: the pixel `(r, c)` of a pass, in `mag`, in
`mag_nms`, which has the size of `mag`, and in the class image, and the two comparison
neighbours of its class in `mag` when the pixel is not skipped; and the suppression
returns, no read being outside. -/
theorem non_max_suppression_reads_inside {F : Type} (ops : FloatOps F) (tLow : F)
    (mag : Mat F) (quantized_unfiltered : Mat Nat)
    (hqr : quantized_unfiltered.rows = mag.rows) (hqc : quantized_unfiltered.cols = mag.cols)
    (hlast : LastSkipped ops tLow mag) :
    (∀ p : Int × Int, 1 ≤ p.1 → p.1 < (mag.rows : Int) → 1 ≤ p.2 → p.2 < (mag.cols : Int) →
        Inside mag p ∧ Inside quantized_unfiltered p
          ∧ (ops.lt (mag.px p.1 p.2) tLow = false →
              ∀ a b, nmsNeighbours (quantized_unfiltered.px p.1 p.2) = some (a, b) →
                Inside mag (p.1 + a.1, p.2 + a.2) ∧ Inside mag (p.1 + b.1, p.2 + b.2)))
      ∧ ∃ mag_nms, non_max_suppression ops tLow mag quantized_unfiltered = .ok mag_nms
          ∧ mag_nms.rows = mag.rows ∧ mag_nms.cols = mag.cols := by
  have hsafe := nmsSafe_of_last ops tLow mag quantized_unfiltered hlast
  refine ⟨?_, ?_⟩
  · intro p h1 h2 h3 h4
    have hin : Inside mag p := ⟨by omega, h2, by omega, h4⟩
    refine ⟨hin, ?_, fun hlt a b hab => hsafe p h1 h2 h3 h4 hlt a b hab⟩
    unfold Inside at hin ⊢
    rw [hqr, hqc]
    exact hin
  · obtain ⟨m, hm, hr, hc, _⟩ := non_max_suppression_post ops tLow mag quantized_unfiltered
      hqr hqc hsafe
    exact ⟨m, hm, hr, hc⟩

theorem non_max_suppression_reads_inside_witness :
    LastSkipped (exactOps ℚ Rat.sqrt) (1 / 5) ridgeImage
      ∧ (∀ p : Int × Int, 1 ≤ p.1 → p.1 < (ridgeImage.rows : Int) → 1 ≤ p.2 →
          p.2 < (ridgeImage.cols : Int) →
          Inside ridgeImage p ∧ Inside (constFrame 3 4 3) p
            ∧ ((exactOps ℚ Rat.sqrt).lt (ridgeImage.px p.1 p.2) (1 / 5) = false →
                ∀ a b, nmsNeighbours ((constFrame 3 4 3).px p.1 p.2) = some (a, b) →
                  Inside ridgeImage (p.1 + a.1, p.2 + a.2)
                    ∧ Inside ridgeImage (p.1 + b.1, p.2 + b.2)))
      ∧ ∃ mag_nms, non_max_suppression (exactOps ℚ Rat.sqrt) (1 / 5) ridgeImage
            (constFrame 3 4 3) = .ok mag_nms
          ∧ mag_nms.rows = ridgeImage.rows ∧ mag_nms.cols = ridgeImage.cols :=
  ⟨ridgeImage_last,
    non_max_suppression_reads_inside (exactOps ℚ Rat.sqrt) (1 / 5) ridgeImage
      (constFrame 3 4 3) rfl rfl ridgeImage_last⟩

/-- The pixels of the last column have to be skipped: for every magnitude image with at
least two columns and every orientation-class image of the same size whose border
classes are forced to 0 (`mask_orientations`), if some pixel of the last column in a
row `r ≥ 1` is not skipped (`mag < tLow` fails), the suppression loops, which run up to
`c = cols - 1`, read `mag.at(r, c+1)` in column `cols`. -/
theorem non_max_suppression_last_column {F : Type} (ops : FloatOps F) (tLow : F)
    (mag : Mat F) (quantized_unfiltered : Mat Nat)
    (hqr : quantized_unfiltered.rows = mag.rows) (hqc : quantized_unfiltered.cols = mag.cols)
    (r : Nat) (hr : 1 ≤ r ∧ r < mag.rows) (hcols : 2 ≤ mag.cols)
    (hmag : ops.lt (mag.px (r : Int) ((mag.cols - 1 : Nat) : Int)) tLow = false) :
    non_max_suppression ops tLow mag (mask_orientations quantized_unfiltered)
      = .error .outOfBounds := by
  unfold non_max_suppression
  apply foldlM_faults _ _ r
  · intro mag_nms
    apply foldlM_faults _ _ (mag.cols - 1)
    · intro mag_nms1
      exact nms_pixel_last_column ops tLow mag quantized_unfiltered hqr hqc r hr.2
        (by omega) hmag mag_nms1
    · exact (mem_interval _ _ _).mpr (by omega)
    · intro s c
      exact okOrOob_nms_pixel ops tLow mag _ _ _ s
  · exact (mem_interval _ _ _).mpr (by omega)
  · intro s r1
    apply okOrOob_foldlM
    intro s1 c
    exact okOrOob_nms_pixel ops tLow mag _ _ _ s1

/-! ## The border of the magnitude image -/

section MagnitudeBorder

variable {F : Type}

/-- A window filter widens the region outside which the image is 0 by its reach. -/
theorem zeroOutside_local (ops : FloatOps F) (k : Int) (f : Mat F → Mat F)
    (hf : ZeroLocal ops k f) (m : Mat F) (r0 r1 c0 c1 : Int)
    (h : ZeroOutside ops m r0 r1 c0 c1) :
    ZeroOutside ops (f m) (r0 - k) (r1 + k) (c0 - k) (c1 + k) := by
  obtain ⟨hr, hc, hloc⟩ := hf m
  intro p hp hout
  have hpm : Inside m p := by
    unfold Inside at hp ⊢; rw [hr, hc] at hp; exact hp
  apply hloc p hpm
  intro q hq h1 h2
  apply h q hq
  have k1 := abs_le.mp h1
  have k2 := abs_le.mp h2
  omega

theorem channel_px (normals : Mat (Vec3 F)) (k : Nat) (r c : Int) :
    (channel normals k).px r c
      = if k = 0 then (normals.px r c).x
        else if k = 1 then (normals.px r c).y
        else (normals.px r c).z :=
  rfl

/-- The channels of the normal field of `get_normal` are 0 outside the rows
`5, ..., H-7` and the columns `5, ..., W-7`, the pixels its loops visit. -/
theorem get_normal_margin (ops : FloatOps F) (depth : Mat Nat) (K : Option (Mat F))
    (k : Nat) :
    ZeroOutside ops (channel (get_normal ops depth K) k) 5 ((depth.rows : Int) - 7) 5
      ((depth.cols : Int) - 7) := by
  intro p hp hout
  have h1 : 0 ≤ p.1 := hp.1
  have h2 : p.1 < (depth.rows : Int) := hp.2.1
  have h3 : 0 ≤ p.2 := hp.2.2.1
  have h4 : p.2 < (depth.cols : Int) := hp.2.2.2
  have hpx := get_normal_px ops depth K p.1.toNat p.2.toNat (by omega)
  have hcond : ¬ (5 ≤ p.1.toNat ∧ p.1.toNat < depth.rows - 6 ∧ 5 ≤ p.2.toNat
      ∧ p.2.toNat < depth.cols - 6) := by omega
  rw [if_neg hcond, Int.toNat_of_nonneg h1, Int.toNat_of_nonneg h3] at hpx
  rw [channel_px, hpx]
  split_ifs <;> rfl

/-- The magnitude image of `get_depth_edge` has the size of the depth frame and is 0
in its first and last row and column, whatever the depth frame: the normals are 0
outside the rows `5, ..., H-7` and columns `5, ..., W-7`, and the 3 x 3 blur, the 3 x 3
Sobel filters and the 5 x 5 median filter reach 1, 1 and 2 pixels. -/
theorem magnitude_border (ops : FloatOps F) (flt : Filters (Mat F))
    (medianBlur : Mat F → Mat F) (hblur : ZeroLocal ops 1 flt.GaussianBlur)
    (hsx : ZeroLocal ops 1 flt.SobelX) (hsy : ZeroLocal ops 1 flt.SobelY)
    (hmed : ZeroLocal ops 2 medianBlur) (hzero : KeepsZero ops) (depth : Mat Nat)
    (K : Option (Mat F)) :
    (magnitude ops flt medianBlur (get_normal ops depth K)).rows = depth.rows
      ∧ (magnitude ops flt medianBlur (get_normal ops depth K)).cols = depth.cols
      ∧ ∀ p : Int × Int, Inside (magnitude ops flt medianBlur (get_normal ops depth K)) p →
          p.1 = 0 ∨ p.2 = 0 ∨ p.1 + 1 = (depth.rows : Int) ∨ p.2 + 1 = (depth.cols : Int) →
          (magnitude ops flt medianBlur (get_normal ops depth K)).px p.1 p.2
            = ops.ofInt 0 := by
  have hN0 := get_normal_margin ops depth K 0
  have hN1 := get_normal_margin ops depth K 1
  have hB := zeroOutside_local ops 1 _ hblur _ _ _ _ _ hN0
  have hX := zeroOutside_local ops 1 _ hsx _ _ _ _ _ hB
  have hY := zeroOutside_local ops 1 _ hsy _ _ _ _ _ hN1
  have hXr : (flt.SobelX (flt.GaussianBlur (channel (get_normal ops depth K) 0))).rows
      = depth.rows := by
    rw [(hsx _).1, (hblur _).1]; rfl
  have hXc : (flt.SobelX (flt.GaussianBlur (channel (get_normal ops depth K) 0))).cols
      = depth.cols := by
    rw [(hsx _).2.1, (hblur _).2.1]; rfl
  have hYc : (flt.SobelY (channel (get_normal ops depth K) 1)).cols = depth.cols := by
    rw [(hsy _).2.1]; rfl
  have hYr : (flt.SobelY (channel (get_normal ops depth K) 1)).rows = depth.rows := by
    rw [(hsy _).1]; rfl
  have hmag : magnitude ops flt medianBlur (get_normal ops depth K)
      = medianBlur
          { rows := (flt.SobelX (flt.GaussianBlur (channel (get_normal ops depth K) 0))).rows
            cols := (flt.SobelX (flt.GaussianBlur (channel (get_normal ops depth K) 0))).cols
            data := fun i => ops.sqrt (ops.add
              (ops.mul
                ((flt.SobelX (flt.GaussianBlur (channel (get_normal ops depth K) 0))).data i)
                ((flt.SobelX (flt.GaussianBlur (channel (get_normal ops depth K) 0))).data i))
              (ops.mul ((flt.SobelY (channel (get_normal ops depth K) 1)).data i)
                ((flt.SobelY (channel (get_normal ops depth K) 1)).data i))) } := by
    simp [magnitude, gradient_stage]
  rw [hmag]
  have hS : ZeroOutside ops
      ({ rows := (flt.SobelX (flt.GaussianBlur (channel (get_normal ops depth K) 0))).rows
         cols := (flt.SobelX (flt.GaussianBlur (channel (get_normal ops depth K) 0))).cols
         data := fun i => ops.sqrt (ops.add
           (ops.mul
             ((flt.SobelX (flt.GaussianBlur (channel (get_normal ops depth K) 0))).data i)
             ((flt.SobelX (flt.GaussianBlur (channel (get_normal ops depth K) 0))).data i))
           (ops.mul ((flt.SobelY (channel (get_normal ops depth K) 1)).data i)
             ((flt.SobelY (channel (get_normal ops depth K) 1)).data i))) } : Mat F)
      3 ((depth.rows : Int) - 5) 3 ((depth.cols : Int) - 5) := by
    intro p hp hout
    have hp1 : 0 ≤ p.1 ∧ p.1 < (depth.rows : Int) ∧ 0 ≤ p.2 ∧ p.2 < (depth.cols : Int) := by
      unfold Inside at hp
      dsimp only at hp
      rw [hXr, hXc] at hp
      exact hp
    have hx0 := hX p (by unfold Inside; rw [hXr, hXc]; exact hp1) (by omega)
    have hy0 := hY p (by unfold Inside; rw [hYr, hYc]; exact hp1) (by omega)
    unfold Mat.px at hx0 hy0 ⊢
    dsimp only
    rw [hYc, ← hXc] at hy0
    rw [hx0, hy0, hzero.1, hzero.2.1, hzero.2.2]
  have hM := zeroOutside_local ops 2 _ hmed _ _ _ _ _ hS
  refine ⟨by rw [(hmed _).1]; exact hXr, by rw [(hmed _).2.1]; exact hXc, ?_⟩
  intro p hp hb
  apply hM p hp
  have hp1 : p.1 < (depth.rows : Int) ∧ p.2 < (depth.cols : Int) := by
    unfold Inside at hp
    rw [(hmed _).1, (hmed _).2.1] at hp
    dsimp only at hp
    rw [hXr, hXc] at hp
    exact ⟨hp.2.1, hp.2.2.2⟩
  omega

/-- The suppression loops skip the first and the last row and column of the magnitude
image of `get_depth_edge` when 0 passes the test `mag_v < tLow`. -/
theorem magnitude_border_skipped (ops : FloatOps F) (flt : Filters (Mat F))
    (medianBlur : Mat F → Mat F) (hblur : ZeroLocal ops 1 flt.GaussianBlur)
    (hsx : ZeroLocal ops 1 flt.SobelX) (hsy : ZeroLocal ops 1 flt.SobelY)
    (hmed : ZeroLocal ops 2 medianBlur) (hzero : KeepsZero ops) (depth : Mat Nat)
    (K : Option (Mat F)) (tLow : F) (hlow : ops.lt (ops.ofInt 0) tLow = true) :
    FirstSkipped ops tLow (magnitude ops flt medianBlur (get_normal ops depth K))
      ∧ LastSkipped ops tLow (magnitude ops flt medianBlur (get_normal ops depth K)) := by
  obtain ⟨hr, hc, hb⟩ := magnitude_border ops flt medianBlur hblur hsx hsy hmed hzero depth K
  constructor
  · intro p hp h0
    rw [hb p hp (by omega)]
    exact hlow
  · intro p hp h0
    rw [hr, hc] at h0
    rw [hb p hp (by omega)]
    exact hlow

/-- On the magnitude image of `get_depth_edge` the comparison neighbours of every pixel
the suppression loops do not skip lie inside the image, and the suppression returns. -/
theorem magnitude_suppression_returns (ops : FloatOps F) (flt : Filters (Mat F))
    (medianBlur : Mat F → Mat F) (hblur : ZeroLocal ops 1 flt.GaussianBlur)
    (hsx : ZeroLocal ops 1 flt.SobelX) (hsy : ZeroLocal ops 1 flt.SobelY)
    (hmed : ZeroLocal ops 2 medianBlur) (hzero : KeepsZero ops) (depth : Mat Nat)
    (K : Option (Mat F)) (tLow : F) (hlow : ops.lt (ops.ofInt 0) tLow = true)
    (quantized_unfiltered : Mat Nat)
    (hqr : quantized_unfiltered.rows = depth.rows)
    (hqc : quantized_unfiltered.cols = depth.cols) :
    NmsSafe ops tLow (magnitude ops flt medianBlur (get_normal ops depth K))
        quantized_unfiltered
      ∧ ∃ mag_nms, non_max_suppression ops tLow
          (magnitude ops flt medianBlur (get_normal ops depth K)) quantized_unfiltered
            = .ok mag_nms := by
  obtain ⟨hr, hc, _⟩ := magnitude_border ops flt medianBlur hblur hsx hsy hmed hzero depth K
  have hsafe := nmsSafe_of_last ops tLow _ quantized_unfiltered
    (magnitude_border_skipped ops flt medianBlur hblur hsx hsy hmed hzero depth K tLow hlow).2
  obtain ⟨m, hm, _⟩ := non_max_suppression_post ops tLow _ quantized_unfiltered
    (by rw [hr]; exact hqr) (by rw [hc]; exact hqc) hsafe
  exact ⟨hsafe, m, hm⟩

/-- The filter that returns its image has the property `ZeroLocal` for every reach. -/
theorem zeroLocal_id (ops : FloatOps F) (k : Int) (hk : 0 ≤ k) :
    ZeroLocal ops k (fun m => m) := by
  intro m
  refine ⟨rfl, rfl, ?_⟩
  intro p hp h
  exact h p hp (by simpa using hk) (by simpa using hk)

end MagnitudeBorder

/-- The binary32 operations keep zero. -/
theorem keepsZero_binary32 : KeepsZero binary32 := by
  have h0 : binary32.ofInt 0 = .fin 0 := by
    show F32.round ((0 : Int) : ℚ) = _
    rw [Int.cast_zero, F32.round_zero]
  refine ⟨?_, ?_, ?_⟩
  · rw [h0]
    show F32.round (0 * 0) = _
    rw [mul_zero, F32.round_zero]
  · rw [h0]
    show F32.round (0 + 0) = _
    rw [add_zero, F32.round_zero]
  · rw [h0]
    show (if (0 : ℚ) < 0 then F32.nan else if (0 : ℚ) = 0 then F32.fin 0
      else F32.sqrtPos 0) = _
    simp

/-! ## Reads of the occlusion detector -/

/-- In the last interior row the search of the all-neighbours-valid case reads the
normals of row `r + 2 = rows`, and in the last interior column those of column
`c + 2 = cols`. -/
theorem max_search_outside {F : Type} (ops : FloatOps F) (normals : Mat (Vec3 F))
    (fx fy : F) (r c : Int) (dep_dn : Int → Int → Int)
    (hlast : r + 2 = (normals.rows : Int) ∨ c + 2 = (normals.cols : Int)) :
    max_search ops normals fx fy r c dep_dn = .error .outOfBounds := by
  have hok : ∀ (m : MaxSearch F) (i : Int), OkOrOob ([0, 1, 2].foldlM
      (fun m j => max_step ops normals fx fy r c dep_dn i j m) m) := by
    intro m i
    apply okOrOob_foldlM
    intro m1 j
    exact okOrOob_max_step ops normals fx fy r c dep_dn i j m1
  unfold max_search
  rcases hlast with h | h
  · apply foldlM_faults _ hok 2 _ _ (by simp)
    intro m
    rw [List.foldlM_cons, max_step_outside ops normals fx fy r c dep_dn 2 0 m (by omega)]
    rfl
  · apply foldlM_faults _ hok 0 _ _ (by simp)
    intro m
    apply foldlM_faults _ _ 2 _ _ (by simp)
    · intro m1 j
      exact okOrOob_max_step ops normals fx fy r c dep_dn 0 j m1
    · intro m1
      exact max_step_outside ops normals fx fy r c dep_dn 0 2 m1 (by omega)

theorem holeFrame_scan :
    ∃ s, neighbour_scan (exactOps ℚ Rat.sqrt) holeFrame 1 1 1000 = .ok s
      ∧ s.invalid = true ∧ s.dx = 1 ∧ s.dy = 0 ∧ s.invalid_count = 1 := by
  refine ⟨_, rfl, rfl, ?_, ?_, rfl⟩
  · simp [exactOps]
  · simp [exactOps]

/-- C19 (the code departs from the claim): for every normal field, at every pixel of
the last interior row (`r + 2 = rows`) or column (`c + 2 = cols`) the search of the
all-neighbours-valid case reads a normal outside the field.  In the 3 x 3 frame
`holeFrame` the right neighbour of the centre is missing: the directional search from
`(1, 1)` in the direction `dx = 1`, `dy = 0` passes the test `new_c > depth.cols` with
`new_c = 3 = cols` at radius 2 and samples the depth at `(1, 3)`, outside the frame, and
so does the pixel body of the occlusion detector. -/
theorem occlusion_detector_reads_outside :
    (∀ (F : Type) (ops : FloatOps F) (normals : Mat (Vec3 F)) (fx fy : F) (r c : Int)
        (dep_dn : Int → Int → Int),
        r + 2 = (normals.rows : Int) ∨ c + 2 = (normals.cols : Int) →
        max_search ops normals fx fy r c dep_dn = .error .outOfBounds)
      ∧ directional_search (exactOps ℚ Rat.sqrt) holeFrame 1 1 1 0 [1, 2]
          = .error .outOfBounds
      ∧ occ_pixel (exactOps ℚ Rat.sqrt) binary64 holeFrame ⟨3, 3, fun _ => ⟨0, 0, 0⟩⟩ 530 530
          1 1 (constFrame 3 3 0) = .error .outOfBounds := by
  refine ⟨fun F ops normals fx fy r c dep_dn h =>
    max_search_outside ops normals fx fy r c dep_dn h, ?_, ?_⟩
  · simp [exactOps, directional_search, Mat.at?, Mat.px, holeFrame, bind, Except.bind]
  · obtain ⟨s, hs, hinv, hdx, hdy, hcnt⟩ := holeFrame_scan
    have hl : (interval 1 50).map (fun radius => (radius : Int))
        = 1 :: 2 :: (interval 3 50).map (fun radius => (radius : Int)) := by rfl
    unfold occ_pixel
    rw [at_inside holeFrame 1 1 (by decide)]
    have hpx : holeFrame.px 1 1 = 1000 := by decide
    simp only [bind, Except.bind, hpx]
    rw [show ((1000 : Nat) : Int) = 1000 by rfl, hs]
    simp only [show ¬ ((1000 : Int) = 0) by decide, if_false, hinv, Bool.not_true, hdx, hdy,
      hcnt, hl]
    simp [exactOps, directional_search, Mat.at?, Mat.px, holeFrame, bind, Except.bind]

end PoseRefine
